import Mathlib

/-!
# Order book matching core (`orderbook.go`)

A shallow embedding of the Go program and proofs about it.

* Orders are reached through pointers (`*Order`): the embedding has a heap
  mapping addresses to `Order` values, the book holds two lists of addresses, and
  the matching loop changes `remainingQuantity` through the address, so that an
  order can still be inspected after it has left the book. Addresses are never
  nil.
* `Quantity` is `uint32`: quantities are naturals below `2^32` and subtraction
  wraps (`subQ`). `Price` is `int32`; prices are only compared, never computed
  with, so they are plain integers.
* `MatchOrder` is an unbounded `for` loop. It is embedded with a fuel argument
  counting loop-head evaluations, and returns `none` only when the fuel runs out
  before the loop breaks.
* `sort.Slice` is library code. The program uses the `slices` package and the
  builtin `min`, so it needs Go 1.21 or later, where `sort.Slice` runs
  `pdqsort_func`: insertion sort on at most 12 elements (embedded as
  `insertionSort`), and for longer slices an unstable algorithm that is left as a
  parameter `pdq` with the documented contract `SortContract`.
* Reachable states are those obtained from `NewOrderBook()` by calls
  `AddOrder(NewOrder(...))`, each on a newly created order.
-/

set_option autoImplicit false

namespace Orderbook

/-! ## Data model -/

/-! The Go types `OrderType` and `Side` (`int`), `Price` (`int32`) are embedded
as `Int`; `Quantity` (`uint32`), `OrderId` (`uint64`) and the address of an
`Order` (`*Order`) are embedded as `Nat`. -/

def GoodTillCancel : Int := 0
def FillandKill : Int := 1

def Unknown : Int := 0
def Buy : Int := 1
def Sell : Int := 2

/-- Subtraction of `uint32` values, wrapping modulo `2^32`. -/
def subQ (a b : Nat) : Nat := (a + 4294967296 - b % 4294967296) % 4294967296

structure Order where
  orderType : Int
  orderId : Nat
  side : Int
  price : Int
  initialQuantity : Nat
  remainingQuantity : Nat
deriving DecidableEq, Repr

def NewOrder (orderType : Int) (orderId : Nat) (side : Int) (price : Int)
    (quantity : Nat) : Order :=
  { orderType := orderType
    orderId := orderId
    side := side
    price := price
    initialQuantity := quantity
    remainingQuantity := quantity }

def Order.InitialQuantity (o : Order) : Nat := o.initialQuantity

def Order.RemainingQuantity (o : Order) : Nat := o.remainingQuantity

def Order.FilledQuantity (o : Order) : Nat :=
  subQ o.InitialQuantity o.RemainingQuantity

/-- The memory holding every `Order` value, by address. -/
abbrev Heap := Nat → Order

structure OrderBook where
  bids : List Nat
  asks : List Nat
deriving DecidableEq, Repr

def NewOrderBook : OrderBook := { bids := [], asks := [] }

/-- Program state: the heap of orders, the next unused address, and the book. -/
structure State where
  heap : Heap
  next : Nat
  ob : OrderBook

/-- The assignment `p.remainingQuantity = q` through the pointer `p`. -/
def setRemaining (h : Heap) (p : Nat) (q : Nat) : Heap :=
  fun x => if x = p then { h p with remainingQuantity := q } else h x

/-! ## `sort.Slice`

`sort.Slice` belongs to the Go standard library. Its `pdqsort_func` sorts a slice
of at most 12 elements with `insertionSort_func`; that part is embedded as
`insertionSort`. For longer slices the algorithm is a parameter `pdq`, about
which only the documented contract (`SortContract`) is assumed: the result is a
permutation, sorted with respect to `less`, and not necessarily stable. -/

/-- Inner loop of `insertionSort_func`: `x` is swapped leftwards past each
element `y` with `less x y`. The sorted part to the left of `x` is given in
reverse order (nearest element first), and so is the result. -/
def insertLeft (less : Nat → Nat → Bool) (x : Nat) : List Nat → List Nat
  | [] => [x]
  | y :: rest => if less x y then y :: insertLeft less x rest else x :: y :: rest

/-- The Go function `insertionSort_func`: elements are taken left to right and each is
moved left into the part sorted so far. -/
def insertionSort (less : Nat → Nat → Bool) (l : List Nat) : List Nat :=
  (l.foldl (fun acc x => insertLeft less x acc) []).reverse

/-- The Go function `sort.Slice(l, less)`. -/
def sortSlice (pdq : (Nat → Nat → Bool) → List Nat → List Nat)
    (less : Nat → Nat → Bool) (l : List Nat) : List Nat :=
  if l.length ≤ 12 then insertionSort less l else pdq less l

/-- The documented contract of `sort.Slice` for a comparison that is a strict
weak ordering: the result is a rearrangement of the input in which no element
is `less` than one before it. -/
def SortContract (srt : (Nat → Nat → Bool) → List Nat → List Nat) : Prop :=
  ∀ (less : Nat → Nat → Bool) (l : List Nat),
    (∀ a b, less a b = true → less b a = false) →
    (∀ a b c, less a b = false → less b c = false → less a c = false) →
    (srt less l).Perm l ∧ (srt less l).Pairwise (fun a b => less b a = false)

/-! ## The matching loop -/

/-- One evaluation of the body of the `for` loop of `MatchOrder`:
`none` is `break`, `some s` is the state at the end of a trading iteration. -/
def matchIter (s : State) : Option State :=
  match s.ob.bids, s.ob.asks with
  | [], _ => none
  | _ :: _, [] => none
  | topBid :: bids, topAsk :: asks =>
    if (s.heap topBid).price < (s.heap topAsk).price then none
    else
      let filledQuantity :=
        min (s.heap topBid).remainingQuantity (s.heap topAsk).remainingQuantity
      let h1 := setRemaining s.heap topBid
        (subQ (s.heap topBid).remainingQuantity filledQuantity)
      let h2 := setRemaining h1 topAsk (subQ (h1 topAsk).remainingQuantity filledQuantity)
      let bids1 := if (h2 topBid).remainingQuantity = 0 then bids else topBid :: bids
      let asks1 := if (h2 topAsk).remainingQuantity = 0 then asks else topAsk :: asks
      some { heap := h2, next := s.next, ob := { bids := bids1, asks := asks1 } }

/-- `MatchOrder`, with `fuel` bounding the number of times the loop head is
reached; `none` means the loop was still running when the fuel ran out. -/
def MatchOrder : Nat → State → Option State
  | 0, _ => none
  | fuel + 1, s =>
    match matchIter s with
    | none => some s
    | some s1 => MatchOrder fuel s1

/-- Number of trading iterations `MatchOrder` performs within `fuel` loop-head
evaluations. -/
def tradeCount : Nat → State → Nat
  | 0, _ => 0
  | fuel + 1, s =>
    match matchIter s with
    | none => 0
    | some s1 => tradeCount fuel s1 + 1

/-- The insertion part of `AddOrder`: append to the side named by `o.side`
and re-sort that side. -/
def insertOrder (pdq : (Nat → Nat → Bool) → List Nat → List Nat) (s : State) (o : Nat) :
    State :=
  let s1 : State :=
    if (s.heap o).side = Buy then
      { heap := s.heap, next := s.next,
        ob := { bids := sortSlice pdq
                  (fun i j => decide ((s.heap i).price > (s.heap j).price)) (s.ob.bids ++ [o]),
                asks := s.ob.asks } }
    else s
  if (s1.heap o).side = Sell then
    { heap := s1.heap, next := s1.next,
      ob := { bids := s1.ob.bids,
              asks := sortSlice pdq
                (fun i j => decide ((s1.heap i).price < (s1.heap j).price))
                (s1.ob.asks ++ [o]) } }
  else s1

def AddOrder (pdq : (Nat → Nat → Bool) → List Nat → List Nat) (fuel : Nat) (s : State)
    (o : Nat) : Option State :=
  MatchOrder fuel (insertOrder pdq s o)

/-- Allocation of a new order at the next unused address (`&Order{...}`). -/
def allocOrder (s : State) (o : Order) : State :=
  { heap := fun x => if x = s.next then o else s.heap x, next := s.next + 1, ob := s.ob }

/-- The call `ob.AddOrder(NewOrder(orderType, orderId, side, price, quantity))`:
the new order is stored at address `s.next`. -/
def submitOrder (pdq : (Nat → Nat → Bool) → List Nat → List Nat) (fuel : Nat) (s : State)
    (orderType : Int) (orderId : Nat) (side : Int) (price : Int)
    (quantity : Nat) : Option State :=
  AddOrder pdq fuel (allocOrder s (NewOrder orderType orderId side price quantity)) s.next

/-- The zero value `Order{}`. -/
def zeroOrder : Order :=
  { orderType := 0, orderId := 0, side := 0, price := 0, initialQuantity := 0,
    remainingQuantity := 0 }

/-- A program state whose book is empty (`NewOrderBook()`): `h` is the memory
and `n` the next unused address. -/
def emptyBookState (h : Heap) (n : Nat) : State := { heap := h, next := n, ob := NewOrderBook }

/-- Initial program state: nothing allocated, the book is `NewOrderBook()`. -/
def initState : State := emptyBookState (fun _ => zeroOrder) 0

/-- States in which a call of `AddOrder` on a newly created order has just
returned, starting from `NewOrderBook()`. -/
inductive Reachable (pdq : (Nat → Nat → Bool) → List Nat → List Nat) : State → Prop
  | init : Reachable pdq initState
  | submit {s s1 : State} (fuel : Nat) (orderType : Int) (orderId : Nat)
      (side : Int) (price : Int) (quantity : Nat) :
      Reachable pdq s → quantity < 4294967296 →
      submitOrder pdq fuel s orderType orderId side price quantity = some s1 →
      Reachable pdq s1

/-- Every state the program passes through, at the granularity of loop
iterations: the initial state, the state right after the insertion part of an
`AddOrder` call (made when the previous call has returned, that is when the
matching loop has stopped), and the state after each trading iteration. -/
inductive Visited (pdq : (Nat → Nat → Bool) → List Nat → List Nat) : State → Prop
  | init : Visited pdq initState
  | insert {s : State} (orderType : Int) (orderId : Nat)
      (side : Int) (price : Int) (quantity : Nat) :
      Visited pdq s → matchIter s = none → quantity < 4294967296 →
      Visited pdq
        (insertOrder pdq (allocOrder s (NewOrder orderType orderId side price quantity)) s.next)
  | trade {s s1 : State} : Visited pdq s → matchIter s = some s1 → Visited pdq s1

/-! ## Predicates on states -/

/-- Bids are in non-increasing price order, asks in non-decreasing price order. -/
def SortedBook (s : State) : Prop :=
  s.ob.bids.Pairwise (fun x y => (s.heap y).price ≤ (s.heap x).price) ∧
  s.ob.asks.Pairwise (fun x y => (s.heap x).price ≤ (s.heap y).price)

/-- Every order in `bids` has side `Buy`, every order in `asks` has side `Sell`,
and all of them have been allocated. -/
def SidesOK (s : State) : Prop :=
  (∀ p ∈ s.ob.bids, (s.heap p).side = Buy ∧ p < s.next) ∧
  (∀ p ∈ s.ob.asks, (s.heap p).side = Sell ∧ p < s.next)

/-- The quantity invariant `remainingQuantity ≤ initialQuantity < 2^32` for
every order in memory. -/
def QuantitiesOK (s : State) : Prop :=
  ∀ p, (s.heap p).remainingQuantity ≤ (s.heap p).initialQuantity ∧
    (s.heap p).initialQuantity < 4294967296

/-- No order is held by both sides of the book. -/
def SidesDisjoint (s : State) : Prop := ∀ p ∈ s.ob.bids, p ∉ s.ob.asks

instance (s : State) : Decidable (SidesDisjoint s) :=
  inferInstanceAs (Decidable (∀ p ∈ s.ob.bids, p ∉ s.ob.asks))

/-- The book is not crossed: a side is empty or the head bid is priced below
the head ask. -/
def NoCross (s : State) : Prop :=
  s.ob.bids = [] ∨ s.ob.asks = [] ∨
    ∃ b a, s.ob.bids.head? = some b ∧ s.ob.asks.head? = some a ∧
      (s.heap b).price < (s.heap a).price

/-- The invariant of the program: sorted sides, orders on the side their
`side` field names, and quantities within bounds. -/
def Inv (s : State) : Prop := SortedBook s ∧ SidesOK s ∧ QuantitiesOK s

/-! ## States used as concrete instances -/

/-- The state after `AddOrder(Buy 10@100)` on the empty book. -/
def exampleMid : State :=
  (submitOrder insertionSort 3 initState GoodTillCancel 1 Buy 100 10).getD initState

/-- The state after a further `AddOrder(Sell 5@101)`: both orders rest. -/
def exampleBook : State :=
  (submitOrder insertionSort 3 exampleMid GoodTillCancel 2 Sell 101 5).getD initState

/-- The state right after the insertion part of `AddOrder(Sell 4@99)` on
`exampleMid`: the book is crossed and the loop has not run yet. -/
def exampleCrossed : State :=
  insertOrder insertionSort (allocOrder exampleMid (NewOrder GoodTillCancel 2 Sell 99 4))
    exampleMid.next

/-- The state after the one trading iteration from `exampleCrossed`. -/
def exampleTraded : State := (matchIter exampleCrossed).getD initState

/-! ## Ledger of fills -/

/-- Quantity traded by the next iteration of the matching loop (0 when a side
is empty). -/
def tradeQuantity (s : State) : Nat :=
  match s.ob.bids, s.ob.asks with
  | topBid :: _, topAsk :: _ =>
    min (s.heap topBid).remainingQuantity (s.heap topAsk).remainingQuantity
  | _, _ => 0

/-- A ledger `g` of the amount filled per order, after the trade the next
iteration makes is credited to the head bid and to the head ask. -/
def creditFill (s : State) (g : Nat → Nat) : Nat → Nat :=
  fun x => g x + (if s.ob.bids.head? = some x then tradeQuantity s else 0) +
    (if s.ob.asks.head? = some x then tradeQuantity s else 0)

/-- The states the program passes through (as `Visited`), each with the ledger
of the amounts really traded so far by every order. -/
inductive Trace (pdq : (Nat → Nat → Bool) → List Nat → List Nat) :
    State → (Nat → Nat) → Prop
  | init : Trace pdq initState (fun _ => 0)
  | insert {s : State} {g : Nat → Nat} (orderType : Int) (orderId : Nat)
      (side : Int) (price : Int) (quantity : Nat) :
      Trace pdq s g → matchIter s = none → quantity < 4294967296 →
      Trace pdq
        (insertOrder pdq (allocOrder s (NewOrder orderType orderId side price quantity)) s.next)
        g
  | trade {s s1 : State} {g : Nat → Nat} :
      Trace pdq s g → matchIter s = some s1 → Trace pdq s1 (creditFill s g)

/-- The heap `h` with the `orderType` field of the order at address `p` set
to `t`. -/
def retype (h : Heap) (p : Nat) (t : Int) : Heap :=
  fun x => if x = p then { h p with orderType := t } else h x

/-- The state `s` with the `orderType` field of the order at address `p` set
to `t`, everything else as it is. -/
def setOrderType (s : State) (p : Nat) (t : Int) : State :=
  { heap := retype s.heap p t, next := s.next, ob := s.ob }

/-- A book in which one order (Buy 5@100, at address 0) is held by both
`bids` and `asks`. -/
def aliasedBook : State :=
  { heap := fun _ => NewOrder GoodTillCancel 7 Buy 100 5, next := 1,
    ob := { bids := [0], asks := [0] } }

/-- A book with the resting orders Buy 5@100 (address 0) and Sell 0@90
(address 1, `remainingQuantity` 0), whose sides share no order. -/
def crossedBook : State :=
  { heap := fun x => if x = 0 then NewOrder GoodTillCancel 7 Buy 100 5
      else NewOrder GoodTillCancel 8 Sell 90 0,
    next := 2, ob := { bids := [0], asks := [1] } }

/-! ## Accessors of `Order` -/

def Order.OrderId (o : Order) : Nat := o.orderId

def Order.Side (o : Order) : Int := o.side

def Order.Price (o : Order) : Int := o.price

def Order.OrderType (o : Order) : Int := o.orderType

/-- The state `s` with the order `v` stored at address `x` and the next unused
address set to `n`; the book is as it is. -/
def withOrder (s : State) (x : Nat) (v : Order) (n : Nat) : State :=
  { heap := fun y => if y = x then v else s.heap y, next := n, ob := s.ob }

/-- States in which a call of `AddOrder` on a newly created order has just
returned, starting from `NewOrderBook()`, every order having been created with a
quantity above zero. -/
inductive ReachablePos (pdq : (Nat → Nat → Bool) → List Nat → List Nat) : State → Prop
  | init : ReachablePos pdq initState
  | submit {s s1 : State} (fuel : Nat) (orderType : Int) (orderId : Nat)
      (side : Int) (price : Int) (quantity : Nat) :
      ReachablePos pdq s → 0 < quantity → quantity < 4294967296 →
      submitOrder pdq fuel s orderType orderId side price quantity = some s1 →
      ReachablePos pdq s1

/-- No address is held twice by `bids`, nor twice by `asks`. -/
def NoDuplicates (s : State) : Prop := s.ob.bids.Nodup ∧ s.ob.asks.Nodup

instance (s : State) : Decidable (NoDuplicates s) :=
  inferInstanceAs (Decidable (s.ob.bids.Nodup ∧ s.ob.asks.Nodup))

/-- Every order in the book has a remaining quantity above zero. -/
def RestingPositive (s : State) : Prop :=
  ∀ p, p ∈ s.ob.bids ∨ p ∈ s.ob.asks → 0 < (s.heap p).remainingQuantity

/-- The invariant `Inv` together with the absence of duplicates and of filled
orders in the book. -/
def PosInv (s : State) : Prop := Inv s ∧ NoDuplicates s ∧ RestingPositive s

/-- The heap `h` with the `orderId` field of the order at address `p` set to `i`. -/
def reid (h : Heap) (p : Nat) (i : Nat) : Heap :=
  fun x => if x = p then { h p with orderId := i } else h x

/-- The state `s` with the `orderId` field of the order at address `p` set to
`i`, everything else as it is. -/
def setOrderId (s : State) (p : Nat) (i : Nat) : State :=
  { heap := reid s.heap p i, next := s.next, ob := s.ob }

/-! ## Books without shared orders -/

/-- No order is held twice by the book: not twice by `bids`, not twice by
`asks`, and not by both. -/
def NoAlias (s : State) : Prop := NoDuplicates s ∧ SidesDisjoint s

instance (s : State) : Decidable (NoAlias s) :=
  inferInstanceAs (Decidable (NoDuplicates s ∧ SidesDisjoint s))

/-- Every `remainingQuantity` in memory is a `uint32` value. -/
def RemTyped (s : State) : Prop := ∀ p, (s.heap p).remainingQuantity < 4294967296

/-- Sum of `remainingQuantity` over the entries of a side of the book. -/
def sumRemaining (h : Heap) (l : List Nat) : Nat :=
  (l.map (fun p => (h p).remainingQuantity)).sum

/-- A book whose `bids` holds the same order (Buy 5@100, address 0) twice, as
left by two calls of `AddOrder` on that order, facing a Sell 3@100 (address 1). -/
def duplicateBook : State :=
  { heap := fun x => if x = 0 then NewOrder GoodTillCancel 7 Buy 100 5
      else NewOrder GoodTillCancel 8 Sell 100 3,
    next := 2, ob := { bids := [0, 0], asks := [1] } }

/-- The relation between a book `s` and a later book `t` of the same matching
run: each side of `t` is what is left of that side of `s` after dropping orders
from the front, the dropped orders have `remainingQuantity` 0, the orders behind
the head of each side are as they were, and no order has changed but in its
`remainingQuantity`, which has not grown. -/
def Consumed (s t : State) : Prop :=
  (∃ dropped, s.ob.bids = dropped ++ t.ob.bids ∧
    ∀ p ∈ dropped, (t.heap p).remainingQuantity = 0) ∧
  (∃ dropped, s.ob.asks = dropped ++ t.ob.asks ∧
    ∀ p ∈ dropped, (t.heap p).remainingQuantity = 0) ∧
  (∀ p ∈ t.ob.bids.tail, t.heap p = s.heap p) ∧
  (∀ p ∈ t.ob.asks.tail, t.heap p = s.heap p) ∧
  (∀ p, (t.heap p).orderType = (s.heap p).orderType ∧
    (t.heap p).orderId = (s.heap p).orderId ∧
    (t.heap p).side = (s.heap p).side ∧
    (t.heap p).price = (s.heap p).price ∧
    (t.heap p).initialQuantity = (s.heap p).initialQuantity ∧
    (t.heap p).remainingQuantity ≤ (s.heap p).remainingQuantity)

/-! ## An unstable sort, and books for the claims on insertion -/

/-- A sorting algorithm that the contract of `sort.Slice` allows and that does
not keep elements of equal rank in their order: insertion sort of the reversed
slice. -/
def reversingSort (less : Nat → Nat → Bool) (l : List Nat) : List Nat :=
  insertionSort less l.reverse

/-- A crossed book: Buy 5@100 (address 0) and Sell 5@90 (address 1). -/
def crossedPair : State :=
  { heap := fun x => if x = 0 then NewOrder GoodTillCancel 7 Buy 100 5
      else NewOrder GoodTillCancel 8 Sell 90 5,
    next := 2, ob := { bids := [0], asks := [1] } }

/-- A book of twelve resting Buy orders 5@100 (addresses 0 to 11, in order of
arrival) and no asks. -/
def twelveBids : State :=
  { heap := fun x => NewOrder GoodTillCancel x Buy 100 5,
    next := 12, ob := { bids := List.range 12, asks := [] } }

/-- A book of twelve resting Sell orders 5@100 (addresses 0 to 11, in order of
arrival) and no bids. -/
def twelveAsks : State :=
  { heap := fun x => NewOrder GoodTillCancel x Sell 100 5,
    next := 12, ob := { bids := [], asks := List.range 12 } }

/-! ## Liquidity within a limit price -/

/-- Sum of `remainingQuantity` over the asks of `l` priced at or below `p`. -/
def eligibleAsks (h : Heap) (p : Int) (l : List Nat) : Nat :=
  sumRemaining h (l.filter (fun a => decide ((h a).price ≤ p)))

/-- Sum of `remainingQuantity` over the bids of `l` priced at or above `p`. -/
def eligibleBids (h : Heap) (p : Int) (l : List Nat) : Nat :=
  sumRemaining h (l.filter (fun b => decide (p ≤ (h b).price)))

/-- A book whose `asks` holds the same order (Sell 3@100, address 0) twice, as
left by two calls of `AddOrder` on that order, and no bids. -/
def duplicateAsks : State :=
  { heap := fun _ => NewOrder GoodTillCancel 7 Sell 100 3,
    next := 1, ob := { bids := [], asks := [0, 0] } }

/-! ## One order submitted twice -/

/-- The state after `AddOrder(o)` on the empty book, for a new order `o` =
Buy 5@100 (address 0). -/
def onceBook : State :=
  (submitOrder insertionSort 2 initState GoodTillCancel 1 Buy 100 5).getD initState

/-- The state after a second `AddOrder(o)` on the same order: `bids` holds
address 0 twice. -/
def twiceBook : State := (AddOrder insertionSort 2 onceBook 0).getD initState

/-- The state after a further `AddOrder` of a new Sell 5@100 (address 1). -/
def twiceFilled : State :=
  (submitOrder insertionSort 3 twiceBook GoodTillCancel 2 Sell 100 5).getD initState

/-- The state after `AddOrder(Sell 4@99)` on `exampleMid`: the new order is
filled and removed, the resting Buy order keeps 6 of 10. -/
def exampleFilled : State :=
  (submitOrder insertionSort 3 exampleMid GoodTillCancel 2 Sell 99 4).getD initState

/-! ## Basic facts -/

theorem subQ_self (a : Nat) : subQ a a = 0 := by
  unfold subQ; omega

theorem subQ_of_le {a b : Nat} (h : b ≤ a) (ha : a < 4294967296) : subQ a b = a - b := by
  unfold subQ; omega

theorem subQ_zero {a : Nat} (ha : a < 4294967296) : subQ a 0 = a := by
  unfold subQ; omega

@[simp] theorem setRemaining_same (h : Heap) (p : Nat) (q : Nat) :
    (setRemaining h p q p).remainingQuantity = q := by
  simp [setRemaining]

theorem setRemaining_other (h : Heap) (p x : Nat) (q : Nat) (hx : x ≠ p) :
    setRemaining h p q x = h x := by
  simp [setRemaining, hx]

@[simp] theorem setRemaining_price (h : Heap) (p x : Nat) (q : Nat) :
    (setRemaining h p q x).price = (h x).price := by
  unfold setRemaining; split
  · next hx => subst hx; rfl
  · rfl

@[simp] theorem setRemaining_side (h : Heap) (p x : Nat) (q : Nat) :
    (setRemaining h p q x).side = (h x).side := by
  unfold setRemaining; split
  · next hx => subst hx; rfl
  · rfl

@[simp] theorem setRemaining_initialQuantity (h : Heap) (p x : Nat) (q : Nat) :
    (setRemaining h p q x).initialQuantity = (h x).initialQuantity := by
  unfold setRemaining; split
  · next hx => subst hx; rfl
  · rfl

@[simp] theorem setRemaining_orderType (h : Heap) (p x : Nat) (q : Nat) :
    (setRemaining h p q x).orderType = (h x).orderType := by
  unfold setRemaining; split
  · next hx => subst hx; rfl
  · rfl

@[simp] theorem setRemaining_orderId (h : Heap) (p x : Nat) (q : Nat) :
    (setRemaining h p q x).orderId = (h x).orderId := by
  unfold setRemaining; split
  · next hx => subst hx; rfl
  · rfl

/-- The loop breaks exactly on an uncrossed book. -/
theorem matchIter_eq_none_iff (s : State) : matchIter s = none ↔ NoCross s := by
  obtain ⟨h, n, bids, asks⟩ := s
  unfold matchIter NoCross
  cases bids with
  | nil => simp
  | cons b bs =>
    cases asks with
    | nil => simp
    | cons a as => simp

/-- What a trading iteration does: shape of the result. -/
theorem matchIter_eq_some {s s1 : State} (h : matchIter s = some s1) :
    ∃ b bs a as, s.ob.bids = b :: bs ∧ s.ob.asks = a :: as ∧
      ¬ (s.heap b).price < (s.heap a).price ∧
      s1.heap = setRemaining
        (setRemaining s.heap b (subQ (s.heap b).remainingQuantity
          (min (s.heap b).remainingQuantity (s.heap a).remainingQuantity))) a
        (subQ ((setRemaining s.heap b (subQ (s.heap b).remainingQuantity
          (min (s.heap b).remainingQuantity (s.heap a).remainingQuantity))) a).remainingQuantity
          (min (s.heap b).remainingQuantity (s.heap a).remainingQuantity)) ∧
      s1.next = s.next ∧
      s1.ob.bids = (if (s1.heap b).remainingQuantity = 0 then bs else b :: bs) ∧
      s1.ob.asks = (if (s1.heap a).remainingQuantity = 0 then as else a :: as) := by
  obtain ⟨hp, n, bids, asks⟩ := s
  unfold matchIter at h
  cases bids with
  | nil => simp at h
  | cons b bs =>
    cases asks with
    | nil => simp at h
    | cons a as =>
      simp only at h
      split at h
      · simp at h
      · next hlt =>
        simp only [Option.some.injEq] at h
        subst h
        exact ⟨b, bs, a, as, rfl, rfl, hlt, rfl, rfl, rfl, rfl⟩

/-! ## `sort.Slice`: permutation and sortedness -/

theorem insertLeft_perm (less : Nat → Nat → Bool) (x : Nat) (l : List Nat) :
    (insertLeft less x l).Perm (x :: l) := by
  induction l with
  | nil => simp [insertLeft]
  | cons y rest ih =>
    unfold insertLeft
    split
    · exact (List.Perm.cons y ih).trans (List.Perm.swap x y rest)
    · exact List.Perm.refl _

theorem foldl_insertLeft_perm (less : Nat → Nat → Bool) (l acc : List Nat) :
    (l.foldl (fun acc x => insertLeft less x acc) acc).Perm (acc ++ l) := by
  induction l generalizing acc with
  | nil => simp
  | cons x rest ih =>
    simp only [List.foldl_cons]
    refine (ih (insertLeft less x acc)).trans ?_
    refine (List.Perm.append_right rest (insertLeft_perm less x acc)).trans ?_
    simp only [List.cons_append]
    exact (List.perm_middle).symm

theorem insertionSort_perm (less : Nat → Nat → Bool) (l : List Nat) :
    (insertionSort less l).Perm l := by
  unfold insertionSort
  refine (List.reverse_perm _).trans ?_
  simpa using foldl_insertLeft_perm less l []

theorem insertLeft_pairwise (less : Nat → Nat → Bool)
    (hasym : ∀ a b, less a b = true → less b a = false)
    (hneg : ∀ a b c, less a b = false → less b c = false → less a c = false)
    (x : Nat) (l : List Nat) (hl : l.Pairwise (fun a b => less a b = false)) :
    (insertLeft less x l).Pairwise (fun a b => less a b = false) := by
  induction l with
  | nil => simp [insertLeft]
  | cons y rest ih =>
    rw [List.pairwise_cons] at hl
    unfold insertLeft
    split
    · next hxy =>
      rw [List.pairwise_cons]
      refine ⟨?_, ih hl.2⟩
      intro w hw
      have hw1 : w ∈ x :: rest := (insertLeft_perm less x rest).subset hw
      rcases List.mem_cons.mp hw1 with rfl | hw2
      · exact hasym _ _ hxy
      · exact hl.1 w hw2
    · next hxy =>
      have hxy1 : less x y = false := by simpa using hxy
      rw [List.pairwise_cons]
      refine ⟨?_, List.pairwise_cons.mpr hl⟩
      intro w hw
      rcases List.mem_cons.mp hw with rfl | hw2
      · exact hxy1
      · exact hneg _ _ _ hxy1 (hl.1 w hw2)

theorem foldl_insertLeft_pairwise (less : Nat → Nat → Bool)
    (hasym : ∀ a b, less a b = true → less b a = false)
    (hneg : ∀ a b c, less a b = false → less b c = false → less a c = false)
    (l acc : List Nat) (hacc : acc.Pairwise (fun a b => less a b = false)) :
    (l.foldl (fun acc x => insertLeft less x acc) acc).Pairwise
      (fun a b => less a b = false) := by
  induction l generalizing acc with
  | nil => simpa using hacc
  | cons x rest ih =>
    simp only [List.foldl_cons]
    exact ih _ (insertLeft_pairwise less hasym hneg x acc hacc)

/-- Insertion sort meets the contract of `sort.Slice`. -/
theorem insertionSort_contract : SortContract insertionSort := by
  intro less l hasym hneg
  refine ⟨insertionSort_perm less l, ?_⟩
  unfold insertionSort
  rw [List.pairwise_reverse]
  exact foldl_insertLeft_pairwise less hasym hneg l [] List.Pairwise.nil

/-- The embedding of `sort.Slice` meets its contract whenever the algorithm
used on long slices does. -/
theorem sortSlice_contract {pdq : (Nat → Nat → Bool) → List Nat → List Nat}
    (hpdq : SortContract pdq) : SortContract (sortSlice pdq) := by
  intro less l hasym hneg
  unfold sortSlice
  split
  · exact insertionSort_contract less l hasym hneg
  · exact hpdq less l hasym hneg

theorem sortSlice_bids {pdq : (Nat → Nat → Bool) → List Nat → List Nat}
    (hpdq : SortContract pdq) (h : Heap) (l : List Nat) :
    (sortSlice pdq (fun i j => decide ((h i).price > (h j).price)) l).Perm l ∧
    (sortSlice pdq (fun i j => decide ((h i).price > (h j).price)) l).Pairwise
      (fun x y => (h y).price ≤ (h x).price) := by
  have hc := sortSlice_contract hpdq (fun i j => decide ((h i).price > (h j).price)) l
    (by intro a b; simp only [decide_eq_true_eq, decide_eq_false_iff_not]; omega)
    (by intro a b c; simp only [decide_eq_false_iff_not]; omega)
  refine ⟨hc.1, hc.2.imp ?_⟩
  intro a b hab
  simp only [decide_eq_false_iff_not] at hab
  omega

theorem sortSlice_asks {pdq : (Nat → Nat → Bool) → List Nat → List Nat}
    (hpdq : SortContract pdq) (h : Heap) (l : List Nat) :
    (sortSlice pdq (fun i j => decide ((h i).price < (h j).price)) l).Perm l ∧
    (sortSlice pdq (fun i j => decide ((h i).price < (h j).price)) l).Pairwise
      (fun x y => (h x).price ≤ (h y).price) := by
  have hc := sortSlice_contract hpdq (fun i j => decide ((h i).price < (h j).price)) l
    (by intro a b; simp only [decide_eq_true_eq, decide_eq_false_iff_not]; omega)
    (by intro a b c; simp only [decide_eq_false_iff_not]; omega)
  refine ⟨hc.1, hc.2.imp ?_⟩
  intro a b hab
  simp only [decide_eq_false_iff_not] at hab
  omega

/-! ## The insertion part of `AddOrder` -/

@[simp] theorem Buy_ne_Sell : ¬ Buy = Sell := by decide

@[simp] theorem Sell_ne_Buy : ¬ Sell = Buy := by decide

theorem insertOrder_heap (pdq : (Nat → Nat → Bool) → List Nat → List Nat) (s : State)
    (o : Nat) : (insertOrder pdq s o).heap = s.heap := by
  unfold insertOrder
  by_cases hb : (s.heap o).side = Buy <;> by_cases hs : (s.heap o).side = Sell <;>
    simp [hb, hs]

theorem insertOrder_next (pdq : (Nat → Nat → Bool) → List Nat → List Nat) (s : State)
    (o : Nat) : (insertOrder pdq s o).next = s.next := by
  unfold insertOrder
  by_cases hb : (s.heap o).side = Buy <;> by_cases hs : (s.heap o).side = Sell <;>
    simp [hb, hs]

theorem insertOrder_bids (pdq : (Nat → Nat → Bool) → List Nat → List Nat) (s : State)
    (o : Nat) :
    (insertOrder pdq s o).ob.bids =
      if (s.heap o).side = Buy then
        sortSlice pdq (fun i j => decide ((s.heap i).price > (s.heap j).price))
          (s.ob.bids ++ [o])
      else s.ob.bids := by
  unfold insertOrder
  by_cases hb : (s.heap o).side = Buy <;> by_cases hs : (s.heap o).side = Sell <;>
    simp [hb, hs]

theorem insertOrder_asks (pdq : (Nat → Nat → Bool) → List Nat → List Nat) (s : State)
    (o : Nat) :
    (insertOrder pdq s o).ob.asks =
      if (s.heap o).side = Sell then
        sortSlice pdq (fun i j => decide ((s.heap i).price < (s.heap j).price))
          (s.ob.asks ++ [o])
      else s.ob.asks := by
  unfold insertOrder
  by_cases hb : (s.heap o).side = Buy <;> by_cases hs : (s.heap o).side = Sell <;>
    simp [hb, hs]

theorem insertOrder_mem_bids {pdq : (Nat → Nat → Bool) → List Nat → List Nat}
    (hpdq : SortContract pdq) (s : State) (o p : Nat) :
    p ∈ (insertOrder pdq s o).ob.bids ↔
      p ∈ s.ob.bids ∨ (p = o ∧ (s.heap o).side = Buy) := by
  rw [insertOrder_bids]
  split
  · next hb =>
    rw [(sortSlice_bids hpdq s.heap _).1.mem_iff]
    simp [hb]
  · next hb => simp [hb]

theorem insertOrder_mem_asks {pdq : (Nat → Nat → Bool) → List Nat → List Nat}
    (hpdq : SortContract pdq) (s : State) (o p : Nat) :
    p ∈ (insertOrder pdq s o).ob.asks ↔
      p ∈ s.ob.asks ∨ (p = o ∧ (s.heap o).side = Sell) := by
  rw [insertOrder_asks]
  split
  · next hb =>
    rw [(sortSlice_asks hpdq s.heap _).1.mem_iff]
    simp [hb]
  · next hb => simp [hb]

/-- Re-sorting keeps the book sorted (and sorts the side it is applied to). -/
theorem insertOrder_sorted {pdq : (Nat → Nat → Bool) → List Nat → List Nat}
    (hpdq : SortContract pdq) (s : State) (o : Nat) (hs : SortedBook s) :
    SortedBook (insertOrder pdq s o) := by
  unfold SortedBook
  rw [insertOrder_heap, insertOrder_bids, insertOrder_asks]
  refine ⟨?_, ?_⟩
  · split
    · exact (sortSlice_bids hpdq s.heap _).2
    · exact hs.1
  · split
    · exact (sortSlice_asks hpdq s.heap _).2
    · exact hs.2

/-! ## Trading iterations preserve the invariants -/

theorem matchIter_next {s s1 : State} (h : matchIter s = some s1) : s1.next = s.next := by
  obtain ⟨b, bs, a, as, -, -, -, -, hn, -, -⟩ := matchIter_eq_some h
  exact hn

/-- A trading iteration changes no field of any order but `remainingQuantity`. -/
theorem matchIter_fields {s s1 : State} (h : matchIter s = some s1) (x : Nat) :
    (s1.heap x).orderType = (s.heap x).orderType ∧
    (s1.heap x).orderId = (s.heap x).orderId ∧
    (s1.heap x).side = (s.heap x).side ∧
    (s1.heap x).price = (s.heap x).price ∧
    (s1.heap x).initialQuantity = (s.heap x).initialQuantity := by
  obtain ⟨b, bs, a, as, -, -, -, hh, -, -, -⟩ := matchIter_eq_some h
  rw [hh]
  simp

/-- A trading iteration removes at most the head of each side. -/
theorem matchIter_sublist {s s1 : State} (h : matchIter s = some s1) :
    (s1.ob.bids = s.ob.bids ∨ s1.ob.bids = s.ob.bids.tail) ∧
    (s1.ob.asks = s.ob.asks ∨ s1.ob.asks = s.ob.asks.tail) := by
  obtain ⟨b, bs, a, as, hb, ha, -, -, -, hb1, ha1⟩ := matchIter_eq_some h
  rw [hb, ha, hb1, ha1]
  refine ⟨?_, ?_⟩
  · split <;> simp
  · split <;> simp

theorem matchIter_mem {s s1 : State} (h : matchIter s = some s1) :
    (∀ p ∈ s1.ob.bids, p ∈ s.ob.bids) ∧ (∀ p ∈ s1.ob.asks, p ∈ s.ob.asks) := by
  obtain ⟨hb, ha⟩ := matchIter_sublist h
  refine ⟨?_, ?_⟩
  · intro p hp
    rcases hb with hb | hb
    · rwa [hb] at hp
    · rw [hb] at hp; exact List.mem_of_mem_tail hp
  · intro p hp
    rcases ha with ha | ha
    · rwa [ha] at hp
    · rw [ha] at hp; exact List.mem_of_mem_tail hp

theorem matchIter_sorted {s s1 : State} (h : matchIter s = some s1) (hs : SortedBook s) :
    SortedBook s1 := by
  obtain ⟨hb, ha⟩ := matchIter_sublist h
  have hprice : ∀ x, (s1.heap x).price = (s.heap x).price := fun x =>
    (matchIter_fields h x).2.2.2.1
  unfold SortedBook at *
  simp only [hprice]
  refine ⟨?_, ?_⟩
  · rcases hb with hb | hb <;> rw [hb]
    · exact hs.1
    · exact hs.1.sublist (List.tail_sublist _)
  · rcases ha with ha | ha <;> rw [ha]
    · exact hs.2
    · exact hs.2.sublist (List.tail_sublist _)

theorem matchIter_sidesOK {s s1 : State} (h : matchIter s = some s1) (hs : SidesOK s) :
    SidesOK s1 := by
  obtain ⟨hb, ha⟩ := matchIter_mem h
  have hside : ∀ x, (s1.heap x).side = (s.heap x).side := fun x =>
    (matchIter_fields h x).2.2.1
  unfold SidesOK at *
  simp only [hside, matchIter_next h]
  exact ⟨fun p hp => hs.1 p (hb p hp), fun p hp => hs.2 p (ha p hp)⟩

theorem sidesDisjoint_of_sidesOK {s : State} (hs : SidesOK s) : SidesDisjoint s := by
  intro p hb ha
  have h1 := (hs.1 p hb).1
  have h2 := (hs.2 p ha).1
  rw [h1] at h2
  simp [Buy, Sell] at h2

theorem matchIter_sidesDisjoint {s s1 : State} (h : matchIter s = some s1)
    (hs : SidesDisjoint s) : SidesDisjoint s1 := by
  obtain ⟨hb, ha⟩ := matchIter_mem h
  intro p hp hq
  exact hs p (hb p hp) (ha p hq)

/-- A trading iteration on a book whose sides share no order: both heads lose
the trade quantity `min` of their remaining quantities. -/
theorem matchIter_disjoint {s s1 : State} (h : matchIter s = some s1)
    (hd : SidesDisjoint s) :
    ∃ b bs a as, s.ob.bids = b :: bs ∧ s.ob.asks = a :: as ∧ b ≠ a ∧
      ¬ (s.heap b).price < (s.heap a).price ∧
      (∀ x, (s1.heap x).remainingQuantity =
        if x = a then subQ (s.heap a).remainingQuantity
            (min (s.heap b).remainingQuantity (s.heap a).remainingQuantity)
        else if x = b then subQ (s.heap b).remainingQuantity
            (min (s.heap b).remainingQuantity (s.heap a).remainingQuantity)
        else (s.heap x).remainingQuantity) ∧
      s1.ob.bids = (if (s1.heap b).remainingQuantity = 0 then bs else b :: bs) ∧
      s1.ob.asks = (if (s1.heap a).remainingQuantity = 0 then as else a :: as) := by
  obtain ⟨b, bs, a, as, hb, ha, hp, hh, -, hb1, ha1⟩ := matchIter_eq_some h
  have hne : b ≠ a := by
    intro hba
    apply hd b (by rw [hb]; simp)
    rw [ha, hba]; simp
  refine ⟨b, bs, a, as, hb, ha, hne, hp, ?_, hb1, ha1⟩
  intro x
  rw [hh]
  by_cases hxa : x = a
  · subst hxa
    have hxb : x ≠ b := fun e => hne e.symm
    simp [setRemaining_other _ _ _ _ hxb]
  · rw [setRemaining_other _ _ _ _ hxa]
    by_cases hxb : x = b
    · subst hxb
      simp [hxa]
    · simp [hxa, hxb, setRemaining_other _ _ _ _ hxb]

theorem matchIter_quantitiesOK {s s1 : State} (h : matchIter s = some s1)
    (hd : SidesDisjoint s) (hq : QuantitiesOK s) : QuantitiesOK s1 := by
  obtain ⟨b, bs, a, as, -, -, hne, -, hrem, -, -⟩ := matchIter_disjoint h hd
  intro x
  have hinit : (s1.heap x).initialQuantity = (s.heap x).initialQuantity :=
    (matchIter_fields h x).2.2.2.2
  rw [hinit, hrem x]
  refine ⟨?_, (hq x).2⟩
  have hxq := hq x
  split
  · next hxa =>
    subst hxa
    rw [subQ_of_le (Nat.min_le_right _ _) (by omega)]
    omega
  · split
    · next hxb =>
      subst hxb
      rw [subQ_of_le (Nat.min_le_left _ _) (by omega)]
      omega
    · exact hxq.1

/-- On a book whose sides share no order, every trading iteration removes at
least one order. -/
theorem matchIter_length {s s1 : State} (h : matchIter s = some s1)
    (hd : SidesDisjoint s) :
    s1.ob.bids.length + s1.ob.asks.length < s.ob.bids.length + s.ob.asks.length ∧
    s1.ob.bids.length ≤ s.ob.bids.length ∧ s1.ob.asks.length ≤ s.ob.asks.length := by
  obtain ⟨b, bs, a, as, hb, ha, hne, -, hrem, hb1, ha1⟩ := matchIter_disjoint h hd
  have hra := hrem a
  have hrb := hrem b
  simp only [if_true, if_neg hne] at hra hrb
  rw [hb, ha, hb1, ha1, hra, hrb]
  rcases Nat.le_total (s.heap b).remainingQuantity (s.heap a).remainingQuantity with hle | hle
  · rw [Nat.min_eq_left hle, subQ_self]
    simp only [if_true, List.length_cons]
    split <;> first | omega | (simp only [List.length_cons]; omega)
  · rw [Nat.min_eq_right hle, subQ_self]
    simp only [if_true, List.length_cons]
    split <;> first | omega | (simp only [List.length_cons]; omega)

/-! ## The matching loop as a whole -/

/-- Whatever every trading iteration preserves still holds when `MatchOrder`
returns, and the loop has then stopped on an uncrossed book. -/
theorem MatchOrder_induct (P : State → Prop)
    (hstep : ∀ s s1, P s → matchIter s = some s1 → P s1) :
    ∀ (fuel : Nat) (s s1 : State), MatchOrder fuel s = some s1 → P s →
      P s1 ∧ matchIter s1 = none := by
  intro fuel
  induction fuel with
  | zero => intro s s1 h; simp [MatchOrder] at h
  | succ n ih =>
    intro s s1 h hP
    unfold MatchOrder at h
    split at h
    · next hnone =>
      simp only [Option.some.injEq] at h
      subst h
      exact ⟨hP, hnone⟩
    · next s2 hsome => exact ih s2 s1 h (hstep s s2 hP hsome)

/-- More fuel does not change the result of `MatchOrder`. -/
theorem MatchOrder_mono : ∀ (fuel : Nat) (s s1 : State), MatchOrder fuel s = some s1 →
    ∀ extra, MatchOrder (fuel + extra) s = some s1 := by
  intro fuel
  induction fuel with
  | zero => intro s s1 h; simp [MatchOrder] at h
  | succ n ih =>
    intro s s1 h extra
    have e : n + 1 + extra = (n + extra) + 1 := by omega
    rw [e]
    unfold MatchOrder at h ⊢
    split at h
    · next hnone => exact h
    · next s2 hsome => exact ih s2 s1 h extra

/-- Termination: on a book whose sides share no order the loop stops after at
most `len(bids) + len(asks)` trading iterations. -/
theorem MatchOrder_terminates : ∀ (fuel : Nat) (s : State), SidesDisjoint s →
    s.ob.bids.length + s.ob.asks.length < fuel →
    (∃ s1, MatchOrder fuel s = some s1) ∧
      tradeCount fuel s ≤ s.ob.bids.length + s.ob.asks.length := by
  intro fuel
  induction fuel with
  | zero => intro s _ h; omega
  | succ n ih =>
    intro s hd hlen
    unfold MatchOrder tradeCount
    cases hm : matchIter s with
    | none => simp
    | some s2 =>
      have hl := (matchIter_length hm hd).1
      obtain ⟨h1, h2⟩ := ih s2 (matchIter_sidesDisjoint hm hd) (by omega)
      exact ⟨h1, by simp only; omega⟩

/-! ## The invariant holds in every state the program passes through -/

theorem inv_initState : Inv initState := by
  refine ⟨⟨?_, ?_⟩, ⟨?_, ?_⟩, ?_⟩
  · simp [initState, emptyBookState, NewOrderBook]
  · simp [initState, emptyBookState, NewOrderBook]
  · simp [initState, emptyBookState, NewOrderBook]
  · simp [initState, emptyBookState, NewOrderBook]
  · intro p; simp [initState, emptyBookState, zeroOrder]

theorem inv_allocOrder {s : State} (hs : Inv s) (o : Order)
    (ho : o.remainingQuantity ≤ o.initialQuantity) (ho1 : o.initialQuantity < 4294967296) :
    Inv (allocOrder s o) := by
  obtain ⟨⟨hb, ha⟩, ⟨hsb, hsa⟩, hq⟩ := hs
  have hold : ∀ p, p < s.next → (allocOrder s o).heap p = s.heap p := by
    intro p hp
    have : p ≠ s.next := by omega
    simp [allocOrder, this]
  refine ⟨⟨?_, ?_⟩, ⟨?_, ?_⟩, ?_⟩
  · refine List.Pairwise.imp_of_mem ?_ hb
    intro x y hx hy hxy
    rw [hold x (hsb x hx).2, hold y (hsb y hy).2]
    exact hxy
  · refine List.Pairwise.imp_of_mem ?_ ha
    intro x y hx hy hxy
    rw [hold x (hsa x hx).2, hold y (hsa y hy).2]
    exact hxy
  · intro p hp
    have hp1 := hsb p hp
    rw [hold p hp1.2]
    exact ⟨hp1.1, Nat.lt_succ_of_lt hp1.2⟩
  · intro p hp
    have hp1 := hsa p hp
    rw [hold p hp1.2]
    exact ⟨hp1.1, Nat.lt_succ_of_lt hp1.2⟩
  · intro p
    by_cases hp : p = s.next
    · simp [allocOrder, hp, ho, ho1]
    · simpa [allocOrder, hp] using hq p

theorem inv_insertOrder {pdq : (Nat → Nat → Bool) → List Nat → List Nat}
    (hpdq : SortContract pdq) {s : State} (hs : Inv s) (o : Nat) (ho : o < s.next) :
    Inv (insertOrder pdq s o) := by
  obtain ⟨hsorted, ⟨hsb, hsa⟩, hq⟩ := hs
  refine ⟨insertOrder_sorted hpdq s o hsorted, ⟨?_, ?_⟩, ?_⟩
  · intro p hp
    rw [insertOrder_heap, insertOrder_next]
    rcases (insertOrder_mem_bids hpdq s o p).mp hp with h | ⟨rfl, h⟩
    · exact hsb p h
    · exact ⟨h, ho⟩
  · intro p hp
    rw [insertOrder_heap, insertOrder_next]
    rcases (insertOrder_mem_asks hpdq s o p).mp hp with h | ⟨rfl, h⟩
    · exact hsa p h
    · exact ⟨h, ho⟩
  · intro p
    rw [insertOrder_heap]
    exact hq p

theorem inv_matchIter {s s1 : State} (hs : Inv s) (h : matchIter s = some s1) : Inv s1 :=
  ⟨matchIter_sorted h hs.1, matchIter_sidesOK h hs.2.1,
    matchIter_quantitiesOK h (sidesDisjoint_of_sidesOK hs.2.1) hs.2.2⟩

theorem inv_of_visited {pdq : (Nat → Nat → Bool) → List Nat → List Nat}
    (hpdq : SortContract pdq) {s : State} (hv : Visited pdq s) : Inv s := by
  induction hv with
  | init => exact inv_initState
  | insert orderType orderId side price quantity _ _ hq ih =>
    refine inv_insertOrder hpdq (inv_allocOrder ih _ ?_ ?_) _ ?_
    · simp [NewOrder]
    · simpa [NewOrder] using hq
    · simp [allocOrder]
  | trade _ hm ih => exact inv_matchIter ih hm

/-- A state in which `AddOrder` has returned is one the program passes
through, and the matching loop has stopped there. -/
theorem visited_of_reachable {pdq : (Nat → Nat → Bool) → List Nat → List Nat}
    {s : State} (hr : Reachable pdq s) : Visited pdq s ∧ matchIter s = none := by
  induction hr with
  | init => exact ⟨Visited.init, by simp [matchIter, initState, emptyBookState, NewOrderBook]⟩
  | submit fuel orderType orderId side price quantity _ hq hsub ih =>
    unfold submitOrder AddOrder at hsub
    exact MatchOrder_induct (Visited pdq) (fun _ _ hv hm => Visited.trade hv hm) fuel _ _ hsub
      (Visited.insert orderType orderId side price quantity ih.1 ih.2 hq)

theorem inv_of_reachable {pdq : (Nat → Nat → Bool) → List Nat → List Nat}
    (hpdq : SortContract pdq) {s : State} (hr : Reachable pdq s) : Inv s :=
  inv_of_visited hpdq (visited_of_reachable hr).1

/-- From a state satisfying the invariant every call of `AddOrder` on a newly
created order returns, given fuel beyond the number of resting orders. -/
theorem submitOrder_returns {pdq : (Nat → Nat → Bool) → List Nat → List Nat}
    (hpdq : SortContract pdq) {s : State} (hs : Inv s) (orderType : Int) (orderId : Nat)
    (side : Int) (price : Int) (quantity : Nat) (hq : quantity < 4294967296) (fuel : Nat)
    (hfuel : s.ob.bids.length + s.ob.asks.length + 1 < fuel) :
    ∃ s1, submitOrder pdq fuel s orderType orderId side price quantity = some s1 := by
  unfold submitOrder AddOrder
  have hinv : Inv (insertOrder pdq
      (allocOrder s (NewOrder orderType orderId side price quantity)) s.next) := by
    refine inv_insertOrder hpdq (inv_allocOrder hs _ ?_ ?_) _ ?_
    · simp [NewOrder]
    · simpa [NewOrder] using hq
    · simp [allocOrder]
  refine (MatchOrder_terminates fuel _ (sidesDisjoint_of_sidesOK hinv.2.1) ?_).1
  rw [insertOrder_bids, insertOrder_asks]
  have hb := fun l => (sortSlice_bids hpdq
    (allocOrder s (NewOrder orderType orderId side price quantity)).heap l).1.length_eq
  have ha := fun l => (sortSlice_asks hpdq
    (allocOrder s (NewOrder orderType orderId side price quantity)).heap l).1.length_eq
  have hob : (allocOrder s (NewOrder orderType orderId side price quantity)).ob = s.ob := rfl
  rw [hob]
  by_cases h1 : ((allocOrder s (NewOrder orderType orderId side price quantity)).heap
      s.next).side = Buy
  · have h2 : ¬ ((allocOrder s (NewOrder orderType orderId side price quantity)).heap
        s.next).side = Sell := by rw [h1]; simp
    rw [if_pos h1, if_neg h2, hb]
    simp only [List.length_append, List.length_singleton]
    omega
  · rw [if_neg h1]
    split
    · rw [ha]
      simp only [List.length_append, List.length_singleton]
      omega
    · omega

/-! ## Scenarios on the empty book -/

/-- Claim C7: starting from the empty book, for every quantity `q > 0` and prices
`pa ≤ pb`, `AddOrder(GoodTillCancel Buy q@pb)` followed by
`AddOrder(GoodTillCancel Sell q@pa)` returns (given fuel for two loop-head
evaluations) and leaves both orders with `remainingQuantity` 0 and
`FilledQuantity()` `q`, and both `bids` and `asks` empty. The buy order is at
address `n`, the first unused one, and the sell order at address `n + 1`. -/
theorem full_cross_equal_quantities (pdq : (Nat → Nat → Bool) → List Nat → List Nat)
    (h : Heap) (n : Nat) (fuel : Nat) (hfuel : 2 ≤ fuel) (q : Nat) (hq : 0 < q) (hq32 : q < 4294967296)
    (pa pb : Int) (hp : pa ≤ pb) (idA idB : Nat) :
    ∃ s1 s2, submitOrder pdq fuel (emptyBookState h n) GoodTillCancel idA Buy pb q = some s1 ∧
      submitOrder pdq fuel s1 GoodTillCancel idB Sell pa q = some s2 ∧
      s2.heap n = { NewOrder GoodTillCancel idA Buy pb q with remainingQuantity := 0 } ∧
      s2.heap (n + 1) = { NewOrder GoodTillCancel idB Sell pa q with remainingQuantity := 0 } ∧
      (s2.heap n).FilledQuantity = q ∧ (s2.heap (n + 1)).FilledQuantity = q ∧
      s2.ob.bids = [] ∧ s2.ob.asks = [] := by
  obtain ⟨k, rfl⟩ : ∃ k, fuel = k + 2 := ⟨fuel - 2, by omega⟩
  have hnlt : ¬ pb < pa := by omega
  have e1 : ¬ n = n + 1 + 1 := by omega
  have e2 : ¬ n + 1 + 1 = n := by omega
  have e3 : ¬ n = n + 2 := by omega
  have e4 : ¬ n + 2 = n := by omega
  have h0 : subQ q 0 = q := subQ_zero hq32
  have hpos : 0 < q := hq
  simp [submitOrder, AddOrder, insertOrder, allocOrder, NewOrder, emptyBookState, NewOrderBook,
    sortSlice, insertionSort, insertLeft, MatchOrder, matchIter, setRemaining, hnlt, subQ_self,
    Order.FilledQuantity, Order.InitialQuantity, Order.RemainingQuantity, e1, e2, e3, e4, h0]

/-- Scenario 1 of the specification, as run by `main`: Buy 10@100 then Sell 10@99. -/
theorem full_cross_equal_quantities_witness :
    ∃ s1 s2, submitOrder insertionSort 2 initState GoodTillCancel 1231230 Buy 100 10 = some s1 ∧
      submitOrder insertionSort 2 s1 GoodTillCancel 998139 Sell 99 10 = some s2 ∧
      s2.heap 0 = { NewOrder GoodTillCancel 1231230 Buy 100 10 with remainingQuantity := 0 } ∧
      s2.heap 1 = { NewOrder GoodTillCancel 998139 Sell 99 10 with remainingQuantity := 0 } ∧
      (s2.heap 0).FilledQuantity = 10 ∧ (s2.heap 1).FilledQuantity = 10 ∧
      s2.ob.bids = [] ∧ s2.ob.asks = [] :=
  full_cross_equal_quantities insertionSort (fun _ => zeroOrder) 0 2 (by decide) 10 (by decide) (by decide) 99 100
    (by decide) 1231230 998139

/-- Claim C8: starting from the empty book, for all quantities `0 < a < b` and
prices `pa ≤ pb`, `AddOrder(GoodTillCancel Buy a@pb)` followed by
`AddOrder(GoodTillCancel Sell b@pa)` returns and trades exactly `a`: the buy
order (address `n`) has `remainingQuantity` 0 and `bids` is empty, and `asks`
holds exactly the sell order (address `n + 1`) with `remainingQuantity` `b - a`. -/
theorem residual_rests_after_fill (pdq : (Nat → Nat → Bool) → List Nat → List Nat)
    (h : Heap) (n : Nat) (fuel : Nat) (hfuel : 2 ≤ fuel) (a b : Nat) (ha : 0 < a) (hab : a < b)
    (hb32 : b < 4294967296) (pa pb : Int) (hp : pa ≤ pb) (idA idB : Nat) :
    ∃ s1 s2, submitOrder pdq fuel (emptyBookState h n) GoodTillCancel idA Buy pb a = some s1 ∧
      submitOrder pdq fuel s1 GoodTillCancel idB Sell pa b = some s2 ∧
      s2.heap n = { NewOrder GoodTillCancel idA Buy pb a with remainingQuantity := 0 } ∧
      s2.heap (n + 1) = { NewOrder GoodTillCancel idB Sell pa b with remainingQuantity := b - a } ∧
      (s2.heap n).FilledQuantity = a ∧ (s2.heap (n + 1)).FilledQuantity = a ∧
      s2.ob.bids = [] ∧ s2.ob.asks = [n + 1] := by
  obtain ⟨k, rfl⟩ : ∃ k, fuel = k + 2 := ⟨fuel - 2, by omega⟩
  have hnlt : ¬ pb < pa := by omega
  have e1 : ¬ n = n + 1 + 1 := by omega
  have e2 : ¬ n + 1 + 1 = n := by omega
  have e3 : ¬ n = n + 2 := by omega
  have e4 : ¬ n + 2 = n := by omega
  have hpos : 0 < a := ha
  have hmin : min a b = a := Nat.min_eq_left (by omega)
  have h1 : subQ b a = b - a := subQ_of_le (by omega) hb32
  have h2 : ¬ b - a = 0 := by omega
  have h3 : subQ b (b - a) = a := by rw [subQ_of_le (by omega) hb32]; omega
  have h4 : subQ a 0 = a := subQ_zero (by omega)
  simp [submitOrder, AddOrder, insertOrder, allocOrder, NewOrder, emptyBookState, NewOrderBook,
    sortSlice, insertionSort, insertLeft, MatchOrder, matchIter, setRemaining, hnlt, subQ_self,
    Order.FilledQuantity, Order.InitialQuantity, Order.RemainingQuantity, e1, e2, e3, e4, hmin, h1, h2, h3, h4]

/-- Scenario 2 of the specification: Buy 5@100 then Sell 10@100 leaves the sell
order resting with `remainingQuantity` 5. -/
theorem residual_rests_after_fill_witness :
    ∃ s1 s2, submitOrder insertionSort 2 initState GoodTillCancel 1 Buy 100 5 = some s1 ∧
      submitOrder insertionSort 2 s1 GoodTillCancel 2 Sell 100 10 = some s2 ∧
      s2.heap 0 = { NewOrder GoodTillCancel 1 Buy 100 5 with remainingQuantity := 0 } ∧
      s2.heap 1 = { NewOrder GoodTillCancel 2 Sell 100 10 with remainingQuantity := 10 - 5 } ∧
      (s2.heap 0).FilledQuantity = 5 ∧ (s2.heap 1).FilledQuantity = 5 ∧
      s2.ob.bids = [] ∧ s2.ob.asks = [1] :=
  residual_rests_after_fill insertionSort (fun _ => zeroOrder) 0 2 (by decide) 5 10 (by decide) (by decide) (by decide)
    100 100 (by decide) 1 2

/-- Claim C2: starting from the empty book, for all prices `q ≤ p` and all
quantities `a, b, s > 0`, after `AddOrder(Buy A a@p)`, `AddOrder(Buy B b@p)` and
`AddOrder(Sell s@q)` in that order (each call returns, given fuel for three
loop-head evaluations), `B` rests behind `A` before the sell arrives, `A` (address
`n`) is filled `min a s` and `B` (address `n + 1`) is filled `min b (s - min a s)`; `B`
has a fill only if `A` is fully filled. -/
theorem fifo_at_one_price (pdq : (Nat → Nat → Bool) → List Nat → List Nat)
    (h : Heap) (n : Nat) (fuel : Nat) (hfuel : 3 ≤ fuel) (a b s : Nat) (ha : 0 < a) (hb : 0 < b) (hs : 0 < s)
    (ha32 : a < 4294967296) (hb32 : b < 4294967296) (hs32 : s < 4294967296)
    (p q : Int) (hp : q ≤ p) (tA tB tS : Int) (idA idB idS : Nat) :
    ∃ s1 s2 s3, submitOrder pdq fuel (emptyBookState h n) tA idA Buy p a = some s1 ∧
      submitOrder pdq fuel s1 tB idB Buy p b = some s2 ∧
      submitOrder pdq fuel s2 tS idS Sell q s = some s3 ∧
      s2.ob.bids = [n, n + 1] ∧
      (s3.heap n).orderId = idA ∧ (s3.heap (n + 1)).orderId = idB ∧
      (s3.heap n).FilledQuantity = min a s ∧
      (s3.heap (n + 1)).FilledQuantity = min b (s - min a s) ∧
      (0 < (s3.heap (n + 1)).FilledQuantity → (s3.heap n).remainingQuantity = 0) ∧
      (s3.heap n).remainingQuantity = a - min a s ∧
      (s3.heap (n + 1)).remainingQuantity = b - min b (s - min a s) ∧
      s3.ob.bids = (if s < a then [n, n + 1] else if s < a + b then [n + 1] else []) := by
  obtain ⟨k, rfl⟩ : ∃ k, fuel = k + 3 := ⟨fuel - 3, by omega⟩
  have hnlt : ¬ p < q := by omega
  have e1 : ¬ n = n + 1 + 1 := by omega
  have e2 : ¬ n + 1 + 1 = n := by omega
  have e3 : ¬ n = n + 2 := by omega
  have e4 : ¬ n + 2 = n := by omega
  have hz : ∀ x, x < 4294967296 → subQ x 0 = x := fun x hx => subQ_zero hx
  have hposb : 0 < b := hb
  rcases Nat.lt_trichotomy a s with h | h | h
  · have hmin : min a s = a := Nat.min_eq_left (by omega)
    have h1 : subQ s a = s - a := subQ_of_le (by omega) hs32
    have h2 : ¬ s - a = 0 := by omega
    rcases Nat.lt_or_ge (s - a) b with h' | h'
    · have hmin2 : min b (s - a) = s - a := Nat.min_eq_right (by omega)
      have h3 : subQ b (s - a) = b - (s - a) := subQ_of_le (by omega) hb32
      have h4 : ¬ b - (s - a) = 0 := by omega
      have h5 : subQ b (b - (s - a)) = s - a := by rw [subQ_of_le (by omega) hb32]; omega
      simp [submitOrder, AddOrder, insertOrder, allocOrder, NewOrder, emptyBookState, NewOrderBook,
        sortSlice, insertionSort, insertLeft, MatchOrder, matchIter, setRemaining, hnlt, subQ_self,
        Order.FilledQuantity, Order.InitialQuantity, Order.RemainingQuantity, e1, e2, e3, e4, hz a ha32, hz b hb32, hz s hs32, hmin, h1, h2, hmin2, h3, h4, h5]
      rw [if_neg (by omega), if_pos (by omega)]
    · have hmin2 : min b (s - a) = b := Nat.min_eq_left h'
      have h3 : subQ (s - a) b = s - a - b := subQ_of_le h' (by omega)
      simp [submitOrder, AddOrder, insertOrder, allocOrder, NewOrder, emptyBookState, NewOrderBook,
        sortSlice, insertionSort, insertLeft, MatchOrder, matchIter, setRemaining, hnlt, subQ_self,
        Order.FilledQuantity, Order.InitialQuantity, Order.RemainingQuantity, e1, e2, e3, e4, hz a ha32, hz b hb32, hz s hs32, hmin, h1, h2, hmin2, h3]
      rw [if_neg (by omega), if_neg (by omega)]
  · subst h
    have hmin : min a a = a := Nat.min_self a
    simp [submitOrder, AddOrder, insertOrder, allocOrder, NewOrder, emptyBookState, NewOrderBook,
      sortSlice, insertionSort, insertLeft, MatchOrder, matchIter, setRemaining, hnlt, subQ_self,
      Order.FilledQuantity, Order.InitialQuantity, Order.RemainingQuantity, e1, e2, e3, e4, hz a ha32, hz b hb32, hmin]
    rw [if_pos hposb]
  · have hmin : min a s = s := Nat.min_eq_right (by omega)
    have h1 : subQ a s = a - s := subQ_of_le (by omega) ha32
    have h2 : ¬ a - s = 0 := by omega
    have h3 : subQ a (a - s) = s := by rw [subQ_of_le (by omega) ha32]; omega
    simp [submitOrder, AddOrder, insertOrder, allocOrder, NewOrder, emptyBookState, NewOrderBook,
      sortSlice, insertionSort, insertLeft, MatchOrder, matchIter, setRemaining, hnlt, subQ_self,
      Order.FilledQuantity, Order.InitialQuantity, Order.RemainingQuantity, e1, e2, e3, e4, hz a ha32, hz b hb32, hz s hs32, hmin, h1, h2, h3]
    rw [if_pos h]

/-- Scenario 4 of the specification: two buys of 5 at 100, then a sell of 7 at
100: `A` is filled 5 and removed, `B` is filled 2 of 5 and rests with 3. -/
theorem fifo_at_one_price_witness :
    ∃ s1 s2 s3, submitOrder insertionSort 3 initState GoodTillCancel 11 Buy 100 5 = some s1 ∧
      submitOrder insertionSort 3 s1 GoodTillCancel 12 Buy 100 5 = some s2 ∧
      submitOrder insertionSort 3 s2 GoodTillCancel 13 Sell 100 7 = some s3 ∧
      s2.ob.bids = [0, 1] ∧
      (s3.heap 0).orderId = 11 ∧ (s3.heap 1).orderId = 12 ∧
      (s3.heap 0).FilledQuantity = min 5 7 ∧
      (s3.heap 1).FilledQuantity = min 5 (7 - min 5 7) ∧
      (0 < (s3.heap 1).FilledQuantity → (s3.heap 0).remainingQuantity = 0) ∧
      (s3.heap 0).remainingQuantity = 5 - min 5 7 ∧
      (s3.heap 1).remainingQuantity = 5 - min 5 (7 - min 5 7) ∧
      s3.ob.bids = (if 7 < 5 then [0, 1] else if 7 < 5 + 5 then [1] else []) :=
  fifo_at_one_price insertionSort (fun _ => zeroOrder) 0 3 (by decide) 5 5 7 (by decide) (by decide) (by decide)
    (by decide) (by decide) (by decide) 100 100 (by decide) GoodTillCancel GoodTillCancel
    GoodTillCancel 11 12 13

/-! ## Claims about every reachable book -/

theorem head_le_of_sorted {R : Nat → Nat → Prop} {l : List Nat} (hl : l.Pairwise R)
    (hrefl : ∀ x, R x x) (b : Nat) (hb : l.head? = some b) : ∀ x ∈ l, R b x := by
  cases l with
  | nil => simp at hb
  | cons c cs =>
    simp only [List.head?_cons, Option.some.injEq] at hb
    subst hb
    intro x hx
    rcases List.mem_cons.mp hx with rfl | hx1
    · exact hrefl _
    · exact (List.pairwise_cons.mp hl).1 x hx1

/-- Claim C1: in every state reached from `NewOrderBook()` by `AddOrder` calls
that have returned, `bids` is empty, or `asks` is empty, or the head bid is priced
strictly below the head ask; the head bid is the highest-priced bid and the head
ask the lowest-priced ask, so every resting bid is priced below every resting
ask. Moreover every further `AddOrder` call returns. -/
theorem no_cross_after_addOrder (pdq : (Nat → Nat → Bool) → List Nat → List Nat)
    (hpdq : SortContract pdq) (s : State) (hr : Reachable pdq s) :
    NoCross s ∧
    (∀ b, s.ob.bids.head? = some b → ∀ x ∈ s.ob.bids, (s.heap x).price ≤ (s.heap b).price) ∧
    (∀ a, s.ob.asks.head? = some a → ∀ y ∈ s.ob.asks, (s.heap a).price ≤ (s.heap y).price) ∧
    (∀ x ∈ s.ob.bids, ∀ y ∈ s.ob.asks, (s.heap x).price < (s.heap y).price) ∧
    (∀ (orderType : Int) (orderId : Nat) (side price : Int) (quantity : Nat),
      quantity < 4294967296 →
      ∃ s1, submitOrder pdq (s.ob.bids.length + s.ob.asks.length + 2) s orderType orderId side
        price quantity = some s1) := by
  have hinv := inv_of_reachable hpdq hr
  have hnc : NoCross s := (matchIter_eq_none_iff s).mp (visited_of_reachable hr).2
  have hbid := head_le_of_sorted hinv.1.1 (fun _ => le_refl _)
  have hask := head_le_of_sorted hinv.1.2 (fun _ => le_refl _)
  refine ⟨hnc, hbid, hask, ?_, ?_⟩
  · intro x hx y hy
    rcases hnc with h | h | ⟨b, a, hb, ha, hlt⟩
    · rw [h] at hx; simp at hx
    · rw [h] at hy; simp at hy
    · have h1 := hbid b hb x hx
      have h2 := hask a ha y hy
      omega
  · intro orderType orderId side price quantity hq
    exact submitOrder_returns hpdq hinv orderType orderId side price quantity hq _ (by omega)

/-- Instance of C1: the book holding Buy 10@100 and Sell 5@101. -/
theorem no_cross_after_addOrder_witness :
    NoCross exampleBook ∧
    (∀ b, exampleBook.ob.bids.head? = some b →
      ∀ x ∈ exampleBook.ob.bids, (exampleBook.heap x).price ≤ (exampleBook.heap b).price) ∧
    (∀ a, exampleBook.ob.asks.head? = some a →
      ∀ y ∈ exampleBook.ob.asks, (exampleBook.heap a).price ≤ (exampleBook.heap y).price) ∧
    (∀ x ∈ exampleBook.ob.bids, ∀ y ∈ exampleBook.ob.asks,
      (exampleBook.heap x).price < (exampleBook.heap y).price) ∧
    (∀ (orderType : Int) (orderId : Nat) (side price : Int) (quantity : Nat),
      quantity < 4294967296 →
      ∃ s1, submitOrder insertionSort
        (exampleBook.ob.bids.length + exampleBook.ob.asks.length + 2) exampleBook orderType
        orderId side price quantity = some s1) :=
  no_cross_after_addOrder insertionSort insertionSort_contract exampleBook
    (Reachable.submit 3 GoodTillCancel 2 Sell 101 5
      (Reachable.submit 3 GoodTillCancel 1 Buy 100 10 Reachable.init (by decide)
        (rfl : submitOrder insertionSort 3 initState GoodTillCancel 1 Buy 100 10 = some exampleMid))
      (by decide)
      (rfl : submitOrder insertionSort 3 exampleMid GoodTillCancel 2 Sell 101 5 = some exampleBook))

/-- Claim C4: in every state reached from `NewOrderBook()` by `AddOrder` calls,
`bids` is sorted by price in non-increasing order and `asks` in non-decreasing
order; the sort in `AddOrder` establishes the order of the side it is applied to
(on any book), and a trading iteration of `MatchOrder` preserves it. -/
theorem book_sorted (pdq : (Nat → Nat → Bool) → List Nat → List Nat)
    (hpdq : SortContract pdq) :
    (∀ s, Reachable pdq s →
      s.ob.bids.Pairwise (fun x y => (s.heap y).price ≤ (s.heap x).price) ∧
      s.ob.asks.Pairwise (fun x y => (s.heap x).price ≤ (s.heap y).price)) ∧
    (∀ s o, (s.heap o).side = Buy →
      (insertOrder pdq s o).ob.bids.Pairwise
        (fun x y => ((insertOrder pdq s o).heap y).price ≤ ((insertOrder pdq s o).heap x).price)) ∧
    (∀ s o, (s.heap o).side = Sell →
      (insertOrder pdq s o).ob.asks.Pairwise
        (fun x y => ((insertOrder pdq s o).heap x).price ≤ ((insertOrder pdq s o).heap y).price)) ∧
    (∀ s s1, SortedBook s → matchIter s = some s1 → SortedBook s1) := by
  refine ⟨?_, ?_, ?_, ?_⟩
  · intro s hr
    exact (inv_of_reachable hpdq hr).1
  · intro s o ho
    rw [insertOrder_heap, insertOrder_bids, if_pos ho]
    exact (sortSlice_bids hpdq s.heap _).2
  · intro s o ho
    rw [insertOrder_heap, insertOrder_asks, if_pos ho]
    exact (sortSlice_asks hpdq s.heap _).2
  · intro s s1 hs hm
    exact matchIter_sorted hm hs

/-- Instance of C4 with insertion sort as the sorting algorithm on long slices. -/
theorem book_sorted_witness :
    (∀ s, Reachable insertionSort s →
      s.ob.bids.Pairwise (fun x y => (s.heap y).price ≤ (s.heap x).price) ∧
      s.ob.asks.Pairwise (fun x y => (s.heap x).price ≤ (s.heap y).price)) ∧
    (∀ s o, (s.heap o).side = Buy →
      (insertOrder insertionSort s o).ob.bids.Pairwise
        (fun x y => ((insertOrder insertionSort s o).heap y).price ≤
          ((insertOrder insertionSort s o).heap x).price)) ∧
    (∀ s o, (s.heap o).side = Sell →
      (insertOrder insertionSort s o).ob.asks.Pairwise
        (fun x y => ((insertOrder insertionSort s o).heap x).price ≤
          ((insertOrder insertionSort s o).heap y).price)) ∧
    (∀ s s1, SortedBook s → matchIter s = some s1 → SortedBook s1) :=
  book_sorted insertionSort insertionSort_contract

/-! ## Quantities -/

theorem visited_of_trace {pdq : (Nat → Nat → Bool) → List Nat → List Nat}
    {s : State} {g : Nat → Nat} (ht : Trace pdq s g) : Visited pdq s := by
  induction ht with
  | init => exact Visited.init
  | insert orderType orderId side price quantity _ hm hq ih =>
    exact Visited.insert orderType orderId side price quantity ih hm hq
  | trade _ hm ih => exact Visited.trade ih hm

/-- The ledger accounts for every unit missing from `remainingQuantity`, and
is empty for addresses not yet allocated. -/
theorem trace_ledger {pdq : (Nat → Nat → Bool) → List Nat → List Nat}
    (hpdq : SortContract pdq) {s : State} {g : Nat → Nat} (ht : Trace pdq s g) :
    (∀ p, g p + (s.heap p).remainingQuantity = (s.heap p).initialQuantity) ∧
    (∀ p, s.next ≤ p → g p = 0) := by
  induction ht with
  | init => simp [initState, emptyBookState, zeroOrder]
  | @insert s g orderType orderId side price quantity _ hm hq ih =>
    rw [insertOrder_heap, insertOrder_next]
    refine ⟨?_, ?_⟩
    · intro p
      by_cases hp : p = s.next
      · subst hp
        simp [allocOrder, NewOrder, ih.2 s.next (le_refl _)]
      · simpa [allocOrder, hp] using ih.1 p
    · intro p hp
      exact ih.2 p (by simp [allocOrder] at hp; omega)
  | @trade s s1 g htr hm ih =>
    have hinv := inv_of_visited hpdq (visited_of_trace htr)
    obtain ⟨b, bs, a, as, hb, ha, hne, -, hrem, -, -⟩ :=
      matchIter_disjoint hm (sidesDisjoint_of_sidesOK hinv.2.1)
    have hq := hinv.2.2
    have htq : tradeQuantity s =
        min (s.heap b).remainingQuantity (s.heap a).remainingQuantity := by
      simp [tradeQuantity, hb, ha]
    have hcred : ∀ x, creditFill s g x = g x + (if b = x then tradeQuantity s else 0) +
        (if a = x then tradeQuantity s else 0) := by
      intro x
      simp [creditFill, hb, ha]
    refine ⟨?_, ?_⟩
    · intro p
      have hinit : (s1.heap p).initialQuantity = (s.heap p).initialQuantity :=
        (matchIter_fields hm p).2.2.2.2
      rw [hinit, hrem p, hcred p, htq]
      have hp1 := ih.1 p
      have hqp := hq p
      by_cases hpa : p = a
      · subst hpa
        have hbp : ¬ b = p := hne
        rw [if_pos rfl, if_neg hbp, if_pos rfl, subQ_of_le (Nat.min_le_right _ _) (by omega)]
        have := Nat.min_le_right (s.heap b).remainingQuantity (s.heap p).remainingQuantity
        omega
      · by_cases hpb : p = b
        · subst hpb
          have hap : ¬ a = p := fun e => hpa e.symm
          rw [if_neg hpa, if_pos rfl, if_pos rfl, if_neg hap,
            subQ_of_le (Nat.min_le_left _ _) (by omega)]
          have := Nat.min_le_left (s.heap p).remainingQuantity (s.heap a).remainingQuantity
          omega
        · have hap : ¬ a = p := fun e => hpa e.symm
          have hbp : ¬ b = p := fun e => hpb e.symm
          rw [if_neg hpa, if_neg hpb, if_neg hap, if_neg hbp]
          omega
    · intro p hp
      rw [matchIter_next hm] at hp
      have hb1 := (hinv.2.1.1 b (by rw [hb]; simp)).2
      have ha1 := (hinv.2.1.2 a (by rw [ha]; simp)).2
      have hbp : ¬ b = p := by omega
      have hap : ¬ a = p := by omega
      rw [hcred p, if_neg hbp, if_neg hap, ih.2 p hp]

/-- Claim C5: for every order created by `NewOrder` and submitted through
`AddOrder`, in every state the program passes through (after each insertion and
after each iteration of the matching loop), `0 ≤ remainingQuantity ≤
initialQuantity < 2^32`; so the `uint32` subtraction in `FilledQuantity()` does not
wrap, and `FilledQuantity()` equals the amount really traded by the order
(the ledger `g`). -/
theorem quantity_invariant (pdq : (Nat → Nat → Bool) → List Nat → List Nat)
    (hpdq : SortContract pdq) (s : State) (g : Nat → Nat) (ht : Trace pdq s g) (p : Nat) :
    0 ≤ (s.heap p).remainingQuantity ∧
    (s.heap p).remainingQuantity ≤ (s.heap p).initialQuantity ∧
    (s.heap p).initialQuantity < 4294967296 ∧
    (s.heap p).FilledQuantity = (s.heap p).initialQuantity - (s.heap p).remainingQuantity ∧
    (s.heap p).FilledQuantity = g p := by
  have hq := (inv_of_visited hpdq (visited_of_trace ht)).2.2 p
  have hl := (trace_ledger hpdq ht).1 p
  have hf : (s.heap p).FilledQuantity =
      (s.heap p).initialQuantity - (s.heap p).remainingQuantity := by
    unfold Order.FilledQuantity Order.InitialQuantity Order.RemainingQuantity
    exact subQ_of_le hq.1 hq.2
  refine ⟨Nat.zero_le _, hq.1, hq.2, hf, ?_⟩
  rw [hf]; omega

/-- Instance of C5: Buy 10@100 then Sell 4@99, after the trade of 4: the buy
order at address 0 has 6 remaining and 4 filled. -/
theorem quantity_invariant_witness :
    (0 ≤ (exampleTraded.heap 0).remainingQuantity ∧
    (exampleTraded.heap 0).remainingQuantity ≤ (exampleTraded.heap 0).initialQuantity ∧
    (exampleTraded.heap 0).initialQuantity < 4294967296 ∧
    (exampleTraded.heap 0).FilledQuantity =
      (exampleTraded.heap 0).initialQuantity - (exampleTraded.heap 0).remainingQuantity ∧
    (exampleTraded.heap 0).FilledQuantity = creditFill exampleCrossed (fun _ => 0) 0) ∧
    (exampleTraded.heap 0).remainingQuantity = 6 ∧
    creditFill exampleCrossed (fun _ => 0) 0 = 4 :=
  ⟨quantity_invariant insertionSort insertionSort_contract exampleTraded
    (creditFill exampleCrossed (fun _ => 0))
    (Trace.trade
      (Trace.insert GoodTillCancel 2 Sell 99 4
        (Trace.insert GoodTillCancel 1 Buy 100 10 Trace.init rfl (by decide))
        rfl (by decide))
      (rfl : matchIter exampleCrossed = some exampleTraded)) 0, by decide, by decide⟩

theorem sum_map_add_eq (l : List Nat) (f g h : Nat → Nat)
    (hfg : ∀ p ∈ l, f p + g p = h p) :
    (l.map f).sum + (l.map g).sum = (l.map h).sum := by
  induction l with
  | nil => simp
  | cons x xs ih =>
    have h1 := hfg x (by simp)
    have h2 := ih (fun p hp => hfg p (by simp [hp]))
    simp only [List.map_cons, List.sum_cons]
    omega

/-- Claim C6: in every state the program passes through (before and after every
`AddOrder`, and after every iteration of `MatchOrder`), each order satisfies
`remainingQuantity + FilledQuantity() = initialQuantity` as natural numbers (no
wrap-around), and over all orders submitted so far (addresses below `next`),
`sum(remainingQuantity) + sum(FilledQuantity()) = sum(initialQuantity)`. -/
theorem quantity_conservation (pdq : (Nat → Nat → Bool) → List Nat → List Nat)
    (hpdq : SortContract pdq) (s : State) (hv : Visited pdq s) :
    (∀ p, (s.heap p).remainingQuantity + (s.heap p).FilledQuantity =
      (s.heap p).initialQuantity) ∧
    ((List.range s.next).map (fun p => (s.heap p).remainingQuantity)).sum +
      ((List.range s.next).map (fun p => (s.heap p).FilledQuantity)).sum =
      ((List.range s.next).map (fun p => (s.heap p).initialQuantity)).sum := by
  have hq := (inv_of_visited hpdq hv).2.2
  have hone : ∀ p, (s.heap p).remainingQuantity + (s.heap p).FilledQuantity =
      (s.heap p).initialQuantity := by
    intro p
    have hf : (s.heap p).FilledQuantity =
        (s.heap p).initialQuantity - (s.heap p).remainingQuantity := by
      unfold Order.FilledQuantity Order.InitialQuantity Order.RemainingQuantity
      exact subQ_of_le (hq p).1 (hq p).2
    have := (hq p).1
    omega
  exact ⟨hone, sum_map_add_eq _ _ _ _ (fun p _ => hone p)⟩

/-- Instance of C6: Buy 10@100 then Sell 4@99, after the trade of 4. -/
theorem quantity_conservation_witness :
    (∀ p, (exampleTraded.heap p).remainingQuantity + (exampleTraded.heap p).FilledQuantity =
      (exampleTraded.heap p).initialQuantity) ∧
    ((List.range exampleTraded.next).map (fun p => (exampleTraded.heap p).remainingQuantity)).sum +
      ((List.range exampleTraded.next).map (fun p => (exampleTraded.heap p).FilledQuantity)).sum =
      ((List.range exampleTraded.next).map
        (fun p => (exampleTraded.heap p).initialQuantity)).sum :=
  quantity_conservation insertionSort insertionSort_contract exampleTraded
    (Visited.trade
      (Visited.insert GoodTillCancel 2 Sell 99 4
        (Visited.insert GoodTillCancel 1 Buy 100 10 Visited.init rfl (by decide))
        rfl (by decide))
      (rfl : matchIter exampleCrossed = some exampleTraded))

/-! ## Termination of the matching loop -/

theorem tradeCount_le_fuel : ∀ (fuel : Nat) (s : State), tradeCount fuel s ≤ fuel := by
  intro fuel
  induction fuel with
  | zero => intro s; simp [tradeCount]
  | succ n ih =>
    intro s
    unfold tradeCount
    cases hm : matchIter s with
    | none => simp
    | some s2 =>
      have := ih s2
      simp only
      omega

/-- Claim C10 as stated fails: on the book whose `bids` and `asks` both hold the
same order (Buy 5@100), `MatchOrder` never returns, whatever the fuel: its
`remainingQuantity` alternates between 5 and `2^32 - 5` and nothing is removed. -/
theorem matchOrder_aliased_diverges :
    (∀ fuel, MatchOrder fuel aliasedBook = none) ∧
    (∃ s1, matchIter aliasedBook = some s1 ∧ s1.ob.bids = [0] ∧ s1.ob.asks = [0] ∧
      (s1.heap 0).remainingQuantity = 4294967291) := by
  have key : ∀ fuel (s : State), s.ob.bids = [0] → s.ob.asks = [0] →
      ((s.heap 0).remainingQuantity = 5 ∨ (s.heap 0).remainingQuantity = 4294967291) →
      MatchOrder fuel s = none := by
    intro fuel
    induction fuel with
    | zero => intro s _ _ _; rfl
    | succ n ih =>
      intro s hb ha hr
      obtain ⟨hp, nx, bids, asks⟩ := s
      simp only at hb ha hr
      subst hb ha
      unfold MatchOrder
      have hstep : matchIter ⟨hp, nx, ⟨[0], [0]⟩⟩ = some
          ⟨setRemaining (setRemaining hp 0 0) 0 (subQ 0 (hp 0).remainingQuantity), nx,
            ⟨[0], [0]⟩⟩ := by
        rcases hr with hr | hr <;> simp [matchIter, hr, subQ, setRemaining]
      rw [hstep]
      simp only
      apply ih
      · rfl
      · rfl
      · rcases hr with hr | hr <;> simp [hr, subQ]
  refine ⟨fun fuel => key fuel aliasedBook rfl rfl (Or.inl rfl), ?_⟩
  exact ⟨_, rfl, rfl, rfl, rfl⟩

/-- Claim C10, amended: for every book whose `bids` and `asks` share no order
(any contents otherwise, including orders with `remainingQuantity` 0),
`MatchOrder` terminates: it returns within `len(bids) + len(asks) + 1` loop-head
evaluations, every iteration that does not break removes at least one order from
`bids` or `asks` (and leaves a book whose sides share no order), and the number
of trading iterations is at most `len(bids) + len(asks)`. -/
theorem matching_terminates_disjoint (s : State) (hd : SidesDisjoint s) :
    (∃ s1, MatchOrder (s.ob.bids.length + s.ob.asks.length + 1) s = some s1) ∧
    (∀ s1, matchIter s = some s1 →
      s1.ob.bids.length + s1.ob.asks.length < s.ob.bids.length + s.ob.asks.length ∧
      SidesDisjoint s1) ∧
    (∀ fuel, tradeCount fuel s ≤ s.ob.bids.length + s.ob.asks.length) := by
  refine ⟨(MatchOrder_terminates _ s hd (by omega)).1, ?_, ?_⟩
  · intro s1 hm
    exact ⟨(matchIter_length hm hd).1, matchIter_sidesDisjoint hm hd⟩
  · intro fuel
    rcases Nat.lt_or_ge (s.ob.bids.length + s.ob.asks.length) fuel with h | h
    · exact (MatchOrder_terminates fuel s hd h).2
    · exact le_trans (tradeCount_le_fuel fuel s) h

/-- Instance of the amended C10: a crossed book with a resting order of
`remainingQuantity` 0. -/
theorem matching_terminates_disjoint_witness :
    (∃ s1, MatchOrder (crossedBook.ob.bids.length + crossedBook.ob.asks.length + 1)
      crossedBook = some s1) ∧
    (∀ s1, matchIter crossedBook = some s1 →
      s1.ob.bids.length + s1.ob.asks.length <
        crossedBook.ob.bids.length + crossedBook.ob.asks.length ∧
      SidesDisjoint s1) ∧
    (∀ fuel, tradeCount fuel crossedBook ≤
      crossedBook.ob.bids.length + crossedBook.ob.asks.length) :=
  matching_terminates_disjoint crossedBook (by decide)

/-! ## The order type is never read -/

theorem State.ext_fields {s t : State} (hh : ∀ x, s.heap x = t.heap x) (hn : s.next = t.next)
    (hob : s.ob = t.ob) : s = t := by
  obtain ⟨h1, n1, o1⟩ := s
  obtain ⟨h2, n2, o2⟩ := t
  simp only at hh hn hob
  have : h1 = h2 := funext hh
  subst this hn hob
  rfl

@[simp] theorem retype_price (h : Heap) (p : Nat) (t : Int) (x : Nat) :
    (retype h p t x).price = (h x).price := by
  unfold retype; split
  · next hx => subst hx; rfl
  · rfl

@[simp] theorem retype_side (h : Heap) (p : Nat) (t : Int) (x : Nat) :
    (retype h p t x).side = (h x).side := by
  unfold retype; split
  · next hx => subst hx; rfl
  · rfl

@[simp] theorem retype_remainingQuantity (h : Heap) (p : Nat) (t : Int) (x : Nat) :
    (retype h p t x).remainingQuantity = (h x).remainingQuantity := by
  unfold retype; split
  · next hx => subst hx; rfl
  · rfl

theorem retype_setRemaining (h : Heap) (p : Nat) (t : Int) (q v : Nat) :
    setRemaining (retype h p t) q v = retype (setRemaining h q v) p t := by
  funext x
  by_cases hxq : x = q <;> by_cases hxp : x = p
  · subst hxq; subst hxp; simp [setRemaining, retype]
  · subst hxq; simp [setRemaining, retype, hxp]
  · subst hxp; simp [setRemaining, retype, hxq]
  · simp [setRemaining, retype, hxq, hxp]

theorem matchIter_cons_cons (hp : Heap) (nx b : Nat) (bs : List Nat) (a : Nat) (as : List Nat)
    (hlt : ¬ (hp b).price < (hp a).price) :
    matchIter ⟨hp, nx, ⟨b :: bs, a :: as⟩⟩ = some
      ⟨setRemaining
        (setRemaining hp b (subQ (hp b).remainingQuantity
          (min (hp b).remainingQuantity (hp a).remainingQuantity))) a
        (subQ ((setRemaining hp b (subQ (hp b).remainingQuantity
          (min (hp b).remainingQuantity (hp a).remainingQuantity))) a).remainingQuantity
          (min (hp b).remainingQuantity (hp a).remainingQuantity)), nx,
        ⟨if ((setRemaining
            (setRemaining hp b (subQ (hp b).remainingQuantity
              (min (hp b).remainingQuantity (hp a).remainingQuantity))) a
            (subQ ((setRemaining hp b (subQ (hp b).remainingQuantity
              (min (hp b).remainingQuantity (hp a).remainingQuantity))) a).remainingQuantity
              (min (hp b).remainingQuantity (hp a).remainingQuantity))) b).remainingQuantity = 0
          then bs else b :: bs,
         if ((setRemaining
            (setRemaining hp b (subQ (hp b).remainingQuantity
              (min (hp b).remainingQuantity (hp a).remainingQuantity))) a
            (subQ ((setRemaining hp b (subQ (hp b).remainingQuantity
              (min (hp b).remainingQuantity (hp a).remainingQuantity))) a).remainingQuantity
              (min (hp b).remainingQuantity (hp a).remainingQuantity))) a).remainingQuantity = 0
          then as else a :: as⟩⟩ := by
  unfold matchIter
  simp only [if_neg hlt]

theorem matchIter_setOrderType (s : State) (p : Nat) (t : Int) :
    matchIter (setOrderType s p t) = (matchIter s).map (fun s1 => setOrderType s1 p t) := by
  obtain ⟨hp, nx, bids, asks⟩ := s
  cases bids with
  | nil => simp [matchIter, setOrderType]
  | cons b bs =>
    cases asks with
    | nil => simp [matchIter, setOrderType]
    | cons a as =>
      by_cases hlt : (hp b).price < (hp a).price
      · simp [matchIter, setOrderType, hlt]
      · have hlt1 : ¬ (retype hp p t b).price < (retype hp p t a).price := by simpa using hlt
        rw [matchIter_cons_cons hp nx b bs a as hlt]
        unfold setOrderType
        simp only
        rw [matchIter_cons_cons (retype hp p t) nx b bs a as hlt1]
        simp only [retype_remainingQuantity, retype_setRemaining, Option.map_some']

theorem MatchOrder_setOrderType (p : Nat) (t : Int) : ∀ (fuel : Nat) (s : State),
    MatchOrder fuel (setOrderType s p t) =
      (MatchOrder fuel s).map (fun s1 => setOrderType s1 p t) := by
  intro fuel
  induction fuel with
  | zero => intro s; rfl
  | succ n ih =>
    intro s
    unfold MatchOrder
    rw [matchIter_setOrderType]
    cases hm : matchIter s with
    | none => rfl
    | some s2 => exact ih s2

theorem insertOrder_setOrderType (pdq : (Nat → Nat → Bool) → List Nat → List Nat)
    (s : State) (p : Nat) (t : Int) (o : Nat) :
    insertOrder pdq (setOrderType s p t) o = setOrderType (insertOrder pdq s o) p t := by
  unfold insertOrder setOrderType
  by_cases hb : (s.heap o).side = Buy <;> by_cases hs : (s.heap o).side = Sell <;>
    simp [hb, hs]

theorem allocOrder_setOrderType (s : State) (t : Int) (orderId : Nat) (side price : Int)
    (quantity : Nat) :
    allocOrder s (NewOrder t orderId side price quantity) =
      setOrderType (allocOrder s (NewOrder GoodTillCancel orderId side price quantity))
        s.next t := by
  apply State.ext_fields
  · intro x
    by_cases hx : x = s.next <;> simp [allocOrder, setOrderType, retype, NewOrder, hx]
  · rfl
  · rfl

theorem submitOrder_orderType (pdq : (Nat → Nat → Bool) → List Nat → List Nat) (fuel : Nat)
    (s : State) (t : Int) (orderId : Nat) (side price : Int) (quantity : Nat) :
    submitOrder pdq fuel s t orderId side price quantity =
      (submitOrder pdq fuel s GoodTillCancel orderId side price quantity).map
        (fun s1 => setOrderType s1 s.next t) := by
  unfold submitOrder AddOrder
  rw [allocOrder_setOrderType, insertOrder_setOrderType, MatchOrder_setOrderType]

theorem submitOrder_emptyBook (pdq : (Nat → Nat → Bool) → List Nat → List Nat) (h : Heap)
    (n : Nat) (fuel : Nat) (orderType : Int) (orderId : Nat) (price : Int) (quantity : Nat) :
    (∃ s1, submitOrder pdq (fuel + 1) (emptyBookState h n) orderType orderId Buy price quantity =
        some s1 ∧ s1.ob = { bids := [n], asks := [] } ∧
      s1.heap n = NewOrder orderType orderId Buy price quantity) ∧
    (∃ s1, submitOrder pdq (fuel + 1) (emptyBookState h n) orderType orderId Sell price quantity =
        some s1 ∧ s1.ob = { bids := [], asks := [n] } ∧
      s1.heap n = NewOrder orderType orderId Sell price quantity) := by
  constructor <;>
    simp [submitOrder, AddOrder, insertOrder, allocOrder, NewOrder, emptyBookState, NewOrderBook,
      sortSlice, insertionSort, insertLeft, MatchOrder, matchIter]

/-- Claim C3 as stated fails: `AddOrder` of a `FillandKill` Buy 10@100 on the empty
book leaves the order resting in `bids` with its whole quantity. -/
theorem fillAndKill_rests :
    (submitOrder insertionSort 1 initState FillandKill 7 Buy 100 10).map
      (fun s => (s.ob, (s.heap 0).orderType, (s.heap 0).remainingQuantity)) =
      some ({ bids := [0], asks := [] }, FillandKill, 10) := by
  decide

/-- Claim C3, amended: `AddOrder` never reads the order type. For every book and
every order, submitting it with type `FillandKill` gives exactly the result of
submitting it with type `GoodTillCancel` (same `bids`, same `asks`, same
quantities), but for the `orderType` field of the new order; so a `FillandKill`
order rests on its side of the book exactly when the `GoodTillCancel` order would.
In particular, on the empty book a `FillandKill` Buy or Sell order of any price
and quantity is left resting. -/
theorem fillAndKill_as_goodTillCancel (pdq : (Nat → Nat → Bool) → List Nat → List Nat)
    (fuel : Nat) (s : State) (orderId : Nat) (side price : Int) (quantity : Nat) (h : Heap)
    (n : Nat) :
    submitOrder pdq fuel s FillandKill orderId side price quantity =
      (submitOrder pdq fuel s GoodTillCancel orderId side price quantity).map
        (fun s1 => setOrderType s1 s.next FillandKill) ∧
    (∃ s1, submitOrder pdq (fuel + 1) (emptyBookState h n) FillandKill orderId Buy price
        quantity = some s1 ∧ s1.ob = { bids := [n], asks := [] } ∧
      s1.heap n = NewOrder FillandKill orderId Buy price quantity) ∧
    (∃ s1, submitOrder pdq (fuel + 1) (emptyBookState h n) FillandKill orderId Sell price
        quantity = some s1 ∧ s1.ob = { bids := [], asks := [n] } ∧
      s1.heap n = NewOrder FillandKill orderId Sell price quantity) :=
  ⟨submitOrder_orderType pdq fuel s FillandKill orderId side price quantity,
    submitOrder_emptyBook pdq h n fuel FillandKill orderId price quantity⟩

/-! ## No validation of orders -/

/-- Claim C9 as stated fails: on the empty book a Buy order of quantity zero
(0@100) is inserted and rests in `bids`, and so is a Sell order with a negative
price (5@-3) in `asks`; the book is changed. -/
theorem invalid_order_inserted :
    (submitOrder insertionSort 1 initState GoodTillCancel 7 Buy 100 0).map
      (fun s => (s.ob, (s.heap 0).remainingQuantity)) =
      some ({ bids := [0], asks := [] }, 0) ∧
    (submitOrder insertionSort 1 initState GoodTillCancel 8 Sell (-3) 5).map
      (fun s => (s.ob, (s.heap 0).price)) =
      some ({ bids := [], asks := [0] }, -3) := by
  decide

/-- Claim C9, amended: `AddOrder` validates nothing and rejects nothing. From
every reachable book the call returns for every order, whatever its price and
quantity (also quantity zero or a non-positive price), with the order allocated
and no other outcome; and on the empty book every Buy order is left resting in
`bids` and every Sell order in `asks`, so the book is changed. -/
theorem addOrder_no_validation (pdq : (Nat → Nat → Bool) → List Nat → List Nat)
    (hpdq : SortContract pdq) (orderType : Int) (orderId : Nat) (price : Int)
    (quantity : Nat) (hq : quantity < 4294967296) :
    (∀ s side, Reachable pdq s →
      ∃ s1, submitOrder pdq (s.ob.bids.length + s.ob.asks.length + 2) s orderType orderId
        side price quantity = some s1 ∧ Reachable pdq s1) ∧
    (∀ h n fuel, ∃ s1, submitOrder pdq (fuel + 1) (emptyBookState h n) orderType orderId Buy
        price quantity = some s1 ∧ s1.ob = { bids := [n], asks := [] } ∧
      s1.heap n = NewOrder orderType orderId Buy price quantity) ∧
    (∀ h n fuel, ∃ s1, submitOrder pdq (fuel + 1) (emptyBookState h n) orderType orderId Sell
        price quantity = some s1 ∧ s1.ob = { bids := [], asks := [n] } ∧
      s1.heap n = NewOrder orderType orderId Sell price quantity) := by
  refine ⟨?_,
    fun h n fuel => (submitOrder_emptyBook pdq h n fuel orderType orderId price quantity).1,
    fun h n fuel => (submitOrder_emptyBook pdq h n fuel orderType orderId price quantity).2⟩
  intro s side hr
  obtain ⟨s1, hs1⟩ := submitOrder_returns hpdq (inv_of_reachable hpdq hr) orderType orderId
    side price quantity hq (s.ob.bids.length + s.ob.asks.length + 2) (by omega)
  exact ⟨s1, hs1, Reachable.submit _ orderType orderId side price quantity hr hq hs1⟩

/-- Instance of the amended C9: a Buy order of quantity zero at price -1. -/
theorem addOrder_no_validation_witness :
    (∀ s side, Reachable insertionSort s →
      ∃ s1, submitOrder insertionSort (s.ob.bids.length + s.ob.asks.length + 2) s
        GoodTillCancel 7 side (-1) 0 = some s1 ∧ Reachable insertionSort s1) ∧
    (∀ h n fuel, ∃ s1, submitOrder insertionSort (fuel + 1) (emptyBookState h n) GoodTillCancel 7
        Buy (-1) 0 = some s1 ∧ s1.ob = { bids := [n], asks := [] } ∧
      s1.heap n = NewOrder GoodTillCancel 7 Buy (-1) 0) ∧
    (∀ h n fuel, ∃ s1, submitOrder insertionSort (fuel + 1) (emptyBookState h n) GoodTillCancel 7
        Sell (-1) 0 = some s1 ∧ s1.ob = { bids := [], asks := [n] } ∧
      s1.heap n = NewOrder GoodTillCancel 7 Sell (-1) 0) :=
  addOrder_no_validation insertionSort insertionSort_contract GoodTillCancel 7 (-1) 0
    (by decide)

/-! ## Construction of orders -/

/-- Claim C12 as stated fails: `NewOrder` with quantity 0 does not fail; it returns
an order with `initialQuantity` and `remainingQuantity` 0. -/
theorem newOrder_zero_quantity :
    NewOrder GoodTillCancel 7 Buy 100 0 =
      { orderType := GoodTillCancel, orderId := 7, side := Buy, price := 100,
        initialQuantity := 0, remainingQuantity := 0 } ∧
    (NewOrder GoodTillCancel 7 Buy 100 0).InitialQuantity = 0 := by
  decide

/-- Claim C12, amended: `NewOrder(orderType, orderId, side, price, quantity)`
never fails. For every quantity, zero included, it returns an order whose
accessors return exactly the given `orderType`, `orderId`, `side` and `price`,
with `InitialQuantity() = RemainingQuantity() = quantity` and
`FilledQuantity() = 0`. -/
theorem newOrder_accessors (orderType : Int) (orderId : Nat) (side price : Int)
    (quantity : Nat) :
    (NewOrder orderType orderId side price quantity).OrderType = orderType ∧
    (NewOrder orderType orderId side price quantity).OrderId = orderId ∧
    (NewOrder orderType orderId side price quantity).Side = side ∧
    (NewOrder orderType orderId side price quantity).Price = price ∧
    (NewOrder orderType orderId side price quantity).InitialQuantity = quantity ∧
    (NewOrder orderType orderId side price quantity).RemainingQuantity = quantity ∧
    (NewOrder orderType orderId side price quantity).FilledQuantity = 0 := by
  refine ⟨rfl, rfl, rfl, rfl, rfl, rfl, ?_⟩
  show subQ quantity quantity = 0
  exact subQ_self quantity

/-! ## `MatchOrder` at rest -/

theorem MatchOrder_of_noCross (s : State) (h : matchIter s = none) (fuel : Nat) :
    MatchOrder (fuel + 1) s = some s := by
  unfold MatchOrder
  rw [h]

theorem MatchOrder_rest {fuel : Nat} {s s1 : State} (h : MatchOrder fuel s = some s1) :
    matchIter s1 = none :=
  (MatchOrder_induct (fun _ => True) (fun _ _ _ _ => trivial) fuel s s1 h trivial).2

/-- Claim C19: for every book in which `bids` is empty, or `asks` is empty, or
`bids[0].price < asks[0].price`, `MatchOrder` returns the book unchanged; and for
every book, running `MatchOrder` on the result of `MatchOrder` gives that result
again: whenever the first run returns, the second returns the same state, and on
a book whose sides share no order the first run does return. -/
theorem matchOrder_idempotent (s : State) :
    (NoCross s → ∀ fuel, MatchOrder (fuel + 1) s = some s) ∧
    (∀ fuel s1, MatchOrder fuel s = some s1 → ∀ fuel2, MatchOrder (fuel2 + 1) s1 = some s1) ∧
    (∀ fuel, (MatchOrder fuel s).bind (MatchOrder fuel) = MatchOrder fuel s) ∧
    (SidesDisjoint s → ∃ s1,
      MatchOrder (s.ob.bids.length + s.ob.asks.length + 1) s = some s1 ∧
      MatchOrder (s.ob.bids.length + s.ob.asks.length + 1) s1 = some s1) := by
  refine ⟨?_, ?_, ?_, ?_⟩
  · intro h fuel
    exact MatchOrder_of_noCross s ((matchIter_eq_none_iff s).mpr h) fuel
  · intro fuel s1 h fuel2
    exact MatchOrder_of_noCross s1 (MatchOrder_rest h) fuel2
  · intro fuel
    cases h : MatchOrder fuel s with
    | none => rfl
    | some s1 =>
      cases fuel with
      | zero => simp [MatchOrder] at h
      | succ n => exact MatchOrder_of_noCross s1 (MatchOrder_rest h) n
  · intro hd
    obtain ⟨s1, h1⟩ := (MatchOrder_terminates _ s hd (Nat.lt_succ_self _)).1
    exact ⟨s1, h1, MatchOrder_of_noCross s1 (MatchOrder_rest h1) _⟩

/-- Instance of C19: the book holding Buy 10@100 and Sell 5@101 is returned
unchanged, and the crossed book Buy 5@100, Sell 0@90 is matched once and for all. -/
theorem matchOrder_idempotent_witness :
    (∀ fuel, MatchOrder (fuel + 1) exampleBook = some exampleBook) ∧
    (∃ s1, MatchOrder (crossedBook.ob.bids.length + crossedBook.ob.asks.length + 1)
        crossedBook = some s1 ∧
      MatchOrder (crossedBook.ob.bids.length + crossedBook.ob.asks.length + 1) s1 = some s1) :=
  ⟨(matchOrder_idempotent exampleBook).1 (by
      right; right
      exact ⟨0, 1, rfl, rfl, by decide⟩),
    (matchOrder_idempotent crossedBook).2.2.2 (by decide)⟩

/-! ## Orders outside the book -/

/-- A trading iteration changes no order but the two heads. -/
theorem matchIter_heap_other {s s1 : State} (h : matchIter s = some s1) (x : Nat)
    (hb : x ∉ s.ob.bids) (ha : x ∉ s.ob.asks) : s1.heap x = s.heap x := by
  obtain ⟨b, bs, a, as, hbs, has, -, hh, -, -, -⟩ := matchIter_eq_some h
  have hxb : x ≠ b := by rintro rfl; exact hb (by rw [hbs]; simp)
  have hxa : x ≠ a := by rintro rfl; exact ha (by rw [has]; simp)
  rw [hh, setRemaining_other _ _ _ _ hxa, setRemaining_other _ _ _ _ hxb]

theorem MatchOrder_heap_other {fuel : Nat} {s s1 : State} (h : MatchOrder fuel s = some s1)
    (x : Nat) (hb : x ∉ s.ob.bids) (ha : x ∉ s.ob.asks) : s1.heap x = s.heap x := by
  have key := MatchOrder_induct
    (fun t => (x ∉ t.ob.bids ∧ x ∉ t.ob.asks) ∧ t.heap x = s.heap x)
    (fun t t1 ht hm =>
      ⟨⟨fun hx => ht.1.1 ((matchIter_mem hm).1 x hx), fun hx => ht.1.2 ((matchIter_mem hm).2 x hx)⟩,
        (matchIter_heap_other hm x ht.1.1 ht.1.2).trans ht.2⟩)
    fuel s s1 h ⟨⟨hb, ha⟩, rfl⟩
  exact key.1.2

theorem withOrder_setRemaining (h : Heap) (x : Nat) (v : Order) (q w : Nat) (hq : q ≠ x) :
    setRemaining (fun y => if y = x then v else h y) q w =
      fun y => if y = x then v else setRemaining h q w y := by
  funext y
  by_cases hyx : y = x
  · subst hyx
    have : y ≠ q := fun e => hq e.symm
    simp [setRemaining, this]
  · by_cases hyq : y = q
    · subst hyq; simp [setRemaining, hyx]
    · simp [setRemaining, hyx, hyq]

theorem matchIter_withOrder (s : State) (x : Nat) (v : Order) (n : Nat)
    (hb : x ∉ s.ob.bids) (ha : x ∉ s.ob.asks) :
    matchIter (withOrder s x v n) = (matchIter s).map (fun s1 => withOrder s1 x v n) := by
  obtain ⟨hp, nx, bids, asks⟩ := s
  cases bids with
  | nil => simp [matchIter, withOrder]
  | cons b bs =>
    cases asks with
    | nil => simp [matchIter, withOrder]
    | cons a as =>
      have hbx : b ≠ x := by rintro rfl; exact hb (by simp)
      have hax : a ≠ x := by rintro rfl; exact ha (by simp)
      by_cases hlt : (hp b).price < (hp a).price
      · simp [matchIter, withOrder, hlt, hbx, hax]
      · have hlt1 : ¬ ((fun y => if y = x then v else hp y) b).price <
            ((fun y => if y = x then v else hp y) a).price := by simpa [hbx, hax] using hlt
        rw [matchIter_cons_cons hp nx b bs a as hlt]
        unfold withOrder
        simp only
        rw [matchIter_cons_cons _ n b bs a as hlt1]
        simp only [if_neg hbx, if_neg hax, withOrder_setRemaining _ _ _ _ _ hbx,
          withOrder_setRemaining _ _ _ _ _ hax, Option.map_some']

theorem MatchOrder_withOrder (x : Nat) (v : Order) (n : Nat) : ∀ (fuel : Nat) (s : State),
    x ∉ s.ob.bids → x ∉ s.ob.asks →
    MatchOrder fuel (withOrder s x v n) =
      (MatchOrder fuel s).map (fun s1 => withOrder s1 x v n) := by
  intro fuel
  induction fuel with
  | zero => intro s _ _; rfl
  | succ k ih =>
    intro s hb ha
    unfold MatchOrder
    rw [matchIter_withOrder s x v n hb ha]
    cases hm : matchIter s with
    | none => rfl
    | some s2 =>
      exact ih s2 (fun hx => hb ((matchIter_mem hm).1 x hx))
        (fun hx => ha ((matchIter_mem hm).2 x hx))

theorem insertOrder_other_side (pdq : (Nat → Nat → Bool) → List Nat → List Nat) (s : State)
    (o : Nat) (hb : (s.heap o).side ≠ Buy) (hs : (s.heap o).side ≠ Sell) :
    insertOrder pdq s o = s := by
  unfold insertOrder
  simp [hb, hs]

theorem MatchOrder_mem {fuel : Nat} {s s1 : State} (h : MatchOrder fuel s = some s1) :
    (∀ x ∈ s1.ob.bids, x ∈ s.ob.bids) ∧ (∀ x ∈ s1.ob.asks, x ∈ s.ob.asks) :=
  (MatchOrder_induct
    (fun t => (∀ x ∈ t.ob.bids, x ∈ s.ob.bids) ∧ (∀ x ∈ t.ob.asks, x ∈ s.ob.asks))
    (fun _ _ ht hmi =>
      ⟨fun x hx => ht.1 x ((matchIter_mem hmi).1 x hx),
        fun x hx => ht.2 x ((matchIter_mem hmi).2 x hx)⟩)
    fuel s s1 h ⟨fun _ hx => hx, fun _ hx => hx⟩).1

/-- Claim C20: an order whose side is neither `Buy` nor `Sell` is dropped without
an error. For every book and every such order, `AddOrder` appends it to neither
`bids` nor `asks` and is `MatchOrder` on the original book; for a newly created
order (stored at the unused address `s.next`) the result is that of `MatchOrder`
on the original book with the new order in memory as created (its
`remainingQuantity` unchanged), so an uncrossed book is returned unchanged. -/
theorem unknown_side_dropped (pdq : (Nat → Nat → Bool) → List Nat → List Nat) (fuel : Nat)
    (s : State) (orderType : Int) (orderId : Nat) (side price : Int) (quantity : Nat)
    (hb : side ≠ Buy) (hs : side ≠ Sell)
    (hfresh : s.next ∉ s.ob.bids ∧ s.next ∉ s.ob.asks) :
    (∀ (t : State) (o : Nat), (t.heap o).side = side →
      insertOrder pdq t o = t ∧ AddOrder pdq fuel t o = MatchOrder fuel t) ∧
    submitOrder pdq fuel s orderType orderId side price quantity =
      (MatchOrder fuel s).map (fun s1 =>
        withOrder s1 s.next (NewOrder orderType orderId side price quantity) (s.next + 1)) ∧
    (∀ s1, submitOrder pdq fuel s orderType orderId side price quantity = some s1 →
      s1.heap s.next = NewOrder orderType orderId side price quantity ∧
      (∀ x ∈ s1.ob.bids, x ∈ s.ob.bids) ∧ (∀ x ∈ s1.ob.asks, x ∈ s.ob.asks)) ∧
    (NoCross s → submitOrder pdq (fuel + 1) s orderType orderId side price quantity =
      some (withOrder s s.next (NewOrder orderType orderId side price quantity)
        (s.next + 1))) := by
  have hins : insertOrder pdq (allocOrder s (NewOrder orderType orderId side price quantity))
      s.next = withOrder s s.next (NewOrder orderType orderId side price quantity)
        (s.next + 1) :=
    insertOrder_other_side pdq _ _ (by simpa [allocOrder, NewOrder] using hb)
      (by simpa [allocOrder, NewOrder] using hs)
  have hsub : ∀ k, submitOrder pdq k s orderType orderId side price quantity =
      (MatchOrder k s).map (fun s1 =>
        withOrder s1 s.next (NewOrder orderType orderId side price quantity)
          (s.next + 1)) := by
    intro k
    unfold submitOrder AddOrder
    rw [hins]
    exact MatchOrder_withOrder s.next _ (s.next + 1) k s hfresh.1 hfresh.2
  refine ⟨?_, hsub fuel, ?_, ?_⟩
  · intro t o ho
    have h1 := insertOrder_other_side pdq t o (by rw [ho]; exact hb) (by rw [ho]; exact hs)
    exact ⟨h1, by unfold AddOrder; rw [h1]⟩
  · intro s1 h1
    rw [hsub fuel] at h1
    cases hm : MatchOrder fuel s with
    | none => rw [hm] at h1; simp at h1
    | some s2 =>
      rw [hm] at h1
      simp only [Option.map_some', Option.some.injEq] at h1
      subst h1
      have hmem := MatchOrder_mem hm
      exact ⟨by simp [withOrder], hmem.1, hmem.2⟩
  · intro hnc
    rw [hsub (fuel + 1), MatchOrder_of_noCross s ((matchIter_eq_none_iff s).mpr hnc) fuel]
    rfl

/-- Instance of C20: an order with side `Unknown` submitted to the book
holding Buy 10@100 and Sell 5@101. -/
theorem unknown_side_dropped_witness :
    (∀ (t : State) (o : Nat), (t.heap o).side = Unknown →
      insertOrder insertionSort t o = t ∧
      AddOrder insertionSort 3 t o = MatchOrder 3 t) ∧
    submitOrder insertionSort 3 exampleBook GoodTillCancel 9 Unknown 100 5 =
      (MatchOrder 3 exampleBook).map (fun s1 =>
        withOrder s1 exampleBook.next (NewOrder GoodTillCancel 9 Unknown 100 5)
          (exampleBook.next + 1)) ∧
    (∀ s1, submitOrder insertionSort 3 exampleBook GoodTillCancel 9 Unknown 100 5 = some s1 →
      s1.heap exampleBook.next = NewOrder GoodTillCancel 9 Unknown 100 5 ∧
      (∀ x ∈ s1.ob.bids, x ∈ exampleBook.ob.bids) ∧
      (∀ x ∈ s1.ob.asks, x ∈ exampleBook.ob.asks)) ∧
    (NoCross exampleBook →
      submitOrder insertionSort (3 + 1) exampleBook GoodTillCancel 9 Unknown 100 5 =
        some (withOrder exampleBook exampleBook.next (NewOrder GoodTillCancel 9 Unknown 100 5)
          (exampleBook.next + 1))) :=
  unknown_side_dropped insertionSort 3 exampleBook GoodTillCancel 9 Unknown 100 5
    (by decide) (by decide) (by decide)

/-! ## No filled order rests -/

theorem posInv_initState : PosInv initState := by
  refine ⟨inv_initState, ⟨?_, ?_⟩, ?_⟩
  · simp [initState, emptyBookState, NewOrderBook]
  · simp [initState, emptyBookState, NewOrderBook]
  · intro p hp
    simp [initState, emptyBookState, NewOrderBook] at hp

theorem posInv_insert {pdq : (Nat → Nat → Bool) → List Nat → List Nat}
    (hpdq : SortContract pdq) {s : State} (hs : PosInv s) (orderType : Int) (orderId : Nat)
    (side price : Int) (quantity : Nat) (hq0 : 0 < quantity) (hq : quantity < 4294967296) :
    PosInv (insertOrder pdq
      (allocOrder s (NewOrder orderType orderId side price quantity)) s.next) := by
  obtain ⟨hinv, ⟨hnb, hna⟩, hpos⟩ := hs
  have hinv0 : Inv (allocOrder s (NewOrder orderType orderId side price quantity)) :=
    inv_allocOrder hinv _ (by simp [NewOrder]) (by simpa [NewOrder] using hq)
  have hbnext : s.next ∉ s.ob.bids := fun h => Nat.lt_irrefl _ (hinv.2.1.1 _ h).2
  have hanext : s.next ∉ s.ob.asks := fun h => Nat.lt_irrefl _ (hinv.2.1.2 _ h).2
  refine ⟨inv_insertOrder hpdq hinv0 _ (by simp [allocOrder]), ⟨?_, ?_⟩, ?_⟩
  · rw [insertOrder_bids]
    split
    · rw [(sortSlice_bids hpdq _ _).1.nodup_iff]
      exact List.Nodup.append hnb (List.nodup_singleton _) (by simpa using hbnext)
    · exact hnb
  · rw [insertOrder_asks]
    split
    · rw [(sortSlice_asks hpdq _ _).1.nodup_iff]
      exact List.Nodup.append hna (List.nodup_singleton _) (by simpa using hanext)
    · exact hna
  · intro p hp
    rw [insertOrder_heap]
    have hcases : (p ∈ s.ob.bids ∨ p ∈ s.ob.asks) ∨ p = s.next := by
      rcases hp with hp | hp
      · rcases (insertOrder_mem_bids hpdq _ _ p).mp hp with h | h
        · exact Or.inl (Or.inl h)
        · exact Or.inr h.1
      · rcases (insertOrder_mem_asks hpdq _ _ p).mp hp with h | h
        · exact Or.inl (Or.inr h)
        · exact Or.inr h.1
    rcases hcases with h | h
    · have hne : p ≠ s.next := by
        rcases h with h | h
        · rintro rfl; exact hbnext h
        · rintro rfl; exact hanext h
      simpa [allocOrder, hne] using hpos p h
    · subst h
      simpa [allocOrder, NewOrder] using hq0

theorem posInv_matchIter {s s1 : State} (hs : PosInv s) (h : matchIter s = some s1) :
    PosInv s1 := by
  obtain ⟨hinv, ⟨hnb, hna⟩, hpos⟩ := hs
  have hd := sidesDisjoint_of_sidesOK hinv.2.1
  obtain ⟨b, bs, a, as, hb, ha, hne, -, hrem, hb1, ha1⟩ := matchIter_disjoint h hd
  rw [hb] at hnb
  rw [ha] at hna
  have hbbs : b ∉ bs := (List.nodup_cons.mp hnb).1
  have haas : a ∉ as := (List.nodup_cons.mp hna).1
  have habs : a ∉ bs := fun hx => hd a (by rw [hb]; simp [hx]) (by rw [ha]; simp)
  have hbas : b ∉ as := fun hx => hd b (by rw [hb]; simp) (by rw [ha]; simp [hx])
  refine ⟨inv_matchIter hinv h, ⟨?_, ?_⟩, ?_⟩
  · rw [hb1]; split
    · exact (List.nodup_cons.mp hnb).2
    · exact hnb
  · rw [ha1]; split
    · exact (List.nodup_cons.mp hna).2
    · exact hna
  · intro p hp
    have hrest : ∀ x, x ≠ a → x ≠ b → (x ∈ s.ob.bids ∨ x ∈ s.ob.asks) →
        0 < (s1.heap x).remainingQuantity := by
      intro x hxa hxb hx
      rw [hrem x, if_neg hxa, if_neg hxb]
      exact hpos x hx
    rcases hp with hp | hp
    · rw [hb1] at hp
      by_cases h0 : (s1.heap b).remainingQuantity = 0
      · rw [if_pos h0] at hp
        exact hrest p (by rintro rfl; exact habs hp) (by rintro rfl; exact hbbs hp)
          (Or.inl (by rw [hb]; simp [hp]))
      · rw [if_neg h0] at hp
        rcases List.mem_cons.mp hp with rfl | hp2
        · omega
        · exact hrest p (by rintro rfl; exact habs hp2) (by rintro rfl; exact hbbs hp2)
            (Or.inl (by rw [hb]; simp [hp2]))
    · rw [ha1] at hp
      by_cases h0 : (s1.heap a).remainingQuantity = 0
      · rw [if_pos h0] at hp
        exact hrest p (by rintro rfl; exact haas hp) (by rintro rfl; exact hbas hp)
          (Or.inr (by rw [ha]; simp [hp]))
      · rw [if_neg h0] at hp
        rcases List.mem_cons.mp hp with rfl | hp2
        · omega
        · exact hrest p (by rintro rfl; exact haas hp2) (by rintro rfl; exact hbas hp2)
            (Or.inr (by rw [ha]; simp [hp2]))

theorem posInv_of_reachablePos {pdq : (Nat → Nat → Bool) → List Nat → List Nat}
    (hpdq : SortContract pdq) {s : State} (hr : ReachablePos pdq s) : PosInv s := by
  induction hr with
  | init => exact posInv_initState
  | submit fuel orderType orderId side price quantity _ hq0 hq hsub ih =>
    unfold submitOrder AddOrder at hsub
    exact (MatchOrder_induct PosInv (fun _ _ hP hm => posInv_matchIter hP hm) fuel _ _ hsub
      (posInv_insert hpdq ih orderType orderId side price quantity hq0 hq)).1

theorem reachable_of_reachablePos {pdq : (Nat → Nat → Bool) → List Nat → List Nat}
    {s : State} (hr : ReachablePos pdq s) : Reachable pdq s := by
  induction hr with
  | init => exact Reachable.init
  | submit fuel orderType orderId side price quantity _ _ hq hsub ih =>
    exact Reachable.submit fuel orderType orderId side price quantity ih hq hsub

/-- Claim C11 as stated fails. Starting from `NewOrderBook()`, `AddOrder(o)` for a
new order `o` = Buy 5@100, then `AddOrder(o)` again, then `AddOrder` of a new
Sell 5@100: every call returns and every submitted order has quantity 5, `bids`
holds `o` twice after the second call, and after the third call `bids` still
holds `o`, whose `remainingQuantity` is 0. -/
theorem filled_order_rests_after_second_submission :
    submitOrder insertionSort 2 initState GoodTillCancel 1 Buy 100 5 = some onceBook ∧
    (onceBook.heap 0).initialQuantity = 5 ∧ (onceBook.heap 0).remainingQuantity = 5 ∧
    AddOrder insertionSort 2 onceBook 0 = some twiceBook ∧
    twiceBook.ob.bids = [0, 0] ∧ twiceBook.ob.asks = [] ∧
    submitOrder insertionSort 3 twiceBook GoodTillCancel 2 Sell 100 5 = some twiceFilled ∧
    twiceFilled.ob.bids = [0] ∧ twiceFilled.ob.asks = [] ∧
    (twiceFilled.heap 0).remainingQuantity = 0 ∧
    ¬ (∀ p ∈ twiceFilled.ob.bids, 0 < (twiceFilled.heap p).remainingQuantity) :=
  ⟨rfl, by decide, by decide, rfl, by decide, by decide, rfl, by decide, by decide, by decide,
    by decide⟩

/-- Claim C11, amended: in every state reached from `NewOrderBook()` by `AddOrder`
calls each of which submits a newly created order (no order is submitted twice)
of quantity above zero, each call having returned, every order in `bids` and in
`asks` has `remainingQuantity > 0`: an order whose remaining quantity reaches 0
has been removed. No order is held twice. -/
theorem no_filled_order_rests (pdq : (Nat → Nat → Bool) → List Nat → List Nat)
    (hpdq : SortContract pdq) (s : State) (hr : ReachablePos pdq s) :
    (∀ p ∈ s.ob.bids, 0 < (s.heap p).remainingQuantity) ∧
    (∀ p ∈ s.ob.asks, 0 < (s.heap p).remainingQuantity) ∧
    s.ob.bids.Nodup ∧ s.ob.asks.Nodup ∧ Reachable pdq s := by
  have h := posInv_of_reachablePos hpdq hr
  exact ⟨fun p hp => h.2.2 p (Or.inl hp), fun p hp => h.2.2 p (Or.inr hp), h.2.1.1, h.2.1.2,
    reachable_of_reachablePos hr⟩

/-- Instance of the amended C11: the book after `AddOrder(Buy 10@100)` and
`AddOrder(Sell 4@99)`. The Sell order was filled and is no longer in the book;
the Buy order rests with 6 remaining. -/
theorem no_filled_order_rests_witness :
    ((∀ p ∈ exampleFilled.ob.bids, 0 < (exampleFilled.heap p).remainingQuantity) ∧
    (∀ p ∈ exampleFilled.ob.asks, 0 < (exampleFilled.heap p).remainingQuantity) ∧
    exampleFilled.ob.bids.Nodup ∧ exampleFilled.ob.asks.Nodup ∧
    Reachable insertionSort exampleFilled) ∧
    exampleFilled.ob.bids = [0] ∧ exampleFilled.ob.asks = [] ∧
    (exampleFilled.heap 0).remainingQuantity = 6 ∧
    (exampleFilled.heap 1).remainingQuantity = 0 :=
  ⟨no_filled_order_rests insertionSort insertionSort_contract exampleFilled
    (ReachablePos.submit 3 GoodTillCancel 2 Sell 99 4
      (ReachablePos.submit 3 GoodTillCancel 1 Buy 100 10 ReachablePos.init (by decide)
        (by decide)
        (rfl : submitOrder insertionSort 3 initState GoodTillCancel 1 Buy 100 10 =
          some exampleMid))
      (by decide) (by decide)
      (rfl : submitOrder insertionSort 3 exampleMid GoodTillCancel 2 Sell 99 4 =
        some exampleFilled)),
    by decide, by decide, by decide, by decide⟩

/-! ## The order id is never read -/

@[simp] theorem reid_price (h : Heap) (p : Nat) (i : Nat) (x : Nat) :
    (reid h p i x).price = (h x).price := by
  unfold reid; split
  · next hx => subst hx; rfl
  · rfl

@[simp] theorem reid_side (h : Heap) (p : Nat) (i : Nat) (x : Nat) :
    (reid h p i x).side = (h x).side := by
  unfold reid; split
  · next hx => subst hx; rfl
  · rfl

@[simp] theorem reid_remainingQuantity (h : Heap) (p : Nat) (i : Nat) (x : Nat) :
    (reid h p i x).remainingQuantity = (h x).remainingQuantity := by
  unfold reid; split
  · next hx => subst hx; rfl
  · rfl

theorem reid_setRemaining (h : Heap) (p : Nat) (i : Nat) (q v : Nat) :
    setRemaining (reid h p i) q v = reid (setRemaining h q v) p i := by
  funext x
  by_cases hxq : x = q <;> by_cases hxp : x = p
  · subst hxq; subst hxp; simp [setRemaining, reid]
  · subst hxq; simp [setRemaining, reid, hxp]
  · subst hxp; simp [setRemaining, reid, hxq]
  · simp [setRemaining, reid, hxq, hxp]

theorem matchIter_setOrderId (s : State) (p : Nat) (i : Nat) :
    matchIter (setOrderId s p i) = (matchIter s).map (fun s1 => setOrderId s1 p i) := by
  obtain ⟨hp, nx, bids, asks⟩ := s
  cases bids with
  | nil => simp [matchIter, setOrderId]
  | cons b bs =>
    cases asks with
    | nil => simp [matchIter, setOrderId]
    | cons a as =>
      by_cases hlt : (hp b).price < (hp a).price
      · simp [matchIter, setOrderId, hlt]
      · have hlt1 : ¬ (reid hp p i b).price < (reid hp p i a).price := by simpa using hlt
        rw [matchIter_cons_cons hp nx b bs a as hlt]
        unfold setOrderId
        simp only
        rw [matchIter_cons_cons (reid hp p i) nx b bs a as hlt1]
        simp only [reid_remainingQuantity, reid_setRemaining, Option.map_some']

theorem MatchOrder_setOrderId (p : Nat) (i : Nat) : ∀ (fuel : Nat) (s : State),
    MatchOrder fuel (setOrderId s p i) =
      (MatchOrder fuel s).map (fun s1 => setOrderId s1 p i) := by
  intro fuel
  induction fuel with
  | zero => intro s; rfl
  | succ n ih =>
    intro s
    unfold MatchOrder
    rw [matchIter_setOrderId]
    cases hm : matchIter s with
    | none => rfl
    | some s2 => exact ih s2

theorem insertOrder_setOrderId (pdq : (Nat → Nat → Bool) → List Nat → List Nat)
    (s : State) (p : Nat) (i : Nat) (o : Nat) :
    insertOrder pdq (setOrderId s p i) o = setOrderId (insertOrder pdq s o) p i := by
  unfold insertOrder setOrderId
  by_cases hb : (s.heap o).side = Buy <;> by_cases hs : (s.heap o).side = Sell <;>
    simp [hb, hs]

theorem allocOrder_setOrderId (s : State) (t : Int) (i j : Nat) (side price : Int)
    (quantity : Nat) :
    allocOrder s (NewOrder t i side price quantity) =
      setOrderId (allocOrder s (NewOrder t j side price quantity)) s.next i := by
  apply State.ext_fields
  · intro x
    by_cases hx : x = s.next <;> simp [allocOrder, setOrderId, reid, NewOrder, hx]
  · rfl
  · rfl

/-- Claim C13 as stated fails: on the book holding a Buy order with `orderId` 7,
`AddOrder` of a second Buy order with `orderId` 7 is not rejected: both rest in
`bids`. -/
theorem duplicate_id_accepted :
    ((submitOrder insertionSort 1 initState GoodTillCancel 7 Buy 100 5).bind
      (fun s => submitOrder insertionSort 1 s GoodTillCancel 7 Buy 100 5)).map
      (fun s => (s.ob, (s.heap 0).orderId, (s.heap 1).orderId)) =
      some ({ bids := [0, 1], asks := [] }, 7, 7) := by
  decide

/-- Claim C13, amended: `AddOrder` has no check for duplicate ids and never reads
`orderId`. For every book and every order, the call gives the same result
whatever the `orderId` (same `bids`, same `asks`, same quantities; only the
`orderId` field of the new order differs), so an order with the `orderId` of a
resting order is accepted and inserted like any other. In particular two Buy
orders with the same `orderId` and price submitted to an empty book both rest:
resting orders need not have distinct ids. -/
theorem duplicate_id_as_any_id (pdq : (Nat → Nat → Bool) → List Nat → List Nat)
    (fuel : Nat) (s : State) (orderType : Int) (i j : Nat) (side price : Int)
    (quantity : Nat) (h : Heap) (n : Nat) (quantity2 : Nat) :
    submitOrder pdq fuel s orderType i side price quantity =
      (submitOrder pdq fuel s orderType j side price quantity).map
        (fun s1 => setOrderId s1 s.next i) ∧
    (∃ s1 s2, submitOrder pdq (fuel + 1) (emptyBookState h n) orderType i Buy price quantity =
        some s1 ∧
      submitOrder pdq (fuel + 1) s1 orderType i Buy price quantity2 = some s2 ∧
      s1.ob.bids = [n] ∧ s2.ob.bids = [n, n + 1] ∧ s2.ob.asks = [] ∧
      (s2.heap n).orderId = i ∧ (s2.heap (n + 1)).orderId = i) := by
  refine ⟨?_, ?_⟩
  · unfold submitOrder AddOrder
    rw [allocOrder_setOrderId s orderType i j, insertOrder_setOrderId, MatchOrder_setOrderId]
  · have e1 : ¬ n = n + 1 := by omega
    have e2 : ¬ n + 1 = n := by omega
    simp [submitOrder, AddOrder, insertOrder, allocOrder, NewOrder, emptyBookState, NewOrderBook,
      sortSlice, insertionSort, insertLeft, MatchOrder, matchIter, e1, e2]

/-! ## Trades on a book without shared orders -/

theorem subQ_lt (a b : Nat) : subQ a b < 4294967296 := by
  unfold subQ; omega

theorem sumRemaining_congr {h1 h2 : Heap} {l : List Nat}
    (hl : ∀ p ∈ l, (h1 p).remainingQuantity = (h2 p).remainingQuantity) :
    sumRemaining h1 l = sumRemaining h2 l := by
  unfold sumRemaining
  induction l with
  | nil => rfl
  | cons x xs ih =>
    simp only [List.map_cons, List.sum_cons]
    rw [hl x (by simp), ih (fun p hp => hl p (by simp [hp]))]

theorem sumRemaining_cons (h : Heap) (x : Nat) (l : List Nat) :
    sumRemaining h (x :: l) = (h x).remainingQuantity + sumRemaining h l := by
  simp [sumRemaining]

/-- A trading iteration on a book without shared orders, in full: both heads
lose the trade quantity, nothing else changes, and the properties of the book
are kept. -/
theorem matchIter_noAlias {s s1 : State} (h : matchIter s = some s1) (hna : NoAlias s)
    (ht : RemTyped s) :
    ∃ b bs a as, s.ob.bids = b :: bs ∧ s.ob.asks = a :: as ∧ b ≠ a ∧
      b ∉ bs ∧ a ∉ as ∧ a ∉ bs ∧ b ∉ as ∧
      ¬ (s.heap b).price < (s.heap a).price ∧
      (s1.heap b).remainingQuantity = (s.heap b).remainingQuantity -
        min (s.heap b).remainingQuantity (s.heap a).remainingQuantity ∧
      (s1.heap a).remainingQuantity = (s.heap a).remainingQuantity -
        min (s.heap b).remainingQuantity (s.heap a).remainingQuantity ∧
      (∀ x, x ≠ b → x ≠ a → s1.heap x = s.heap x) ∧
      s1.ob.bids = (if (s1.heap b).remainingQuantity = 0 then bs else b :: bs) ∧
      s1.ob.asks = (if (s1.heap a).remainingQuantity = 0 then as else a :: as) ∧
      NoAlias s1 ∧ RemTyped s1 := by
  obtain ⟨⟨hnb, hnas⟩, hd⟩ := hna
  obtain ⟨b, bs, a, as, hb, ha, hne, hp, hrem, hb1, ha1⟩ := matchIter_disjoint h hd
  rw [hb] at hnb
  rw [ha] at hnas
  have hbbs : b ∉ bs := (List.nodup_cons.mp hnb).1
  have haas : a ∉ as := (List.nodup_cons.mp hnas).1
  have habs : a ∉ bs := fun hx => hd a (by rw [hb]; simp [hx]) (by rw [ha]; simp)
  have hbas : b ∉ as := fun hx => hd b (by rw [hb]; simp) (by rw [ha]; simp [hx])
  have hrb := hrem b
  have hra := hrem a
  rw [if_neg hne, if_pos rfl, subQ_of_le (Nat.min_le_left _ _) (ht b)] at hrb
  rw [if_pos rfl, subQ_of_le (Nat.min_le_right _ _) (ht a)] at hra
  refine ⟨b, bs, a, as, hb, ha, hne, hbbs, haas, habs, hbas, hp, hrb, hra, ?_, hb1, ha1,
    ⟨⟨?_, ?_⟩, matchIter_sidesDisjoint h hd⟩, ?_⟩
  · intro x hxb hxa
    obtain ⟨b2, bs2, a2, as2, hb2, ha2, -, hh, -, -, -⟩ := matchIter_eq_some h
    rw [hb] at hb2
    rw [ha] at ha2
    have eb : b2 = b := (List.cons.inj hb2).1.symm
    have ea : a2 = a := (List.cons.inj ha2).1.symm
    subst eb ea
    rw [hh, setRemaining_other _ _ _ _ hxa, setRemaining_other _ _ _ _ hxb]
  · rw [hb1]; split
    · exact (List.nodup_cons.mp hnb).2
    · exact hnb
  · rw [ha1]; split
    · exact (List.nodup_cons.mp hnas).2
    · exact hnas
  · intro x
    rw [hrem x]
    split
    · exact subQ_lt _ _
    · split
      · exact subQ_lt _ _
      · exact ht x

/-- On a book without shared orders a trading iteration takes the same amount
from the sum of remaining quantities of either side. -/
theorem matchIter_sums {s s1 : State} (h : matchIter s = some s1) (hna : NoAlias s)
    (ht : RemTyped s) :
    sumRemaining s.heap s.ob.bids = sumRemaining s1.heap s1.ob.bids + tradeQuantity s ∧
    sumRemaining s.heap s.ob.asks = sumRemaining s1.heap s1.ob.asks + tradeQuantity s := by
  obtain ⟨b, bs, a, as, hb, ha, hne, hbbs, haas, habs, hbas, -, hrb, hra, hother, hb1, ha1,
    -, -⟩ := matchIter_noAlias h hna ht
  have htq : tradeQuantity s =
      min (s.heap b).remainingQuantity (s.heap a).remainingQuantity := by
    simp [tradeQuantity, hb, ha]
  have hbs : sumRemaining s1.heap bs = sumRemaining s.heap bs :=
    sumRemaining_congr (fun p hp => by
      rw [hother p (by rintro rfl; exact hbbs hp) (by rintro rfl; exact habs hp)])
  have has : sumRemaining s1.heap as = sumRemaining s.heap as :=
    sumRemaining_congr (fun p hp => by
      rw [hother p (by rintro rfl; exact hbas hp) (by rintro rfl; exact haas hp)])
  have hle1 := Nat.min_le_left (s.heap b).remainingQuantity (s.heap a).remainingQuantity
  have hle2 := Nat.min_le_right (s.heap b).remainingQuantity (s.heap a).remainingQuantity
  rw [hb, ha, hb1, ha1, htq, sumRemaining_cons, sumRemaining_cons]
  refine ⟨?_, ?_⟩
  · split
    · next h0 => rw [hbs]; omega
    · rw [sumRemaining_cons, hbs]; omega
  · split
    · next h0 => rw [has]; omega
    · rw [sumRemaining_cons, has]; omega

/-- Claim C14 as stated fails. On the book whose `bids` holds one order twice
(Buy 5@100) against a Sell 3@100, the whole run of `MatchOrder` takes 6 from the
sum of remaining quantities over `bids` (10 to 4) and 3 from that over `asks`
(3 to 0). And on the book whose two sides hold the same order, one iteration
does not reduce the head by the trade quantity 5: its remaining quantity goes
from 5 to `2^32 - 5`. -/
theorem trade_sums_differ_with_shared_order :
    sumRemaining duplicateBook.heap duplicateBook.ob.bids = 10 ∧
    sumRemaining duplicateBook.heap duplicateBook.ob.asks = 3 ∧
    (MatchOrder 2 duplicateBook).map
      (fun s1 => (sumRemaining s1.heap s1.ob.bids, sumRemaining s1.heap s1.ob.asks)) =
      some (4, 0) ∧
    (aliasedBook.heap 0).remainingQuantity = 5 ∧
    (matchIter aliasedBook).map (fun s1 => (s1.heap 0).remainingQuantity) =
      some 4294967291 := by
  decide

/-- Claim C14, amended: for every book in which no order is held twice (not
twice on a side, not on both sides), every trading iteration of `MatchOrder`
reduces the head bid and the head ask by exactly the minimum of their remaining
quantities, and over a whole run of `MatchOrder` (which returns) the sum of
`remainingQuantity` over `bids` and the sum over `asks` go down by the same
amount, as natural numbers. -/
theorem trade_moves_both_sides (s : State) (hna : NoAlias s) (ht : RemTyped s) :
    (∀ s1, matchIter s = some s1 →
      ∃ b a, s.ob.bids.head? = some b ∧ s.ob.asks.head? = some a ∧
        (s1.heap b).remainingQuantity = (s.heap b).remainingQuantity -
          min (s.heap b).remainingQuantity (s.heap a).remainingQuantity ∧
        (s1.heap a).remainingQuantity = (s.heap a).remainingQuantity -
          min (s.heap b).remainingQuantity (s.heap a).remainingQuantity ∧
        NoAlias s1 ∧ RemTyped s1) ∧
    (∃ s1, MatchOrder (s.ob.bids.length + s.ob.asks.length + 1) s = some s1) ∧
    (∀ fuel s1, MatchOrder fuel s = some s1 →
      sumRemaining s1.heap s1.ob.bids ≤ sumRemaining s.heap s.ob.bids ∧
      sumRemaining s1.heap s1.ob.asks ≤ sumRemaining s.heap s.ob.asks ∧
      sumRemaining s.heap s.ob.bids - sumRemaining s1.heap s1.ob.bids =
        sumRemaining s.heap s.ob.asks - sumRemaining s1.heap s1.ob.asks) := by
  refine ⟨?_, (MatchOrder_terminates _ s hna.2 (Nat.lt_succ_self _)).1, ?_⟩
  · intro s1 h
    obtain ⟨b, bs, a, as, hb, ha, -, -, -, -, -, -, hrb, hra, -, -, -, hna1, ht1⟩ :=
      matchIter_noAlias h hna ht
    exact ⟨b, a, by rw [hb]; rfl, by rw [ha]; rfl, hrb, hra, hna1, ht1⟩
  · intro fuel s1 h
    have key := MatchOrder_induct
      (fun t => (NoAlias t ∧ RemTyped t) ∧
        ∃ T, sumRemaining s.heap s.ob.bids = sumRemaining t.heap t.ob.bids + T ∧
          sumRemaining s.heap s.ob.asks = sumRemaining t.heap t.ob.asks + T)
      (fun t t1 hP hm => by
        obtain ⟨⟨hnt, htt⟩, T, hB, hA⟩ := hP
        obtain ⟨_, _, _, _, -, -, -, -, -, -, -, -, -, -, -, -, -, hna1, ht1⟩ :=
          matchIter_noAlias hm hnt htt
        have hs := matchIter_sums hm hnt htt
        exact ⟨⟨hna1, ht1⟩, T + tradeQuantity t, by omega, by omega⟩)
      fuel s s1 h ⟨⟨hna, ht⟩, 0, rfl, rfl⟩
    obtain ⟨T, hB, hA⟩ := key.1.2
    omega

/-- Instance of the amended C14: the crossed book Buy 10@100, Sell 4@99. -/
theorem trade_moves_both_sides_witness :
    (∀ s1, matchIter exampleCrossed = some s1 →
      ∃ b a, exampleCrossed.ob.bids.head? = some b ∧ exampleCrossed.ob.asks.head? = some a ∧
        (s1.heap b).remainingQuantity = (exampleCrossed.heap b).remainingQuantity -
          min (exampleCrossed.heap b).remainingQuantity
            (exampleCrossed.heap a).remainingQuantity ∧
        (s1.heap a).remainingQuantity = (exampleCrossed.heap a).remainingQuantity -
          min (exampleCrossed.heap b).remainingQuantity
            (exampleCrossed.heap a).remainingQuantity ∧
        NoAlias s1 ∧ RemTyped s1) ∧
    (∃ s1, MatchOrder (exampleCrossed.ob.bids.length + exampleCrossed.ob.asks.length + 1)
      exampleCrossed = some s1) ∧
    (∀ fuel s1, MatchOrder fuel exampleCrossed = some s1 →
      sumRemaining s1.heap s1.ob.bids ≤
        sumRemaining exampleCrossed.heap exampleCrossed.ob.bids ∧
      sumRemaining s1.heap s1.ob.asks ≤
        sumRemaining exampleCrossed.heap exampleCrossed.ob.asks ∧
      sumRemaining exampleCrossed.heap exampleCrossed.ob.bids -
          sumRemaining s1.heap s1.ob.bids =
        sumRemaining exampleCrossed.heap exampleCrossed.ob.asks -
          sumRemaining s1.heap s1.ob.asks) :=
  trade_moves_both_sides exampleCrossed (by decide) (by
    intro p
    by_cases h1 : p = 1
    · subst h1; decide
    · by_cases h0 : p = 0
      · subst h0; decide
      · simp [exampleCrossed, exampleMid, insertOrder, allocOrder, submitOrder, AddOrder,
          MatchOrder, matchIter, NewOrder, initState, emptyBookState, NewOrderBook, sortSlice,
          insertionSort, insertLeft, zeroOrder, h1, h0])

/-! ## Matching consumes each side from the front -/

theorem consumed_refl (s : State) : Consumed s s :=
  ⟨⟨[], rfl, fun _ hp => by cases hp⟩, ⟨[], rfl, fun _ hp => by cases hp⟩,
    fun _ _ => rfl, fun _ _ => rfl, fun _ => ⟨rfl, rfl, rfl, rfl, rfl, le_refl _⟩⟩

/-- One more trading iteration extends the relation `Consumed`. -/
theorem consumed_step {s t t1 : State} (hc : Consumed s t) (hna : NoAlias t)
    (ht : RemTyped t) (h : matchIter t = some t1) : Consumed s t1 := by
  obtain ⟨⟨db, hdb, hdb0⟩, ⟨da, hda, hda0⟩, htb, hta, hf⟩ := hc
  obtain ⟨b, bs, a, as, hb, ha, hne, hbbs, haas, habs, hbas, -, hrb, hra, hother, hb1, ha1,
    -, -⟩ := matchIter_noAlias h hna ht
  have hfields := matchIter_fields h
  have hmono : ∀ p, (t1.heap p).remainingQuantity ≤ (t.heap p).remainingQuantity := by
    intro p
    by_cases hpb : p = b
    · subst hpb; rw [hrb]; omega
    · by_cases hpa : p = a
      · subst hpa; rw [hra]; omega
      · rw [hother p hpb hpa]
  have hzero : ∀ p, (t.heap p).remainingQuantity = 0 → (t1.heap p).remainingQuantity = 0 :=
    fun p hp => by have := hmono p; omega
  rw [hb] at hdb htb
  rw [ha] at hda hta
  simp only [List.tail_cons] at htb hta
  refine ⟨?_, ?_, ?_, ?_, ?_⟩
  · rw [hb1]
    split
    · next h0 =>
      refine ⟨db ++ [b], by rw [hdb]; simp, ?_⟩
      intro p hp
      rcases List.mem_append.mp hp with hp | hp
      · exact hzero p (hdb0 p hp)
      · rw [List.mem_singleton.mp hp]; exact h0
    · exact ⟨db, hdb, fun p hp => hzero p (hdb0 p hp)⟩
  · rw [ha1]
    split
    · next h0 =>
      refine ⟨da ++ [a], by rw [hda]; simp, ?_⟩
      intro p hp
      rcases List.mem_append.mp hp with hp | hp
      · exact hzero p (hda0 p hp)
      · rw [List.mem_singleton.mp hp]; exact h0
    · exact ⟨da, hda, fun p hp => hzero p (hda0 p hp)⟩
  · intro p hp
    have hpbs : p ∈ bs := by
      rw [hb1] at hp
      split at hp
      · exact List.mem_of_mem_tail hp
      · simpa using hp
    rw [hother p (by rintro rfl; exact hbbs hpbs) (by rintro rfl; exact habs hpbs)]
    exact htb p hpbs
  · intro p hp
    have hpas : p ∈ as := by
      rw [ha1] at hp
      split at hp
      · exact List.mem_of_mem_tail hp
      · simpa using hp
    rw [hother p (by rintro rfl; exact hbas hpas) (by rintro rfl; exact haas hpas)]
    exact hta p hpas
  · intro p
    obtain ⟨h1, h2, h3, h4, h5⟩ := hfields p
    obtain ⟨g1, g2, g3, g4, g5, g6⟩ := hf p
    exact ⟨h1.trans g1, h2.trans g2, h3.trans g3, h4.trans g4, h5.trans g5,
      le_trans (hmono p) g6⟩

theorem consumed_of_MatchOrder {fuel : Nat} {s s1 : State} (hna : NoAlias s) (ht : RemTyped s)
    (h : MatchOrder fuel s = some s1) : Consumed s s1 := by
  have key := MatchOrder_induct
    (fun t => (NoAlias t ∧ RemTyped t) ∧ Consumed s t)
    (fun t t1 hP hm => by
      obtain ⟨⟨hnt, htt⟩, hc⟩ := hP
      obtain ⟨_, _, _, _, -, -, -, -, -, -, -, -, -, -, -, -, -, hna1, ht1⟩ :=
        matchIter_noAlias hm hnt htt
      exact ⟨⟨hna1, ht1⟩, consumed_step hc hnt htt hm⟩)
    fuel s s1 h ⟨⟨hna, ht⟩, consumed_refl s⟩
  exact key.1.2

/-- Claim C15 as stated fails: on the book whose `bids` holds one order twice
(Buy 5@100) against a Sell 3@100, `MatchOrder` leaves `bids` as it was, and its
second entry, which is not the first order of the list, is no longer what it
was: its remaining quantity is 2, not 5. -/
theorem second_entry_changed_with_shared_order :
    duplicateBook.ob.bids = [0, 0] ∧
    (duplicateBook.heap 0).remainingQuantity = 5 ∧
    (MatchOrder 2 duplicateBook).map
      (fun s1 => (s1.ob.bids, s1.ob.bids.tail.map (fun p => (s1.heap p).remainingQuantity))) =
      some ([0, 0], [2]) := by
  decide

/-- Claim C15, amended: for every book in which no order is held twice (not
twice on a side, not on both sides), `MatchOrder` returns, and the resulting
`bids` is a suffix of the original `bids`: the orders before it were dropped and
have `remainingQuantity` 0, every order behind its first is identical to the
original, and its first differs from the original at most in
`remainingQuantity`, which is not larger than before; the same holds for `asks`.
No `orderId`, `side`, `price`, `orderType` or `initialQuantity` is changed, and
an order behind a resting order is untouched. -/
theorem matching_consumes_front (s : State) (hna : NoAlias s) (ht : RemTyped s) :
    (∃ s1, MatchOrder (s.ob.bids.length + s.ob.asks.length + 1) s = some s1) ∧
    (∀ fuel s1, MatchOrder fuel s = some s1 →
      (∃ dropped, s.ob.bids = dropped ++ s1.ob.bids ∧
        ∀ p ∈ dropped, (s1.heap p).remainingQuantity = 0) ∧
      (∃ dropped, s.ob.asks = dropped ++ s1.ob.asks ∧
        ∀ p ∈ dropped, (s1.heap p).remainingQuantity = 0) ∧
      (∀ p ∈ s1.ob.bids.tail, s1.heap p = s.heap p) ∧
      (∀ p ∈ s1.ob.asks.tail, s1.heap p = s.heap p) ∧
      (∀ p, (s1.heap p).orderType = (s.heap p).orderType ∧
        (s1.heap p).orderId = (s.heap p).orderId ∧
        (s1.heap p).side = (s.heap p).side ∧
        (s1.heap p).price = (s.heap p).price ∧
        (s1.heap p).initialQuantity = (s.heap p).initialQuantity ∧
        (s1.heap p).remainingQuantity ≤ (s.heap p).remainingQuantity)) :=
  ⟨(MatchOrder_terminates _ s hna.2 (Nat.lt_succ_self _)).1,
    fun _ _ h => consumed_of_MatchOrder hna ht h⟩

/-- Instance of the amended C15: the crossed book Buy 5@100, Sell 0@90. -/
theorem matching_consumes_front_witness :
    (∃ s1, MatchOrder (crossedBook.ob.bids.length + crossedBook.ob.asks.length + 1)
      crossedBook = some s1) ∧
    (∀ fuel s1, MatchOrder fuel crossedBook = some s1 →
      (∃ dropped, crossedBook.ob.bids = dropped ++ s1.ob.bids ∧
        ∀ p ∈ dropped, (s1.heap p).remainingQuantity = 0) ∧
      (∃ dropped, crossedBook.ob.asks = dropped ++ s1.ob.asks ∧
        ∀ p ∈ dropped, (s1.heap p).remainingQuantity = 0) ∧
      (∀ p ∈ s1.ob.bids.tail, s1.heap p = crossedBook.heap p) ∧
      (∀ p ∈ s1.ob.asks.tail, s1.heap p = crossedBook.heap p) ∧
      (∀ p, (s1.heap p).orderType = (crossedBook.heap p).orderType ∧
        (s1.heap p).orderId = (crossedBook.heap p).orderId ∧
        (s1.heap p).side = (crossedBook.heap p).side ∧
        (s1.heap p).price = (crossedBook.heap p).price ∧
        (s1.heap p).initialQuantity = (crossedBook.heap p).initialQuantity ∧
        (s1.heap p).remainingQuantity ≤ (crossedBook.heap p).remainingQuantity)) :=
  matching_consumes_front crossedBook (by decide) (by
    intro p
    by_cases h0 : p = 0 <;> simp [crossedBook, NewOrder, h0])

/-! ## Where insertion sort puts an appended element -/

/-- Insertion sort leaves a sorted slice as it is: the sorted part, read in
reverse, is the reversed slice. -/
theorem foldl_insertLeft_sorted (less : Nat → Nat → Bool) (l : List Nat)
    (hl : l.Pairwise (fun a b => less b a = false)) :
    l.foldl (fun acc x => insertLeft less x acc) [] = l.reverse := by
  induction l using List.reverseRecOn with
  | nil => rfl
  | append_singleton l y ih =>
    rw [List.pairwise_append] at hl
    obtain ⟨hl1, -, hl2⟩ := hl
    rw [List.foldl_append, ih hl1, List.reverse_append]
    simp only [List.foldl_cons, List.foldl_nil, List.reverse_cons, List.reverse_nil,
      List.nil_append, List.singleton_append]
    cases hr : l.reverse with
    | nil => rfl
    | cons z r =>
      have hz : z ∈ l := by
        have : z ∈ l.reverse := by rw [hr]; simp
        simpa using this
      have hzy : less y z = false := hl2 z hz y (by simp)
      simp [insertLeft, hzy]

/-- The inner loop of insertion sort splits the sorted part at the first
element that `x` is not `less` than. -/
theorem insertLeft_split (less : Nat → Nat → Bool) (x : Nat) (acc : List Nat) :
    ∃ t d, acc = t ++ d ∧ insertLeft less x acc = t ++ x :: d ∧
      (∀ y ∈ t, less x y = true) ∧ (∀ y, d.head? = some y → less x y = false) := by
  induction acc with
  | nil => exact ⟨[], [], rfl, rfl, (fun _ h => by cases h), (fun _ h => by cases h)⟩
  | cons z r ih =>
    by_cases hxz : less x z = true
    · obtain ⟨t, d, hr, hi, ht, hd⟩ := ih
      refine ⟨z :: t, d, by rw [hr]; rfl, by simp [insertLeft, hxz, hi], ?_, hd⟩
      intro y hy
      rcases List.mem_cons.mp hy with rfl | hy
      · exact hxz
      · exact ht y hy
    · refine ⟨[], z :: r, rfl, by simp [insertLeft, hxz], (fun _ h => by cases h), ?_⟩
      intro y hy
      simp only [List.head?_cons, Option.some.injEq] at hy
      subst hy
      simpa using hxz

/-- Insertion sort on a sorted slice with one element appended: the new element
goes after every element it is not `less` than and before every element it is
`less` than; the sorted slice keeps its order. -/
theorem insertionSort_append_sorted (less : Nat → Nat → Bool)
    (hneg : ∀ a b c, less a b = false → less b c = false → less a c = false)
    (l : List Nat) (x : Nat) (hl : l.Pairwise (fun a b => less b a = false)) :
    ∃ l1 l2, l = l1 ++ l2 ∧ insertionSort less (l ++ [x]) = l1 ++ x :: l2 ∧
      (∀ y ∈ l1, less x y = false) ∧ (∀ y ∈ l2, less x y = true) := by
  obtain ⟨t, d, hsplit, hins, ht, hd⟩ := insertLeft_split less x l.reverse
  have hl12 : l = d.reverse ++ t.reverse := by
    have := congrArg List.reverse hsplit
    simpa using this
  refine ⟨d.reverse, t.reverse, hl12, ?_, ?_, ?_⟩
  · unfold insertionSort
    rw [List.foldl_append, foldl_insertLeft_sorted less l hl]
    simp only [List.foldl_cons, List.foldl_nil]
    rw [hins]
    simp
  · intro y hy
    have hyd : y ∈ d := by simpa using hy
    cases d with
    | nil => cases hyd
    | cons z r =>
      have hxz : less x z = false := hd z rfl
      rcases List.mem_cons.mp hyd with rfl | hyr
      · exact hxz
      · -- `y` comes before `z` in `l`, so `z` is not `less` than `y`
        have hpw : (z :: r).reverse.Pairwise (fun a b => less b a = false) := by
          rw [hl12] at hl
          exact (List.pairwise_append.mp hl).1
        rw [List.reverse_cons, List.pairwise_append] at hpw
        have hzy : less z y = false := hpw.2.2 y (by simpa using hyr) z (by simp)
        exact hneg x z y hxz hzy
  · intro y hy
    exact ht y (by simpa using hy)

/-- A sorted arrangement of a slice with one appended element that is `less`
than every other element of it has that element first. -/
theorem head_of_sorted_perm (less : Nat → Nat → Bool) (l r : List Nat) (x : Nat)
    (hperm : r.Perm (l ++ [x])) (hsorted : r.Pairwise (fun a b => less b a = false))
    (hx : ∀ y ∈ l, less x y = true) (hxl : x ∉ l) :
    ∃ rest, r = x :: rest ∧ rest.Perm l := by
  cases r with
  | nil =>
    have := hperm.length_eq
    simp at this
  | cons z rest =>
    have hz : z ∈ l ++ [x] := hperm.subset (by simp)
    have hzx : z = x := by
      by_contra hne
      have hzl : z ∈ l := by
        rcases List.mem_append.mp hz with h | h
        · exact h
        · exact absurd (List.mem_singleton.mp h) hne
      have hxr : x ∈ z :: rest := hperm.symm.subset (by simp)
      have hxrest : x ∈ rest := by
        rcases List.mem_cons.mp hxr with h | h
        · exact absurd h.symm hne
        · exact h
      have h1 := (List.pairwise_cons.mp hsorted).1 x hxrest
      rw [hx z hzl] at h1
      cases h1
    subst hzx
    refine ⟨rest, rfl, ?_⟩
    have h2 : (z :: rest).Perm (z :: l) := hperm.trans (List.perm_append_singleton z l)
    exact h2.cons_inv

/-! ## Insertion into a book at rest -/

theorem reversingSort_contract : SortContract reversingSort := by
  intro less l hasym hneg
  obtain ⟨hp, hs⟩ := insertionSort_contract less l.reverse hasym hneg
  exact ⟨hp.trans (List.reverse_perm l), hs⟩

theorem allocOrder_heap_old (s : State) (o : Order) (x : Nat) (hx : x ≠ s.next) :
    (allocOrder s o).heap x = s.heap x := by
  simp [allocOrder, hx]

theorem allocOrder_heap_new (s : State) (o : Order) : (allocOrder s o).heap s.next = o := by
  simp [allocOrder]

/-- A Buy order that does not cross, submitted to a book at rest with fewer
than 12 bids, sorted: it is placed behind the bids priced at or above it, and
nothing else changes. -/
theorem insertion_position_buy (pdq : (Nat → Nat → Bool) → List Nat → List Nat) (fuel : Nat)
    (s : State) (orderType : Int) (orderId : Nat) (price : Int) (quantity : Nat)
    (hfresh : s.next ∉ s.ob.bids ∧ s.next ∉ s.ob.asks) (hrest : NoCross s)
    (hsorted : s.ob.bids.Pairwise (fun x y => (s.heap y).price ≤ (s.heap x).price))
    (hlen : s.ob.bids.length < 12)
    (hnc : ∀ a, s.ob.asks.head? = some a → price < (s.heap a).price) :
    ∃ s1 l1 l2, submitOrder pdq (fuel + 1) s orderType orderId Buy price quantity = some s1 ∧
      s.ob.bids = l1 ++ l2 ∧ s1.ob.bids = l1 ++ s.next :: l2 ∧
      (∀ y ∈ l1, price ≤ (s.heap y).price) ∧ (∀ y ∈ l2, (s.heap y).price < price) ∧
      s1.ob.asks = s.ob.asks ∧ s1.next = s.next + 1 ∧
      s1.heap s.next = NewOrder orderType orderId Buy price quantity ∧
      (∀ x, x ≠ s.next → s1.heap x = s.heap x) := by
  have hold := allocOrder_heap_old s (NewOrder orderType orderId Buy price quantity)
  have hnew := allocOrder_heap_new s (NewOrder orderType orderId Buy price quantity)
  have hside : ((allocOrder s (NewOrder orderType orderId Buy price quantity)).heap
      s.next).side = Buy := by rw [hnew]; rfl
  have hprice : ((allocOrder s (NewOrder orderType orderId Buy price quantity)).heap
      s.next).price = price := by rw [hnew]; rfl
  have hne : ∀ y ∈ s.ob.bids, y ≠ s.next := fun y hy e => hfresh.1 (e ▸ hy)
  -- the sorted side, seen through the comparison used by the sort
  have hl : s.ob.bids.Pairwise (fun a b =>
      decide (((allocOrder s (NewOrder orderType orderId Buy price quantity)).heap b).price >
        ((allocOrder s (NewOrder orderType orderId Buy price quantity)).heap a).price)
        = false) := by
    refine List.Pairwise.imp_of_mem ?_ hsorted
    intro a b ha hb hab
    rw [hold a (hne a ha), hold b (hne b hb)]
    simp only [decide_eq_false_iff_not]
    omega
  obtain ⟨l1, l2, hsplit, hsort, h1, h2⟩ := insertionSort_append_sorted
    (fun i j =>
      decide (((allocOrder s (NewOrder orderType orderId Buy price quantity)).heap i).price >
        ((allocOrder s (NewOrder orderType orderId Buy price quantity)).heap j).price))
    (by intro a b c; simp only [decide_eq_false_iff_not]; omega)
    s.ob.bids s.next hl
  have hbids : (insertOrder pdq (allocOrder s (NewOrder orderType orderId Buy price quantity))
      s.next).ob.bids = l1 ++ s.next :: l2 := by
    rw [insertOrder_bids, if_pos hside]
    unfold sortSlice
    rw [if_pos (by
      show (s.ob.bids ++ [s.next]).length ≤ 12
      simp only [List.length_append, List.length_singleton]; omega)]
    exact hsort
  have hasks : (insertOrder pdq (allocOrder s (NewOrder orderType orderId Buy price quantity))
      s.next).ob.asks = s.ob.asks := by
    rw [insertOrder_asks, if_neg (by rw [hside]; simp)]
    rfl
  have hl1 : ∀ y ∈ l1, price ≤ (s.heap y).price := by
    intro y hy
    have hyb : y ∈ s.ob.bids := by rw [hsplit]; simp [hy]
    have := h1 y hy
    rw [hprice, hold y (hne y hyb)] at this
    simp only [decide_eq_false_iff_not] at this
    omega
  have hl2 : ∀ y ∈ l2, (s.heap y).price < price := by
    intro y hy
    have hyb : y ∈ s.ob.bids := by rw [hsplit]; simp [hy]
    have := h2 y hy
    rw [hprice, hold y (hne y hyb)] at this
    simpa using this
  have hnone : matchIter (insertOrder pdq
      (allocOrder s (NewOrder orderType orderId Buy price quantity)) s.next) = none := by
    rw [matchIter_eq_none_iff]
    unfold NoCross
    rw [hbids, hasks, insertOrder_heap]
    cases has : s.ob.asks with
    | nil => exact Or.inr (Or.inl rfl)
    | cons a as =>
      right; right
      have hax : a ≠ s.next := fun e => hfresh.2 (by rw [has, ← e]; simp)
      cases l1 with
      | nil =>
        refine ⟨s.next, a, rfl, rfl, ?_⟩
        rw [hprice, hold a hax]
        exact hnc a (by rw [has]; rfl)
      | cons y l1 =>
        refine ⟨y, a, rfl, rfl, ?_⟩
        have hyb : y ∈ s.ob.bids := by rw [hsplit]; simp
        rw [hold y (hne y hyb), hold a hax]
        rcases hrest with h | h | ⟨b, a2, hb, ha2, hlt⟩
        · rw [hsplit] at h; simp at h
        · rw [has] at h; simp at h
        · rw [hsplit] at hb
          rw [has] at ha2
          simp only [List.cons_append, List.head?_cons, Option.some.injEq] at hb ha2
          subst hb ha2
          exact hlt
  refine ⟨_, l1, l2, ?_, hsplit, hbids, hl1, hl2, hasks, ?_, ?_, ?_⟩
  · unfold submitOrder AddOrder
    exact MatchOrder_of_noCross _ hnone fuel
  · rw [insertOrder_next]; rfl
  · rw [insertOrder_heap]; exact hnew
  · intro x hx
    rw [insertOrder_heap]; exact hold x hx

/-- A Sell order that does not cross, submitted to a book at rest with fewer
than 12 asks, sorted: it is placed behind the asks priced at or below it, and
nothing else changes. -/
theorem insertion_position_sell (pdq : (Nat → Nat → Bool) → List Nat → List Nat) (fuel : Nat)
    (s : State) (orderType : Int) (orderId : Nat) (price : Int) (quantity : Nat)
    (hfresh : s.next ∉ s.ob.bids ∧ s.next ∉ s.ob.asks) (hrest : NoCross s)
    (hsorted : s.ob.asks.Pairwise (fun x y => (s.heap x).price ≤ (s.heap y).price))
    (hlen : s.ob.asks.length < 12)
    (hnc : ∀ b, s.ob.bids.head? = some b → (s.heap b).price < price) :
    ∃ s1 l1 l2, submitOrder pdq (fuel + 1) s orderType orderId Sell price quantity = some s1 ∧
      s.ob.asks = l1 ++ l2 ∧ s1.ob.asks = l1 ++ s.next :: l2 ∧
      (∀ y ∈ l1, (s.heap y).price ≤ price) ∧ (∀ y ∈ l2, price < (s.heap y).price) ∧
      s1.ob.bids = s.ob.bids ∧ s1.next = s.next + 1 ∧
      s1.heap s.next = NewOrder orderType orderId Sell price quantity ∧
      (∀ x, x ≠ s.next → s1.heap x = s.heap x) := by
  have hold := allocOrder_heap_old s (NewOrder orderType orderId Sell price quantity)
  have hnew := allocOrder_heap_new s (NewOrder orderType orderId Sell price quantity)
  have hside : ((allocOrder s (NewOrder orderType orderId Sell price quantity)).heap
      s.next).side = Sell := by rw [hnew]; rfl
  have hprice : ((allocOrder s (NewOrder orderType orderId Sell price quantity)).heap
      s.next).price = price := by rw [hnew]; rfl
  have hne : ∀ y ∈ s.ob.asks, y ≠ s.next := fun y hy e => hfresh.2 (e ▸ hy)
  have hl : s.ob.asks.Pairwise (fun a b =>
      decide (((allocOrder s (NewOrder orderType orderId Sell price quantity)).heap b).price <
        ((allocOrder s (NewOrder orderType orderId Sell price quantity)).heap a).price)
        = false) := by
    refine List.Pairwise.imp_of_mem ?_ hsorted
    intro a b ha hb hab
    rw [hold a (hne a ha), hold b (hne b hb)]
    simp only [decide_eq_false_iff_not]
    omega
  obtain ⟨l1, l2, hsplit, hsort, h1, h2⟩ := insertionSort_append_sorted
    (fun i j =>
      decide (((allocOrder s (NewOrder orderType orderId Sell price quantity)).heap i).price <
        ((allocOrder s (NewOrder orderType orderId Sell price quantity)).heap j).price))
    (by intro a b c; simp only [decide_eq_false_iff_not]; omega)
    s.ob.asks s.next hl
  have hbids : (insertOrder pdq (allocOrder s (NewOrder orderType orderId Sell price quantity))
      s.next).ob.bids = s.ob.bids := by
    rw [insertOrder_bids, if_neg (by rw [hside]; simp)]
    rfl
  have hasks : (insertOrder pdq (allocOrder s (NewOrder orderType orderId Sell price quantity))
      s.next).ob.asks = l1 ++ s.next :: l2 := by
    rw [insertOrder_asks, if_pos hside]
    unfold sortSlice
    rw [if_pos (by
      show (s.ob.asks ++ [s.next]).length ≤ 12
      simp only [List.length_append, List.length_singleton]; omega)]
    exact hsort
  have hl1 : ∀ y ∈ l1, (s.heap y).price ≤ price := by
    intro y hy
    have hya : y ∈ s.ob.asks := by rw [hsplit]; simp [hy]
    have := h1 y hy
    rw [hprice, hold y (hne y hya)] at this
    simp only [decide_eq_false_iff_not] at this
    omega
  have hl2 : ∀ y ∈ l2, price < (s.heap y).price := by
    intro y hy
    have hya : y ∈ s.ob.asks := by rw [hsplit]; simp [hy]
    have := h2 y hy
    rw [hprice, hold y (hne y hya)] at this
    simpa using this
  have hnone : matchIter (insertOrder pdq
      (allocOrder s (NewOrder orderType orderId Sell price quantity)) s.next) = none := by
    rw [matchIter_eq_none_iff]
    unfold NoCross
    rw [hbids, hasks, insertOrder_heap]
    cases hbs : s.ob.bids with
    | nil => exact Or.inl rfl
    | cons b bs =>
      right; right
      have hbx : b ≠ s.next := fun e => hfresh.1 (by rw [hbs, ← e]; simp)
      cases l1 with
      | nil =>
        refine ⟨b, s.next, rfl, rfl, ?_⟩
        rw [hprice, hold b hbx]
        exact hnc b (by rw [hbs]; rfl)
      | cons y l1 =>
        refine ⟨b, y, rfl, rfl, ?_⟩
        have hya : y ∈ s.ob.asks := by rw [hsplit]; simp
        rw [hold y (hne y hya), hold b hbx]
        rcases hrest with h | h | ⟨b2, a2, hb2, ha2, hlt⟩
        · rw [hbs] at h; simp at h
        · rw [hsplit] at h; simp at h
        · rw [hbs] at hb2
          rw [hsplit] at ha2
          simp only [List.cons_append, List.head?_cons, Option.some.injEq] at hb2 ha2
          subst hb2 ha2
          exact hlt
  refine ⟨_, l1, l2, ?_, hsplit, hasks, hl1, hl2, hbids, ?_, ?_, ?_⟩
  · unfold submitOrder AddOrder
    exact MatchOrder_of_noCross _ hnone fuel
  · rw [insertOrder_next]; rfl
  · rw [insertOrder_heap]; exact hnew
  · intro x hx
    rw [insertOrder_heap]; exact hold x hx

/-- Claim C16 as stated fails. A Buy order that does not cross the asks, submitted
to the crossed book Buy 5@100, Sell 5@90 whose `bids` is sorted: the resting bid is
matched and removed, so `bids` is not the old list with the order inserted; it
holds the new order alone. And beyond 12 orders on a side the order among equal
prices rests on `sort.Slice`, whose contract allows a sort that on twelve
resting bids at 100 and a new Buy at 101 reverses the resting bids. -/
theorem insertion_into_crossed_book :
    crossedPair.ob.bids = [0] ∧ (crossedPair.heap 1).price = 90 ∧
    (submitOrder insertionSort 3 crossedPair GoodTillCancel 9 Buy 50 1).map (fun s => s.ob) =
      some { bids := [2], asks := [] } ∧
    SortContract reversingSort ∧
    (submitOrder reversingSort 2 twelveBids GoodTillCancel 12 Buy 101 5).map (fun s => s.ob) =
      some { bids := [12, 11, 10, 9, 8, 7, 6, 5, 4, 3, 2, 1, 0], asks := [] } :=
  ⟨rfl, rfl, by decide, reversingSort_contract, by decide⟩

/-- Claim C16, amended: for every book at rest (`bids` empty, or `asks` empty, or
`bids[0].price < asks[0].price`) whose `bids` are sorted by price descending and
hold fewer than 12 orders, and every newly created Buy order that does not cross
the asks, after `AddOrder` the `bids` list is the old `bids` list with the order
inserted after every resting bid whose price is at or above its price and before
every resting bid whose price is below it, the resting bids keeping their
relative order; `asks` and every resting order are unchanged. Symmetrically for
a Sell order and `asks` sorted ascending with fewer than 12 orders (after every
ask priced at or below it, before every ask priced above it). -/
theorem insertion_position (pdq : (Nat → Nat → Bool) → List Nat → List Nat) (fuel : Nat)
    (s : State) (orderType : Int) (orderId : Nat) (price : Int) (quantity : Nat)
    (hfresh : s.next ∉ s.ob.bids ∧ s.next ∉ s.ob.asks) (hrest : NoCross s) :
    (s.ob.bids.Pairwise (fun x y => (s.heap y).price ≤ (s.heap x).price) →
      s.ob.bids.length < 12 →
      (∀ a, s.ob.asks.head? = some a → price < (s.heap a).price) →
      ∃ s1 l1 l2, submitOrder pdq (fuel + 1) s orderType orderId Buy price quantity = some s1 ∧
        s.ob.bids = l1 ++ l2 ∧ s1.ob.bids = l1 ++ s.next :: l2 ∧
        (∀ y ∈ l1, price ≤ (s.heap y).price) ∧ (∀ y ∈ l2, (s.heap y).price < price) ∧
        s1.ob.asks = s.ob.asks ∧ s1.next = s.next + 1 ∧
        s1.heap s.next = NewOrder orderType orderId Buy price quantity ∧
        (∀ x, x ≠ s.next → s1.heap x = s.heap x)) ∧
    (s.ob.asks.Pairwise (fun x y => (s.heap x).price ≤ (s.heap y).price) →
      s.ob.asks.length < 12 →
      (∀ b, s.ob.bids.head? = some b → (s.heap b).price < price) →
      ∃ s1 l1 l2, submitOrder pdq (fuel + 1) s orderType orderId Sell price quantity = some s1 ∧
        s.ob.asks = l1 ++ l2 ∧ s1.ob.asks = l1 ++ s.next :: l2 ∧
        (∀ y ∈ l1, (s.heap y).price ≤ price) ∧ (∀ y ∈ l2, price < (s.heap y).price) ∧
        s1.ob.bids = s.ob.bids ∧ s1.next = s.next + 1 ∧
        s1.heap s.next = NewOrder orderType orderId Sell price quantity ∧
        (∀ x, x ≠ s.next → s1.heap x = s.heap x)) :=
  ⟨fun hsorted hlen hnc => insertion_position_buy pdq fuel s orderType orderId price quantity
      hfresh hrest hsorted hlen hnc,
    fun hsorted hlen hnc => insertion_position_sell pdq fuel s orderType orderId price quantity
      hfresh hrest hsorted hlen hnc⟩

/-- Instance of the amended C16: a Buy 3@100 submitted to the book holding
Buy 10@100 and Sell 5@101 goes behind the resting bid. -/
theorem insertion_position_witness :
    ∃ s1 l1 l2, submitOrder insertionSort (0 + 1) exampleBook GoodTillCancel 3 Buy 100 3 =
        some s1 ∧
      exampleBook.ob.bids = l1 ++ l2 ∧ s1.ob.bids = l1 ++ exampleBook.next :: l2 ∧
      (∀ y ∈ l1, 100 ≤ (exampleBook.heap y).price) ∧
      (∀ y ∈ l2, (exampleBook.heap y).price < 100) ∧
      s1.ob.asks = exampleBook.ob.asks ∧ s1.next = exampleBook.next + 1 ∧
      s1.heap exampleBook.next = NewOrder GoodTillCancel 3 Buy 100 3 ∧
      (∀ x, x ≠ exampleBook.next → s1.heap x = exampleBook.heap x) :=
  (insertion_position insertionSort 0 exampleBook GoodTillCancel 3 100 3 (by decide)
    (Or.inr (Or.inr ⟨0, 1, rfl, rfl, by decide⟩))).1 (by decide) (by decide)
    (by intro a ha; cases ha; decide)

/-! ## The incoming order and its own side -/

/-- The side of the book a Buy order is inserted into, when that side is sorted
and holds fewer than 12 orders: the old list with the order put in. -/
theorem insertOrder_bids_small (pdq : (Nat → Nat → Bool) → List Nat → List Nat)
    (s : State) (o : Order) (ho : o.side = Buy) (hfresh : s.next ∉ s.ob.bids)
    (hsorted : s.ob.bids.Pairwise (fun x y => (s.heap y).price ≤ (s.heap x).price))
    (hlen : s.ob.bids.length < 12) :
    ∃ l1 l2, s.ob.bids = l1 ++ l2 ∧
      (insertOrder pdq (allocOrder s o) s.next).ob.bids = l1 ++ s.next :: l2 := by
  have hold := allocOrder_heap_old s o
  have hside : ((allocOrder s o).heap s.next).side = Buy := by
    rw [allocOrder_heap_new]; exact ho
  have hne : ∀ y ∈ s.ob.bids, y ≠ s.next := fun y hy e => hfresh (e ▸ hy)
  have hl : s.ob.bids.Pairwise (fun a b =>
      decide (((allocOrder s o).heap b).price > ((allocOrder s o).heap a).price) = false) := by
    refine List.Pairwise.imp_of_mem ?_ hsorted
    intro a b ha hb hab
    rw [hold a (hne a ha), hold b (hne b hb)]
    simp only [decide_eq_false_iff_not]
    omega
  obtain ⟨l1, l2, hsplit, hsort, -, -⟩ := insertionSort_append_sorted
    (fun i j => decide (((allocOrder s o).heap i).price > ((allocOrder s o).heap j).price))
    (by intro a b c; simp only [decide_eq_false_iff_not]; omega)
    s.ob.bids s.next hl
  refine ⟨l1, l2, hsplit, ?_⟩
  rw [insertOrder_bids, if_pos hside]
  unfold sortSlice
  rw [if_pos (by
    show (s.ob.bids ++ [s.next]).length ≤ 12
    simp only [List.length_append, List.length_singleton]; omega)]
  exact hsort

theorem filter_ne_append_cons (n : Nat) (l1 l2 : List Nat) (h : n ∉ l1 ++ l2) :
    (l1 ++ n :: l2).filter (fun x => decide (x ≠ n)) = l1 ++ l2 := by
  have h1 : n ∉ l1 := fun hx => h (by simp [hx])
  have h2 : n ∉ l2 := fun hx => h (by simp [hx])
  rw [List.filter_append, List.filter_cons]
  simp only [ne_eq, not_true_eq_false, decide_False, Bool.false_eq_true, if_false]
  rw [List.filter_eq_self.mpr, List.filter_eq_self.mpr]
  · intro x hx; simpa using fun e : x = n => h2 (e ▸ hx)
  · intro x hx; simpa using fun e : x = n => h1 (e ▸ hx)

/-- A newly created Buy order submitted to a sorted book in which every bid is
priced below every ask: the call returns, the resting bids are all still there
and unchanged, and nothing but the new order and the asks is touched. -/
theorem own_side_untouched_buy (pdq : (Nat → Nat → Bool) → List Nat → List Nat)
    (hpdq : SortContract pdq) (s : State) (orderType : Int) (orderId : Nat) (price : Int)
    (quantity : Nat) (hfresh : s.next ∉ s.ob.bids ∧ s.next ∉ s.ob.asks)
    (hsorted : s.ob.bids.Pairwise (fun x y => (s.heap y).price ≤ (s.heap x).price))
    (hunc : ∀ b ∈ s.ob.bids, ∀ a ∈ s.ob.asks, (s.heap b).price < (s.heap a).price) :
    ∃ s1, submitOrder pdq (s.ob.bids.length + s.ob.asks.length + 2) s orderType orderId Buy
        price quantity = some s1 ∧
      (s1.ob.bids.filter (fun x => decide (x ≠ s.next))).Perm s.ob.bids ∧
      (s.ob.bids.length < 12 →
        s1.ob.bids.filter (fun x => decide (x ≠ s.next)) = s.ob.bids) ∧
      (∀ x ∈ s.ob.bids, s1.heap x = s.heap x) ∧
      (∀ x, x ≠ s.next → x ∉ s.ob.asks → s1.heap x = s.heap x) ∧
      (∀ x ∈ s1.ob.asks, x ∈ s.ob.asks) := by
  have hold := allocOrder_heap_old s (NewOrder orderType orderId Buy price quantity)
  have hnew := allocOrder_heap_new s (NewOrder orderType orderId Buy price quantity)
  have hside : ((allocOrder s (NewOrder orderType orderId Buy price quantity)).heap
      s.next).side = Buy := by rw [hnew]; rfl
  have hbids := insertOrder_bids pdq
    (allocOrder s (NewOrder orderType orderId Buy price quantity)) s.next
  rw [if_pos hside] at hbids
  have hperm : (insertOrder pdq (allocOrder s (NewOrder orderType orderId Buy price quantity))
      s.next).ob.bids.Perm (s.ob.bids ++ [s.next]) := by
    rw [hbids]; exact (sortSlice_bids hpdq _ _).1
  have hasks : (insertOrder pdq (allocOrder s (NewOrder orderType orderId Buy price quantity))
      s.next).ob.asks = s.ob.asks := by
    rw [insertOrder_asks, if_neg (by rw [hside]; simp)]
    rfl
  have hheap := insertOrder_heap pdq
    (allocOrder s (NewOrder orderType orderId Buy price quantity)) s.next
  have hdisj_old : ∀ x ∈ s.ob.bids, x ∉ s.ob.asks := fun x hb ha =>
    lt_irrefl _ (hunc x hb x ha)
  have hd : SidesDisjoint (insertOrder pdq
      (allocOrder s (NewOrder orderType orderId Buy price quantity)) s.next) := by
    intro p hp
    rw [hasks]
    have hp1 := hperm.subset hp
    rcases List.mem_append.mp hp1 with h | h
    · exact hdisj_old p h
    · rw [List.mem_singleton.mp h]; exact hfresh.2
  obtain ⟨s1, hs1⟩ := (MatchOrder_terminates (s.ob.bids.length + s.ob.asks.length + 2) _ hd
    (by rw [hasks, hperm.length_eq]
        simp only [List.length_append, List.length_singleton]; omega)).1
  -- what a run of the loop keeps
  have key := MatchOrder_induct
    (fun t =>
      (t.ob.bids = (insertOrder pdq
          (allocOrder s (NewOrder orderType orderId Buy price quantity)) s.next).ob.bids ∨
        s.next :: t.ob.bids = (insertOrder pdq
          (allocOrder s (NewOrder orderType orderId Buy price quantity)) s.next).ob.bids) ∧
      (∀ x ∈ t.ob.asks, x ∈ s.ob.asks) ∧
      (∀ x, x ≠ s.next → x ∉ s.ob.asks → t.heap x = s.heap x) ∧
      (∀ x, x ≠ s.next → (t.heap x).price = (s.heap x).price))
    (fun t t1 hP hm => by
      obtain ⟨hbt, hat, hht, hpt⟩ := hP
      obtain ⟨b, bs, a, as, hb, ha, hp, hh, -, hb1, -⟩ := matchIter_eq_some hm
      have haS : a ∈ s.ob.asks := hat a (by rw [ha]; simp)
      have han : a ≠ s.next := fun e => hfresh.2 (e ▸ haS)
      have hbn : b = s.next := by
        by_contra hne
        have hbS : b ∈ s.ob.bids := by
          rcases hbt with h | h
          · have : b ∈ s.ob.bids ++ [s.next] := hperm.subset (by rw [← h, hb]; simp)
            rcases List.mem_append.mp this with h2 | h2
            · exact h2
            · exact absurd (List.mem_singleton.mp h2) hne
          · have hp2 : (s.next :: t.ob.bids).Perm (s.next :: s.ob.bids) := by
              rw [h]; exact hperm.trans (List.perm_append_singleton _ _)
            exact hp2.cons_inv.subset (by rw [hb]; simp)
        have := hunc b hbS a haS
        rw [hpt b hne, hpt a han] at hp
        exact hp this
      have hfirst : t.ob.bids = (insertOrder pdq
          (allocOrder s (NewOrder orderType orderId Buy price quantity)) s.next).ob.bids := by
        rcases hbt with h | h
        · exact h
        · exfalso
          have hp2 : (s.next :: t.ob.bids).Perm (s.next :: s.ob.bids) := by
            rw [h]; exact hperm.trans (List.perm_append_singleton _ _)
          have : b ∈ s.ob.bids := hp2.cons_inv.subset (by rw [hb]; simp)
          exact hfresh.1 (hbn ▸ this)
      refine ⟨?_, fun x hx => hat x ((matchIter_mem hm).2 x hx), ?_, ?_⟩
      · rw [hb1]
        split
        · right; rw [← hfirst, hb, hbn]
        · left; rw [← hfirst, hb]
      · intro x hxn hxa
        have hxa2 : x ≠ a := fun e => hxa (e ▸ haS)
        rw [hh, setRemaining_other _ _ _ _ hxa2, setRemaining_other _ _ _ _ (hbn ▸ hxn)]
        exact hht x hxn hxa
      · intro x hxn
        rw [(matchIter_fields hm x).2.2.2.1]
        exact hpt x hxn)
    _ _ s1 hs1
    ⟨Or.inl rfl, fun x hx => by rw [hasks] at hx; exact hx,
      fun x hxn _ => by rw [hheap]; exact hold x hxn,
      fun x hxn => by rw [hheap, hold x hxn]⟩
  obtain ⟨⟨hb1, ha1, hh1, -⟩, -⟩ := key
  have hn_bids : s.next ∉ s.ob.bids ++ [] := by simpa using hfresh.1
  refine ⟨s1, hs1, ?_, ?_, ?_, hh1, ha1⟩
  · rcases hb1 with h | h
    · rw [h]
      refine (hperm.filter _).trans ?_
      have := filter_ne_append_cons s.next s.ob.bids [] hn_bids
      simp only [List.append_nil] at this
      rw [this]
    · have hp2 : (s.next :: s1.ob.bids).Perm (s.next :: s.ob.bids) := by
        rw [h]; exact hperm.trans (List.perm_append_singleton _ _)
      have hp3 := hp2.cons_inv
      rw [List.filter_eq_self.mpr]
      · exact hp3
      · intro x hx
        simpa using fun e : x = s.next => hfresh.1 (e ▸ hp3.subset hx)
  · intro hlen
    obtain ⟨l1, l2, hsplit, hins⟩ := insertOrder_bids_small pdq s
      (NewOrder orderType orderId Buy price quantity) rfl hfresh.1 hsorted hlen
    have hn12 : s.next ∉ l1 ++ l2 := by rw [← hsplit]; exact hfresh.1
    rcases hb1 with h | h
    · rw [h, hins, filter_ne_append_cons _ _ _ hn12, hsplit]
    · rw [hins] at h
      cases l1 with
      | nil =>
        simp only [List.nil_append, List.cons.injEq, true_and] at h
        rw [h, hsplit]
        simp only [List.nil_append]
        rw [List.filter_eq_self.mpr]
        intro x hx
        simpa using fun e : x = s.next => hn12 (by simp [← e, hx])
      | cons y l1 =>
        exfalso
        simp only [List.cons_append, List.cons.injEq] at h
        exact hn12 (by rw [← h.1]; simp)
  · intro x hx
    exact hh1 x (fun e => hfresh.1 (e ▸ hx)) (hdisj_old x hx)
/-- The side of the book a Sell order is inserted into, when that side is sorted
and holds fewer than 12 orders: the old list with the order put in. -/
theorem insertOrder_asks_small (pdq : (Nat → Nat → Bool) → List Nat → List Nat)
    (s : State) (o : Order) (ho : o.side = Sell) (hfresh : s.next ∉ s.ob.asks)
    (hsorted : s.ob.asks.Pairwise (fun x y => (s.heap x).price ≤ (s.heap y).price))
    (hlen : s.ob.asks.length < 12) :
    ∃ l1 l2, s.ob.asks = l1 ++ l2 ∧
      (insertOrder pdq (allocOrder s o) s.next).ob.asks = l1 ++ s.next :: l2 := by
  have hold := allocOrder_heap_old s o
  have hside : ((allocOrder s o).heap s.next).side = Sell := by
    rw [allocOrder_heap_new]; exact ho
  have hne : ∀ y ∈ s.ob.asks, y ≠ s.next := fun y hy e => hfresh (e ▸ hy)
  have hl : s.ob.asks.Pairwise (fun a b =>
      decide (((allocOrder s o).heap b).price < ((allocOrder s o).heap a).price) = false) := by
    refine List.Pairwise.imp_of_mem ?_ hsorted
    intro a b ha hb hab
    rw [hold a (hne a ha), hold b (hne b hb)]
    simp only [decide_eq_false_iff_not]
    omega
  obtain ⟨l1, l2, hsplit, hsort, -, -⟩ := insertionSort_append_sorted
    (fun i j => decide (((allocOrder s o).heap i).price < ((allocOrder s o).heap j).price))
    (by intro a b c; simp only [decide_eq_false_iff_not]; omega)
    s.ob.asks s.next hl
  refine ⟨l1, l2, hsplit, ?_⟩
  rw [insertOrder_asks, if_pos hside]
  unfold sortSlice
  rw [if_pos (by
    show (s.ob.asks ++ [s.next]).length ≤ 12
    simp only [List.length_append, List.length_singleton]; omega)]
  exact hsort


/-- A newly created Sell order submitted to a sorted book in which every bid is
priced below every ask: the call returns, the resting asks are all still there
and unchanged, and nothing but the new order and the bids is touched. -/
theorem own_side_untouched_sell (pdq : (Nat → Nat → Bool) → List Nat → List Nat)
    (hpdq : SortContract pdq) (s : State) (orderType : Int) (orderId : Nat) (price : Int)
    (quantity : Nat) (hfresh : s.next ∉ s.ob.bids ∧ s.next ∉ s.ob.asks)
    (hsorted : s.ob.asks.Pairwise (fun x y => (s.heap x).price ≤ (s.heap y).price))
    (hunc : ∀ b ∈ s.ob.bids, ∀ a ∈ s.ob.asks, (s.heap b).price < (s.heap a).price) :
    ∃ s1, submitOrder pdq (s.ob.bids.length + s.ob.asks.length + 2) s orderType orderId Sell
        price quantity = some s1 ∧
      (s1.ob.asks.filter (fun x => decide (x ≠ s.next))).Perm s.ob.asks ∧
      (s.ob.asks.length < 12 →
        s1.ob.asks.filter (fun x => decide (x ≠ s.next)) = s.ob.asks) ∧
      (∀ x ∈ s.ob.asks, s1.heap x = s.heap x) ∧
      (∀ x, x ≠ s.next → x ∉ s.ob.bids → s1.heap x = s.heap x) ∧
      (∀ x ∈ s1.ob.bids, x ∈ s.ob.bids) := by
  have hold := allocOrder_heap_old s (NewOrder orderType orderId Sell price quantity)
  have hnew := allocOrder_heap_new s (NewOrder orderType orderId Sell price quantity)
  have hside : ((allocOrder s (NewOrder orderType orderId Sell price quantity)).heap
      s.next).side = Sell := by rw [hnew]; rfl
  have hasks := insertOrder_asks pdq
    (allocOrder s (NewOrder orderType orderId Sell price quantity)) s.next
  rw [if_pos hside] at hasks
  have hperm : (insertOrder pdq (allocOrder s (NewOrder orderType orderId Sell price quantity))
      s.next).ob.asks.Perm (s.ob.asks ++ [s.next]) := by
    rw [hasks]; exact (sortSlice_asks hpdq _ _).1
  have hbids : (insertOrder pdq (allocOrder s (NewOrder orderType orderId Sell price quantity))
      s.next).ob.bids = s.ob.bids := by
    rw [insertOrder_bids, if_neg (by rw [hside]; simp)]
    rfl
  have hheap := insertOrder_heap pdq
    (allocOrder s (NewOrder orderType orderId Sell price quantity)) s.next
  have hdisj_old : ∀ x ∈ s.ob.asks, x ∉ s.ob.bids := fun x ha hb =>
    lt_irrefl _ (hunc x hb x ha)
  have hd : SidesDisjoint (insertOrder pdq
      (allocOrder s (NewOrder orderType orderId Sell price quantity)) s.next) := by
    intro p hp hp2
    rw [hbids] at hp
    have hp1 := hperm.subset hp2
    rcases List.mem_append.mp hp1 with h | h
    · exact hdisj_old p h hp
    · exact hfresh.1 (List.mem_singleton.mp h ▸ hp)
  obtain ⟨s1, hs1⟩ := (MatchOrder_terminates (s.ob.bids.length + s.ob.asks.length + 2) _ hd
    (by rw [hbids, hperm.length_eq]
        simp only [List.length_append, List.length_singleton]; omega)).1
  have key := MatchOrder_induct
    (fun t =>
      (t.ob.asks = (insertOrder pdq
          (allocOrder s (NewOrder orderType orderId Sell price quantity)) s.next).ob.asks ∨
        s.next :: t.ob.asks = (insertOrder pdq
          (allocOrder s (NewOrder orderType orderId Sell price quantity)) s.next).ob.asks) ∧
      (∀ x ∈ t.ob.bids, x ∈ s.ob.bids) ∧
      (∀ x, x ≠ s.next → x ∉ s.ob.bids → t.heap x = s.heap x) ∧
      (∀ x, x ≠ s.next → (t.heap x).price = (s.heap x).price))
    (fun t t1 hP hm => by
      obtain ⟨hat, hbt, hht, hpt⟩ := hP
      obtain ⟨b, bs, a, as, hb, ha, hp, hh, -, -, ha1⟩ := matchIter_eq_some hm
      have hbS : b ∈ s.ob.bids := hbt b (by rw [hb]; simp)
      have hbn : b ≠ s.next := fun e => hfresh.1 (e ▸ hbS)
      have han : a = s.next := by
        by_contra hne
        have haS : a ∈ s.ob.asks := by
          rcases hat with h | h
          · have : a ∈ s.ob.asks ++ [s.next] := hperm.subset (by rw [← h, ha]; simp)
            rcases List.mem_append.mp this with h2 | h2
            · exact h2
            · exact absurd (List.mem_singleton.mp h2) hne
          · have hp2 : (s.next :: t.ob.asks).Perm (s.next :: s.ob.asks) := by
              rw [h]; exact hperm.trans (List.perm_append_singleton _ _)
            exact hp2.cons_inv.subset (by rw [ha]; simp)
        have := hunc b hbS a haS
        rw [hpt b hbn, hpt a hne] at hp
        exact hp this
      have hfirst : t.ob.asks = (insertOrder pdq
          (allocOrder s (NewOrder orderType orderId Sell price quantity)) s.next).ob.asks := by
        rcases hat with h | h
        · exact h
        · exfalso
          have hp2 : (s.next :: t.ob.asks).Perm (s.next :: s.ob.asks) := by
            rw [h]; exact hperm.trans (List.perm_append_singleton _ _)
          have : a ∈ s.ob.asks := hp2.cons_inv.subset (by rw [ha]; simp)
          exact hfresh.2 (han ▸ this)
      refine ⟨?_, fun x hx => hbt x ((matchIter_mem hm).1 x hx), ?_, ?_⟩
      · rw [ha1]
        split
        · right; rw [← hfirst, ha, han]
        · left; rw [← hfirst, ha]
      · intro x hxn hxb
        have hxb2 : x ≠ b := fun e => hxb (e ▸ hbS)
        rw [hh, setRemaining_other _ _ _ _ (han ▸ hxn), setRemaining_other _ _ _ _ hxb2]
        exact hht x hxn hxb
      · intro x hxn
        rw [(matchIter_fields hm x).2.2.2.1]
        exact hpt x hxn)
    _ _ s1 hs1
    ⟨Or.inl rfl, fun x hx => by rw [hbids] at hx; exact hx,
      fun x hxn _ => by rw [hheap]; exact hold x hxn,
      fun x hxn => by rw [hheap, hold x hxn]⟩
  obtain ⟨⟨ha1, hb1, hh1, -⟩, -⟩ := key
  have hn_asks : s.next ∉ s.ob.asks ++ [] := by simpa using hfresh.2
  refine ⟨s1, hs1, ?_, ?_, ?_, hh1, hb1⟩
  · rcases ha1 with h | h
    · rw [h]
      refine (hperm.filter _).trans ?_
      have := filter_ne_append_cons s.next s.ob.asks [] hn_asks
      simp only [List.append_nil] at this
      rw [this]
    · have hp2 : (s.next :: s1.ob.asks).Perm (s.next :: s.ob.asks) := by
        rw [h]; exact hperm.trans (List.perm_append_singleton _ _)
      have hp3 := hp2.cons_inv
      rw [List.filter_eq_self.mpr]
      · exact hp3
      · intro x hx
        simpa using fun e : x = s.next => hfresh.2 (e ▸ hp3.subset hx)
  · intro hlen
    obtain ⟨l1, l2, hsplit, hins⟩ := insertOrder_asks_small pdq s
      (NewOrder orderType orderId Sell price quantity) rfl hfresh.2 hsorted hlen
    have hn12 : s.next ∉ l1 ++ l2 := by rw [← hsplit]; exact hfresh.2
    rcases ha1 with h | h
    · rw [h, hins, filter_ne_append_cons _ _ _ hn12, hsplit]
    · rw [hins] at h
      cases l1 with
      | nil =>
        simp only [List.nil_append, List.cons.injEq, true_and] at h
        rw [h, hsplit]
        simp only [List.nil_append]
        rw [List.filter_eq_self.mpr]
        intro x hx
        simpa using fun e : x = s.next => hn12 (by simp [← e, hx])
      | cons y l1 =>
        exfalso
        simp only [List.cons_append, List.cons.injEq] at h
        exact hn12 (by rw [← h.1]; simp)
  · intro x hx
    exact hh1 x (fun e => hfresh.2 (e ▸ hx)) (hdisj_old x hx)

/-- Claim C18 as stated fails for a side of more than 12 orders, where the order
among equal prices rests on `sort.Slice`, documented as not stable: with a sort
that meets its contract, a Buy 5@101 submitted to the sorted, uncrossed book of
twelve resting bids at 100 leaves the resting bids in reversed order. -/
theorem resting_bids_reordered :
    SortContract reversingSort ∧
    twelveBids.ob.bids = [0, 1, 2, 3, 4, 5, 6, 7, 8, 9, 10, 11] ∧ twelveBids.ob.asks = [] ∧
    (submitOrder reversingSort 2 twelveBids GoodTillCancel 12 Buy 101 5).map
      (fun s => s.ob.bids.filter (fun x => decide (x ≠ 12))) =
      some [11, 10, 9, 8, 7, 6, 5, 4, 3, 2, 1, 0] :=
  ⟨reversingSort_contract, by decide, rfl, by decide⟩

/-- Claim C18, amended: for every book that is sorted and uncrossed (every bid
priced below every ask) and every newly created Buy order, `AddOrder` returns and
every previously resting bid is still in `bids`, unchanged, so with the same
`remainingQuantity`; when `bids` held fewer than 12 orders the resting bids are
also in the same relative order; only the new order and orders in `asks` can be
filled or removed. Symmetrically, `AddOrder` of a Sell order leaves all
previously resting asks unchanged. -/
theorem own_side_untouched (pdq : (Nat → Nat → Bool) → List Nat → List Nat)
    (hpdq : SortContract pdq) (s : State) (orderType : Int) (orderId : Nat) (price : Int)
    (quantity : Nat) (hfresh : s.next ∉ s.ob.bids ∧ s.next ∉ s.ob.asks)
    (hsorted : SortedBook s)
    (hunc : ∀ b ∈ s.ob.bids, ∀ a ∈ s.ob.asks, (s.heap b).price < (s.heap a).price) :
    (∃ s1, submitOrder pdq (s.ob.bids.length + s.ob.asks.length + 2) s orderType orderId Buy
        price quantity = some s1 ∧
      (s1.ob.bids.filter (fun x => decide (x ≠ s.next))).Perm s.ob.bids ∧
      (s.ob.bids.length < 12 →
        s1.ob.bids.filter (fun x => decide (x ≠ s.next)) = s.ob.bids) ∧
      (∀ x ∈ s.ob.bids, s1.heap x = s.heap x) ∧
      (∀ x, x ≠ s.next → x ∉ s.ob.asks → s1.heap x = s.heap x) ∧
      (∀ x ∈ s1.ob.asks, x ∈ s.ob.asks)) ∧
    (∃ s1, submitOrder pdq (s.ob.bids.length + s.ob.asks.length + 2) s orderType orderId Sell
        price quantity = some s1 ∧
      (s1.ob.asks.filter (fun x => decide (x ≠ s.next))).Perm s.ob.asks ∧
      (s.ob.asks.length < 12 →
        s1.ob.asks.filter (fun x => decide (x ≠ s.next)) = s.ob.asks) ∧
      (∀ x ∈ s.ob.asks, s1.heap x = s.heap x) ∧
      (∀ x, x ≠ s.next → x ∉ s.ob.bids → s1.heap x = s.heap x) ∧
      (∀ x ∈ s1.ob.bids, x ∈ s.ob.bids)) :=
  ⟨own_side_untouched_buy pdq hpdq s orderType orderId price quantity hfresh hsorted.1 hunc,
    own_side_untouched_sell pdq hpdq s orderType orderId price quantity hfresh hsorted.2 hunc⟩

/-- Instance of the amended C18: an order of 7@101 submitted to the book holding
Buy 10@100 and Sell 5@101. -/
theorem own_side_untouched_witness :
    (∃ s1, submitOrder insertionSort
        (exampleBook.ob.bids.length + exampleBook.ob.asks.length + 2) exampleBook
        GoodTillCancel 3 Buy 101 7 = some s1 ∧
      (s1.ob.bids.filter (fun x => decide (x ≠ exampleBook.next))).Perm exampleBook.ob.bids ∧
      (exampleBook.ob.bids.length < 12 →
        s1.ob.bids.filter (fun x => decide (x ≠ exampleBook.next)) = exampleBook.ob.bids) ∧
      (∀ x ∈ exampleBook.ob.bids, s1.heap x = exampleBook.heap x) ∧
      (∀ x, x ≠ exampleBook.next → x ∉ exampleBook.ob.asks →
        s1.heap x = exampleBook.heap x) ∧
      (∀ x ∈ s1.ob.asks, x ∈ exampleBook.ob.asks)) ∧
    (∃ s1, submitOrder insertionSort
        (exampleBook.ob.bids.length + exampleBook.ob.asks.length + 2) exampleBook
        GoodTillCancel 3 Sell 101 7 = some s1 ∧
      (s1.ob.asks.filter (fun x => decide (x ≠ exampleBook.next))).Perm exampleBook.ob.asks ∧
      (exampleBook.ob.asks.length < 12 →
        s1.ob.asks.filter (fun x => decide (x ≠ exampleBook.next)) = exampleBook.ob.asks) ∧
      (∀ x ∈ exampleBook.ob.asks, s1.heap x = exampleBook.heap x) ∧
      (∀ x, x ≠ exampleBook.next → x ∉ exampleBook.ob.bids →
        s1.heap x = exampleBook.heap x) ∧
      (∀ x ∈ s1.ob.bids, x ∈ exampleBook.ob.bids)) :=
  own_side_untouched insertionSort insertionSort_contract exampleBook GoodTillCancel 3 101 7
    (by decide)
    ⟨by decide, by decide⟩
    (by decide)

/-! ## An incoming order sweeps the other side -/

theorem matchIter_heap_nonhead {s s1 : State} (h : matchIter s = some s1) {b a : Nat}
    {bs as : List Nat} (hb : s.ob.bids = b :: bs) (ha : s.ob.asks = a :: as) (x : Nat)
    (hxb : x ≠ b) (hxa : x ≠ a) : s1.heap x = s.heap x := by
  obtain ⟨b2, bs2, a2, as2, hb2, ha2, -, hh, -, -, -⟩ := matchIter_eq_some h
  rw [hb] at hb2
  rw [ha] at ha2
  have eb : b2 = b := (List.cons.inj hb2).1.symm
  have ea : a2 = a := (List.cons.inj ha2).1.symm
  subst eb ea
  rw [hh, setRemaining_other _ _ _ _ hxa, setRemaining_other _ _ _ _ hxb]

/-- A trading iteration between distinct heads with `uint32` quantities, in
terms of the lists and the heads. -/
theorem matchIter_heads {s : State} {b a : Nat} {bs as : List Nat}
    (hb : s.ob.bids = b :: bs) (ha : s.ob.asks = a :: as) (hne : b ≠ a)
    (hp : ¬ (s.heap b).price < (s.heap a).price)
    (hrb : (s.heap b).remainingQuantity < 4294967296)
    (hra : (s.heap a).remainingQuantity < 4294967296) :
    ∃ s1, matchIter s = some s1 ∧
      (s1.heap b).remainingQuantity = (s.heap b).remainingQuantity -
        min (s.heap b).remainingQuantity (s.heap a).remainingQuantity ∧
      (s1.heap a).remainingQuantity = (s.heap a).remainingQuantity -
        min (s.heap b).remainingQuantity (s.heap a).remainingQuantity ∧
      (∀ x, x ≠ b → x ≠ a → s1.heap x = s.heap x) ∧
      (∀ x, (s1.heap x).price = (s.heap x).price ∧
        (s1.heap x).initialQuantity = (s.heap x).initialQuantity) ∧
      s1.ob.bids = (if (s1.heap b).remainingQuantity = 0 then bs else b :: bs) ∧
      s1.ob.asks = (if (s1.heap a).remainingQuantity = 0 then as else a :: as) := by
  cases hm : matchIter s with
  | none =>
    exfalso
    rcases (matchIter_eq_none_iff s).mp hm with h | h | ⟨b2, a2, hb2, ha2, hlt⟩
    · rw [hb] at h; cases h
    · rw [ha] at h; cases h
    · rw [hb] at hb2
      rw [ha] at ha2
      simp only [List.head?_cons, Option.some.injEq] at hb2 ha2
      subst hb2 ha2
      exact hp hlt
  | some s1 =>
    obtain ⟨b2, bs2, a2, as2, hb2, ha2, -, hh, -, hb1, ha1⟩ := matchIter_eq_some hm
    rw [hb] at hb2
    rw [ha] at ha2
    obtain ⟨eb, ebs⟩ := List.cons.inj hb2
    obtain ⟨ea, eas⟩ := List.cons.inj ha2
    subst eb ebs ea eas
    have hab : a ≠ b := fun e => hne e.symm
    have h1 : (s1.heap b).remainingQuantity = (s.heap b).remainingQuantity -
        min (s.heap b).remainingQuantity (s.heap a).remainingQuantity := by
      rw [hh, setRemaining_other _ _ _ _ hne, setRemaining_same,
        subQ_of_le (Nat.min_le_left _ _) hrb]
    have h2 : (s1.heap a).remainingQuantity = (s.heap a).remainingQuantity -
        min (s.heap b).remainingQuantity (s.heap a).remainingQuantity := by
      rw [hh, setRemaining_same, setRemaining_other _ _ _ _ hab,
        subQ_of_le (Nat.min_le_right _ _) hra]
    refine ⟨s1, rfl, h1, h2, fun x hxb hxa => matchIter_heap_nonhead hm hb ha x hxb hxa,
      fun x => ⟨(matchIter_fields hm x).2.2.2.1, (matchIter_fields hm x).2.2.2.2⟩, hb1, ha1⟩

theorem eligibleAsks_congr {h1 h2 : Heap} {p : Int} {l : List Nat}
    (hl : ∀ x ∈ l, h1 x = h2 x) : eligibleAsks h1 p l = eligibleAsks h2 p l := by
  unfold eligibleAsks
  have hf : l.filter (fun a => decide ((h1 a).price ≤ p)) =
      l.filter (fun a => decide ((h2 a).price ≤ p)) :=
    List.filter_congr (fun x hx => by rw [hl x hx])
  rw [hf]
  exact sumRemaining_congr (fun x hx => by rw [hl x (List.mem_of_mem_filter hx)])

theorem eligibleAsks_cons_le (h : Heap) (p : Int) (a : Nat) (l : List Nat)
    (ha : (h a).price ≤ p) :
    eligibleAsks h p (a :: l) = (h a).remainingQuantity + eligibleAsks h p l := by
  unfold eligibleAsks
  rw [List.filter_cons, if_pos (by simpa using ha), sumRemaining_cons]

theorem eligibleAsks_above (h : Heap) (p : Int) (l : List Nat)
    (hl : ∀ x ∈ l, p < (h x).price) : eligibleAsks h p l = 0 := by
  unfold eligibleAsks
  rw [List.filter_eq_nil_iff.mpr]
  · rfl
  · intro x hx
    have := hl x hx
    simp only [decide_eq_true_eq]
    omega

theorem min_sweep (r ra e : Nat) (h : ra < r) :
    r - ra - min (r - ra) e = r - min r (ra + e) := by
  rcases Nat.le_total (r - ra) e with h1 | h1
  · rw [Nat.min_eq_left h1, Nat.min_eq_left (by omega)]; omega
  · rw [Nat.min_eq_right h1, Nat.min_eq_right (by omega)]; omega
/-- The matching loop with a bid `o` at the head of `bids` that is not in `asks`,
every other bid priced below every ask, and `asks` sorted, free of repeats and
with positive `uint32` quantities: the loop returns, and `o` has been filled by
the smaller of its quantity and the total of the asks within its price. -/
theorem sweep_buy : ∀ (as : List Nat) (t : State) (o : Nat) (bs : List Nat),
    t.ob.bids = o :: bs → t.ob.asks = as → o ∉ as → as.Nodup →
    (∀ a ∈ as, 0 < (t.heap a).remainingQuantity ∧ (t.heap a).remainingQuantity < 4294967296) →
    0 < (t.heap o).remainingQuantity → (t.heap o).remainingQuantity < 4294967296 →
    (∀ b ∈ bs, ∀ a ∈ as, (t.heap b).price < (t.heap a).price) →
    as.Pairwise (fun x y => (t.heap x).price ≤ (t.heap y).price) →
    ∃ t1, MatchOrder (as.length + 2) t = some t1 ∧
      (t1.heap o).remainingQuantity = (t.heap o).remainingQuantity -
        min (t.heap o).remainingQuantity (eligibleAsks t.heap (t.heap o).price as) ∧
      (t1.heap o).initialQuantity = (t.heap o).initialQuantity ∧
      (∀ x, x ≠ o → (x ∉ as ∨ (t.heap o).price < (t.heap x).price) → t1.heap x = t.heap x) := by
  intro as
  induction as with
  | nil =>
    intro t o bs hb ha _ _ _ _ _ _ _
    refine ⟨t, MatchOrder_of_noCross t ((matchIter_eq_none_iff t).mpr (Or.inr (Or.inl ha))) 1,
      ?_, rfl, fun _ _ _ => rfl⟩
    have : eligibleAsks t.heap (t.heap o).price [] = 0 := rfl
    rw [this]
    simp
  | cons a as ih =>
    intro t o bs hb ha hoas hnd hrem hro0 hro hunc hsorted
    have hoa : o ≠ a := fun e => hoas (by rw [e]; simp)
    have hoas2 : o ∉ as := fun h => hoas (List.mem_cons_of_mem _ h)
    have hnd2 := List.nodup_cons.mp hnd
    have hsorted2 := List.pairwise_cons.mp hsorted
    by_cases hlt : (t.heap o).price < (t.heap a).price
    · have hnc : NoCross t := Or.inr (Or.inr ⟨o, a, by rw [hb]; rfl, by rw [ha]; rfl, hlt⟩)
      have he : eligibleAsks t.heap (t.heap o).price (a :: as) = 0 := by
        apply eligibleAsks_above
        intro x hx
        rcases List.mem_cons.mp hx with rfl | hx2
        · exact hlt
        · exact lt_of_lt_of_le hlt (hsorted2.1 x hx2)
      refine ⟨t, MatchOrder_of_noCross t ((matchIter_eq_none_iff t).mpr hnc) _, ?_, rfl,
        fun _ _ _ => rfl⟩
      rw [he]
      simp
    · have hra := hrem a (by simp)
      obtain ⟨t2, hm, h1, h2, hother, hfields, hb2, ha2⟩ :=
        matchIter_heads hb ha hoa hlt hro hra.2
      have hape : (t.heap a).price ≤ (t.heap o).price := not_lt.mp hlt
      have he := eligibleAsks_cons_le t.heap (t.heap o).price a as hape
      have hstep : MatchOrder ((a :: as).length + 2) t = MatchOrder (as.length + 2) t2 := by
        show MatchOrder (as.length + 2 + 1) t = _
        rw [MatchOrder, hm]
      have hframe2 : ∀ x, x ≠ o → (x ∉ a :: as ∨ (t.heap o).price < (t.heap x).price) →
          t2.heap x = t.heap x := by
        intro x hxo hx
        refine hother x hxo ?_
        rintro rfl
        rcases hx with hx | hx
        · exact hx (by simp)
        · exact hlt hx
      rcases Nat.lt_or_ge (t.heap a).remainingQuantity (t.heap o).remainingQuantity with hgt | hle
      · -- the ask is filled, the bid goes on
        rw [Nat.min_eq_right (Nat.le_of_lt hgt)] at h1 h2
        have hb3 : t2.ob.bids = o :: bs := by
          rw [hb2, if_neg (by rw [h1]; omega)]
        have ha3 : t2.ob.asks = as := by
          rw [ha2, if_pos (by rw [h2]; omega)]
        have hsame : ∀ x ∈ as, t2.heap x = t.heap x := fun x hx =>
          hother x (fun e => hoas2 (e ▸ hx)) (fun e => hnd2.1 (e ▸ hx))
        obtain ⟨t1, hrun, hr1, hi1, hf1⟩ := ih t2 o bs hb3 ha3 hoas2 hnd2.2
          (fun x hx => by rw [hsame x hx]; exact hrem x (List.mem_cons_of_mem _ hx))
          (by rw [h1]; omega) (by rw [h1]; omega)
          (fun b hb4 x hx => by
            rw [(hfields b).1, (hfields x).1]
            exact hunc b hb4 x (List.mem_cons_of_mem _ hx))
          (hsorted2.2.imp (fun {x y} hxy => by rw [(hfields x).1, (hfields y).1]; exact hxy))
        rw [(hfields o).1, eligibleAsks_congr hsame] at hr1
        refine ⟨t1, by rw [hstep]; exact hrun, ?_, by rw [hi1, (hfields o).2], ?_⟩
        · rw [hr1, h1, he]
          exact min_sweep _ _ _ hgt
        · intro x hxo hx
          rw [← hframe2 x hxo hx]
          refine hf1 x hxo ?_
          rcases hx with hx | hx
          · exact Or.inl (fun h => hx (List.mem_cons_of_mem _ h))
          · exact Or.inr (by rw [(hfields o).1, (hfields x).1]; exact hx)
      · -- the bid is filled: the loop stops
        rw [Nat.min_eq_left hle] at h1 h2
        have hb3 : t2.ob.bids = bs := by
          rw [hb2, if_pos (by rw [h1]; omega)]
        have hnc : NoCross t2 := by
          cases hbs : bs with
          | nil => exact Or.inl (by rw [hb3, hbs])
          | cons b bs2 =>
            have hbm : b ∈ bs := by rw [hbs]; simp
            cases has : t2.ob.asks with
            | nil => exact Or.inr (Or.inl has)
            | cons a2 as2 =>
              refine Or.inr (Or.inr ⟨b, a2, by rw [hb3, hbs]; rfl, by rw [has]; rfl, ?_⟩)
              have ha2m : a2 ∈ a :: as := by
                have : a2 ∈ t2.ob.asks := by rw [has]; simp
                rw [ha2] at this
                split at this
                · exact List.mem_cons_of_mem _ this
                · exact this
              rw [(hfields b).1, (hfields a2).1]
              exact hunc b hbm a2 ha2m
        have hrun2 : MatchOrder ((a :: as).length + 2) t = some t2 := by
          rw [hstep]
          exact MatchOrder_of_noCross t2 ((matchIter_eq_none_iff t2).mpr hnc) _
        refine ⟨t2, hrun2, ?_, (hfields o).2, hframe2⟩
        rw [h1, he, Nat.min_eq_left (by omega)]
theorem eligibleBids_congr {h1 h2 : Heap} {p : Int} {l : List Nat}
    (hl : ∀ x ∈ l, h1 x = h2 x) : eligibleBids h1 p l = eligibleBids h2 p l := by
  unfold eligibleBids
  have hf : l.filter (fun b => decide (p ≤ (h1 b).price)) =
      l.filter (fun b => decide (p ≤ (h2 b).price)) :=
    List.filter_congr (fun x hx => by rw [hl x hx])
  rw [hf]
  exact sumRemaining_congr (fun x hx => by rw [hl x (List.mem_of_mem_filter hx)])

theorem eligibleBids_cons_le (h : Heap) (p : Int) (b : Nat) (l : List Nat)
    (hb : p ≤ (h b).price) :
    eligibleBids h p (b :: l) = (h b).remainingQuantity + eligibleBids h p l := by
  unfold eligibleBids
  rw [List.filter_cons, if_pos (by simpa using hb), sumRemaining_cons]

theorem eligibleBids_below (h : Heap) (p : Int) (l : List Nat)
    (hl : ∀ x ∈ l, (h x).price < p) : eligibleBids h p l = 0 := by
  unfold eligibleBids
  rw [List.filter_eq_nil_iff.mpr]
  · rfl
  · intro x hx
    have := hl x hx
    simp only [decide_eq_true_eq]
    omega

/-- The matching loop with an ask `o` at the head of `asks` that is not in `bids`,
every other ask priced above every bid, and `bids` sorted, free of repeats and
with positive `uint32` quantities: the loop returns, and `o` has been filled by
the smaller of its quantity and the total of the bids within its price. -/
theorem sweep_sell : ∀ (bs : List Nat) (t : State) (o : Nat) (as : List Nat),
    t.ob.asks = o :: as → t.ob.bids = bs → o ∉ bs → bs.Nodup →
    (∀ b ∈ bs, 0 < (t.heap b).remainingQuantity ∧ (t.heap b).remainingQuantity < 4294967296) →
    0 < (t.heap o).remainingQuantity → (t.heap o).remainingQuantity < 4294967296 →
    (∀ b ∈ bs, ∀ a ∈ as, (t.heap b).price < (t.heap a).price) →
    bs.Pairwise (fun x y => (t.heap y).price ≤ (t.heap x).price) →
    ∃ t1, MatchOrder (bs.length + 2) t = some t1 ∧
      (t1.heap o).remainingQuantity = (t.heap o).remainingQuantity -
        min (t.heap o).remainingQuantity (eligibleBids t.heap (t.heap o).price bs) ∧
      (t1.heap o).initialQuantity = (t.heap o).initialQuantity ∧
      (∀ x, x ≠ o → (x ∉ bs ∨ (t.heap x).price < (t.heap o).price) → t1.heap x = t.heap x) := by
  intro bs
  induction bs with
  | nil =>
    intro t o as _ hb _ _ _ _ _ _ _
    refine ⟨t, MatchOrder_of_noCross t ((matchIter_eq_none_iff t).mpr (Or.inl hb)) 1,
      ?_, rfl, fun _ _ _ => rfl⟩
    have : eligibleBids t.heap (t.heap o).price [] = 0 := rfl
    rw [this]
    simp
  | cons b bs ih =>
    intro t o as ha hb hobs hnd hrem hro0 hro hunc hsorted
    have hbo : b ≠ o := fun e => hobs (by rw [← e]; simp)
    have hobs2 : o ∉ bs := fun h => hobs (List.mem_cons_of_mem _ h)
    have hnd2 := List.nodup_cons.mp hnd
    have hsorted2 := List.pairwise_cons.mp hsorted
    by_cases hlt : (t.heap b).price < (t.heap o).price
    · have hnc : NoCross t := Or.inr (Or.inr ⟨b, o, by rw [hb]; rfl, by rw [ha]; rfl, hlt⟩)
      have he : eligibleBids t.heap (t.heap o).price (b :: bs) = 0 := by
        apply eligibleBids_below
        intro x hx
        rcases List.mem_cons.mp hx with rfl | hx2
        · exact hlt
        · exact lt_of_le_of_lt (hsorted2.1 x hx2) hlt
      refine ⟨t, MatchOrder_of_noCross t ((matchIter_eq_none_iff t).mpr hnc) _, ?_, rfl,
        fun _ _ _ => rfl⟩
      rw [he]
      simp
    · have hrb := hrem b (by simp)
      obtain ⟨t2, hm, h1, h2, hother, hfields, hb2, ha2⟩ :=
        matchIter_heads hb ha hbo hlt hrb.2 hro
      have hape : (t.heap o).price ≤ (t.heap b).price := not_lt.mp hlt
      have he := eligibleBids_cons_le t.heap (t.heap o).price b bs hape
      have hstep : MatchOrder ((b :: bs).length + 2) t = MatchOrder (bs.length + 2) t2 := by
        show MatchOrder (bs.length + 2 + 1) t = _
        rw [MatchOrder, hm]
      have hframe2 : ∀ x, x ≠ o → (x ∉ b :: bs ∨ (t.heap x).price < (t.heap o).price) →
          t2.heap x = t.heap x := by
        intro x hxo hx
        refine hother x ?_ hxo
        rintro rfl
        rcases hx with hx | hx
        · exact hx (by simp)
        · exact hlt hx
      rcases Nat.lt_or_ge (t.heap b).remainingQuantity (t.heap o).remainingQuantity with hgt | hle
      · -- the bid is filled, the ask goes on
        rw [Nat.min_eq_left (Nat.le_of_lt hgt)] at h1 h2
        have ha3 : t2.ob.asks = o :: as := by
          rw [ha2, if_neg (by rw [h2]; omega)]
        have hb3 : t2.ob.bids = bs := by
          rw [hb2, if_pos (by rw [h1]; omega)]
        have hsame : ∀ x ∈ bs, t2.heap x = t.heap x := fun x hx =>
          hother x (fun e => hnd2.1 (e ▸ hx)) (fun e => hobs2 (e ▸ hx))
        obtain ⟨t1, hrun, hr1, hi1, hf1⟩ := ih t2 o as ha3 hb3 hobs2 hnd2.2
          (fun x hx => by rw [hsame x hx]; exact hrem x (List.mem_cons_of_mem _ hx))
          (by rw [h2]; omega) (by rw [h2]; omega)
          (fun x hx a ha4 => by
            rw [(hfields x).1, (hfields a).1]
            exact hunc x (List.mem_cons_of_mem _ hx) a ha4)
          (hsorted2.2.imp (fun {x y} hxy => by rw [(hfields x).1, (hfields y).1]; exact hxy))
        rw [(hfields o).1, eligibleBids_congr hsame] at hr1
        refine ⟨t1, by rw [hstep]; exact hrun, ?_, by rw [hi1, (hfields o).2], ?_⟩
        · rw [hr1, h2, he]
          exact min_sweep _ _ _ hgt
        · intro x hxo hx
          rw [← hframe2 x hxo hx]
          refine hf1 x hxo ?_
          rcases hx with hx | hx
          · exact Or.inl (fun h => hx (List.mem_cons_of_mem _ h))
          · exact Or.inr (by rw [(hfields o).1, (hfields x).1]; exact hx)
      · -- the ask is filled: the loop stops
        rw [Nat.min_eq_right hle] at h1 h2
        have ha3 : t2.ob.asks = as := by
          rw [ha2, if_pos (by rw [h2]; omega)]
        have hnc : NoCross t2 := by
          cases has : as with
          | nil => exact Or.inr (Or.inl (by rw [ha3, has]))
          | cons a as2 =>
            have ham : a ∈ as := by rw [has]; simp
            cases hbs : t2.ob.bids with
            | nil => exact Or.inl hbs
            | cons b2 bs2 =>
              refine Or.inr (Or.inr ⟨b2, a, by rw [hbs]; rfl, by rw [ha3, has]; rfl, ?_⟩)
              have hb2m : b2 ∈ b :: bs := by
                have : b2 ∈ t2.ob.bids := by rw [hbs]; simp
                rw [hb2] at this
                split at this
                · exact List.mem_cons_of_mem _ this
                · exact this
              rw [(hfields b2).1, (hfields a).1]
              exact hunc b2 hb2m a ham
        have hrun2 : MatchOrder ((b :: bs).length + 2) t = some t2 := by
          rw [hstep]
          exact MatchOrder_of_noCross t2 ((matchIter_eq_none_iff t2).mpr hnc) _
        refine ⟨t2, hrun2, ?_, (hfields o).2, hframe2⟩
        rw [h2, he, Nat.min_eq_left (by omega)]
/-- A newly created Buy order `q`@`p` submitted to a book whose asks are sorted,
free of repeats and positive, with every bid priced below every ask: the call
returns, the order has been filled by the smaller of `q` and the total of the
asks priced at or below `p`, and the asks priced above `p` are as they were. -/
theorem sweep_amount_buy (pdq : (Nat → Nat → Bool) → List Nat → List Nat)
    (hpdq : SortContract pdq) (s : State) (orderType : Int) (orderId : Nat) (price : Int)
    (quantity : Nat) (hq0 : 0 < quantity) (hq : quantity < 4294967296)
    (hfresh : s.next ∉ s.ob.bids ∧ s.next ∉ s.ob.asks)
    (hsorted : s.ob.asks.Pairwise (fun x y => (s.heap x).price ≤ (s.heap y).price))
    (hunc : ∀ b ∈ s.ob.bids, ∀ a ∈ s.ob.asks, (s.heap b).price < (s.heap a).price)
    (hrem : ∀ a ∈ s.ob.asks, 0 < (s.heap a).remainingQuantity ∧
      (s.heap a).remainingQuantity < 4294967296)
    (hnd : s.ob.asks.Nodup) :
    ∃ s1, submitOrder pdq (s.ob.bids.length + s.ob.asks.length + 2) s orderType orderId Buy
        price quantity = some s1 ∧
      (s1.heap s.next).FilledQuantity = min quantity (eligibleAsks s.heap price s.ob.asks) ∧
      (∀ a ∈ s.ob.asks, price < (s.heap a).price → s1.heap a = s.heap a) := by
  have hold := allocOrder_heap_old s (NewOrder orderType orderId Buy price quantity)
  have hnew := allocOrder_heap_new s (NewOrder orderType orderId Buy price quantity)
  have hside : ((allocOrder s (NewOrder orderType orderId Buy price quantity)).heap
      s.next).side = Buy := by rw [hnew]; rfl
  have hbids := insertOrder_bids pdq
    (allocOrder s (NewOrder orderType orderId Buy price quantity)) s.next
  rw [if_pos hside] at hbids
  have hc := sortSlice_contract hpdq
    (fun i j => decide (((allocOrder s (NewOrder orderType orderId Buy price quantity)).heap
      i).price > ((allocOrder s (NewOrder orderType orderId Buy price quantity)).heap j).price))
    (s.ob.bids ++ [s.next])
    (by intro a b; simp only [decide_eq_true_eq, decide_eq_false_iff_not]; omega)
    (by intro a b c; simp only [decide_eq_false_iff_not]; omega)
  have hperm : (insertOrder pdq (allocOrder s (NewOrder orderType orderId Buy price quantity))
      s.next).ob.bids.Perm (s.ob.bids ++ [s.next]) := by
    rw [hbids]; exact hc.1
  have hasks : (insertOrder pdq (allocOrder s (NewOrder orderType orderId Buy price quantity))
      s.next).ob.asks = s.ob.asks := by
    rw [insertOrder_asks, if_neg (by rw [hside]; simp)]
    rfl
  have hheap := insertOrder_heap pdq
    (allocOrder s (NewOrder orderType orderId Buy price quantity)) s.next
  have hne : ∀ a ∈ s.ob.asks, a ≠ s.next := fun a ha e => hfresh.2 (e ▸ ha)
  have hneb : ∀ b ∈ s.ob.bids, b ≠ s.next := fun b hb e => hfresh.1 (e ▸ hb)
  have hsameA : ∀ a ∈ s.ob.asks, (insertOrder pdq
      (allocOrder s (NewOrder orderType orderId Buy price quantity)) s.next).heap a =
      s.heap a := fun a ha => by rw [hheap]; exact hold a (hne a ha)
  have hsameB : ∀ b ∈ s.ob.bids, (insertOrder pdq
      (allocOrder s (NewOrder orderType orderId Buy price quantity)) s.next).heap b =
      s.heap b := fun b hb => by rw [hheap]; exact hold b (hneb b hb)
  have hnewO : (insertOrder pdq (allocOrder s (NewOrder orderType orderId Buy price quantity))
      s.next).heap s.next = NewOrder orderType orderId Buy price quantity := by
    rw [hheap]; exact hnew
  unfold submitOrder AddOrder
  by_cases hcross : ∃ a as, s.ob.asks = a :: as ∧ (s.heap a).price ≤ price
  · obtain ⟨a, as, has, hap⟩ := hcross
    have ham : a ∈ s.ob.asks := by rw [has]; simp
    obtain ⟨rest, hb, hrest⟩ := head_of_sorted_perm _ s.ob.bids _ s.next hperm
      (by rw [hbids]; exact hc.2)
      (fun y hy => by
        have h1 := hunc y hy a ham
        rw [hnew, hold y (hneb y hy)]
        simp only [decide_eq_true_eq]
        show (s.heap y).price < price
        omega)
      hfresh.1
    obtain ⟨t1, hrun, hr, hi, hf⟩ := sweep_buy s.ob.asks _ s.next rest hb hasks hfresh.2 hnd
      (fun x hx => by rw [hsameA x hx]; exact hrem x hx)
      (by rw [hnewO]; exact hq0) (by rw [hnewO]; exact hq)
      (fun b hb2 x hx => by
        rw [hsameB b (hrest.subset hb2), hsameA x hx]
        exact hunc b (hrest.subset hb2) x hx)
      (hsorted.imp_of_mem (fun {x y} hx hy hxy => by rw [hsameA x hx, hsameA y hy]; exact hxy))
    have hrun2 := MatchOrder_mono _ _ _ hrun s.ob.bids.length
    rw [show s.ob.asks.length + 2 + s.ob.bids.length =
      s.ob.bids.length + s.ob.asks.length + 2 by omega] at hrun2
    refine ⟨t1, hrun2, ?_, ?_⟩
    · rw [hnewO, eligibleAsks_congr hsameA] at hr
      rw [hnewO] at hi
      unfold Order.FilledQuantity Order.InitialQuantity Order.RemainingQuantity
      rw [hr, hi]
      have hr2 : (NewOrder orderType orderId Buy price quantity).remainingQuantity = quantity :=
        rfl
      have hp2 : (NewOrder orderType orderId Buy price quantity).price = price := rfl
      have hi2 : (NewOrder orderType orderId Buy price quantity).initialQuantity = quantity :=
        rfl
      rw [hr2, hp2, hi2, subQ_of_le (Nat.sub_le _ _) hq]
      have := Nat.min_le_left quantity (eligibleAsks s.heap price s.ob.asks)
      omega
    · intro x hx hpx
      rw [hf x (hne x hx) (Or.inr (by rw [hnewO, hsameA x hx]; exact hpx))]
      exact hsameA x hx
  · have habove : ∀ x ∈ s.ob.asks, price < (s.heap x).price := by
      intro x hx
      cases has : s.ob.asks with
      | nil => rw [has] at hx; cases hx
      | cons a as =>
        have hpa : price < (s.heap a).price := by
          by_contra hcon
          exact hcross ⟨a, as, has, not_lt.mp hcon⟩
        rw [has] at hx hsorted
        rcases List.mem_cons.mp hx with rfl | hx2
        · exact hpa
        · exact lt_of_lt_of_le hpa ((List.pairwise_cons.mp hsorted).1 x hx2)
    have hnc : NoCross (insertOrder pdq
        (allocOrder s (NewOrder orderType orderId Buy price quantity)) s.next) := by
      cases hbs : (insertOrder pdq (allocOrder s (NewOrder orderType orderId Buy price quantity))
        s.next).ob.bids with
      | nil => exact Or.inl hbs
      | cons z zs =>
        cases has : s.ob.asks with
        | nil => exact Or.inr (Or.inl (by rw [hasks, has]))
        | cons a as =>
          have ham : a ∈ s.ob.asks := by rw [has]; simp
          refine Or.inr (Or.inr ⟨z, a, by rw [hbs]; rfl, by rw [hasks, has]; rfl, ?_⟩)
          have hz : z ∈ s.ob.bids ++ [s.next] := hperm.subset (by rw [hbs]; simp)
          rw [hsameA a ham]
          rcases List.mem_append.mp hz with h | h
          · rw [hsameB z h]; exact hunc z h a ham
          · rw [List.mem_singleton.mp h, hnewO]; exact habove a ham
    refine ⟨_, MatchOrder_of_noCross _ ((matchIter_eq_none_iff _).mpr hnc) _, ?_, ?_⟩
    · rw [hnewO, eligibleAsks_above _ _ _ habove]
      unfold Order.FilledQuantity Order.InitialQuantity Order.RemainingQuantity
      show subQ quantity quantity = min quantity 0
      rw [subQ_self]
      simp
    · intro x hx _
      exact hsameA x hx
/-- A newly created Sell order `q`@`p` submitted to a book whose bids are sorted,
free of repeats and positive, with every bid priced below every ask: the call
returns, the order has been filled by the smaller of `q` and the total of the
bids priced at or above `p`, and the bids priced below `p` are as they were. -/
theorem sweep_amount_sell (pdq : (Nat → Nat → Bool) → List Nat → List Nat)
    (hpdq : SortContract pdq) (s : State) (orderType : Int) (orderId : Nat) (price : Int)
    (quantity : Nat) (hq0 : 0 < quantity) (hq : quantity < 4294967296)
    (hfresh : s.next ∉ s.ob.bids ∧ s.next ∉ s.ob.asks)
    (hsorted : s.ob.bids.Pairwise (fun x y => (s.heap y).price ≤ (s.heap x).price))
    (hunc : ∀ b ∈ s.ob.bids, ∀ a ∈ s.ob.asks, (s.heap b).price < (s.heap a).price)
    (hrem : ∀ b ∈ s.ob.bids, 0 < (s.heap b).remainingQuantity ∧
      (s.heap b).remainingQuantity < 4294967296)
    (hnd : s.ob.bids.Nodup) :
    ∃ s1, submitOrder pdq (s.ob.bids.length + s.ob.asks.length + 2) s orderType orderId Sell
        price quantity = some s1 ∧
      (s1.heap s.next).FilledQuantity = min quantity (eligibleBids s.heap price s.ob.bids) ∧
      (∀ b ∈ s.ob.bids, (s.heap b).price < price → s1.heap b = s.heap b) := by
  have hold := allocOrder_heap_old s (NewOrder orderType orderId Sell price quantity)
  have hnew := allocOrder_heap_new s (NewOrder orderType orderId Sell price quantity)
  have hside : ((allocOrder s (NewOrder orderType orderId Sell price quantity)).heap
      s.next).side = Sell := by rw [hnew]; rfl
  have hasks := insertOrder_asks pdq
    (allocOrder s (NewOrder orderType orderId Sell price quantity)) s.next
  rw [if_pos hside] at hasks
  have hc := sortSlice_contract hpdq
    (fun i j => decide (((allocOrder s (NewOrder orderType orderId Sell price quantity)).heap
      i).price < ((allocOrder s (NewOrder orderType orderId Sell price quantity)).heap j).price))
    (s.ob.asks ++ [s.next])
    (by intro a b; simp only [decide_eq_true_eq, decide_eq_false_iff_not]; omega)
    (by intro a b c; simp only [decide_eq_false_iff_not]; omega)
  have hperm : (insertOrder pdq (allocOrder s (NewOrder orderType orderId Sell price quantity))
      s.next).ob.asks.Perm (s.ob.asks ++ [s.next]) := by
    rw [hasks]; exact hc.1
  have hbids : (insertOrder pdq (allocOrder s (NewOrder orderType orderId Sell price quantity))
      s.next).ob.bids = s.ob.bids := by
    rw [insertOrder_bids, if_neg (by rw [hside]; simp)]
    rfl
  have hheap := insertOrder_heap pdq
    (allocOrder s (NewOrder orderType orderId Sell price quantity)) s.next
  have hne : ∀ a ∈ s.ob.asks, a ≠ s.next := fun a ha e => hfresh.2 (e ▸ ha)
  have hneb : ∀ b ∈ s.ob.bids, b ≠ s.next := fun b hb e => hfresh.1 (e ▸ hb)
  have hsameA : ∀ a ∈ s.ob.asks, (insertOrder pdq
      (allocOrder s (NewOrder orderType orderId Sell price quantity)) s.next).heap a =
      s.heap a := fun a ha => by rw [hheap]; exact hold a (hne a ha)
  have hsameB : ∀ b ∈ s.ob.bids, (insertOrder pdq
      (allocOrder s (NewOrder orderType orderId Sell price quantity)) s.next).heap b =
      s.heap b := fun b hb => by rw [hheap]; exact hold b (hneb b hb)
  have hnewO : (insertOrder pdq (allocOrder s (NewOrder orderType orderId Sell price quantity))
      s.next).heap s.next = NewOrder orderType orderId Sell price quantity := by
    rw [hheap]; exact hnew
  unfold submitOrder AddOrder
  by_cases hcross : ∃ b bs, s.ob.bids = b :: bs ∧ price ≤ (s.heap b).price
  · obtain ⟨b, bs, hbs, hbp⟩ := hcross
    have hbm : b ∈ s.ob.bids := by rw [hbs]; simp
    obtain ⟨rest, ha, hrest⟩ := head_of_sorted_perm _ s.ob.asks _ s.next hperm
      (by rw [hasks]; exact hc.2)
      (fun y hy => by
        have h1 := hunc b hbm y hy
        rw [hnew, hold y (hne y hy)]
        simp only [decide_eq_true_eq]
        show price < (s.heap y).price
        omega)
      hfresh.2
    obtain ⟨t1, hrun, hr, hi, hf⟩ := sweep_sell s.ob.bids _ s.next rest ha hbids hfresh.1 hnd
      (fun x hx => by rw [hsameB x hx]; exact hrem x hx)
      (by rw [hnewO]; exact hq0) (by rw [hnewO]; exact hq)
      (fun x hx a ha2 => by
        rw [hsameB x hx, hsameA a (hrest.subset ha2)]
        exact hunc x hx a (hrest.subset ha2))
      (hsorted.imp_of_mem (fun {x y} hx hy hxy => by rw [hsameB x hx, hsameB y hy]; exact hxy))
    have hrun2 := MatchOrder_mono _ _ _ hrun s.ob.asks.length
    rw [show s.ob.bids.length + 2 + s.ob.asks.length =
      s.ob.bids.length + s.ob.asks.length + 2 by omega] at hrun2
    refine ⟨t1, hrun2, ?_, ?_⟩
    · rw [hnewO, eligibleBids_congr hsameB] at hr
      rw [hnewO] at hi
      unfold Order.FilledQuantity Order.InitialQuantity Order.RemainingQuantity
      rw [hr, hi]
      have hr2 : (NewOrder orderType orderId Sell price quantity).remainingQuantity = quantity :=
        rfl
      have hp2 : (NewOrder orderType orderId Sell price quantity).price = price := rfl
      have hi2 : (NewOrder orderType orderId Sell price quantity).initialQuantity = quantity :=
        rfl
      rw [hr2, hp2, hi2, subQ_of_le (Nat.sub_le _ _) hq]
      have := Nat.min_le_left quantity (eligibleBids s.heap price s.ob.bids)
      omega
    · intro x hx hpx
      rw [hf x (hneb x hx) (Or.inr (by rw [hnewO, hsameB x hx]; exact hpx))]
      exact hsameB x hx
  · have hbelow : ∀ x ∈ s.ob.bids, (s.heap x).price < price := by
      intro x hx
      cases hbs : s.ob.bids with
      | nil => rw [hbs] at hx; cases hx
      | cons b bs =>
        have hpb : (s.heap b).price < price := by
          by_contra hcon
          exact hcross ⟨b, bs, hbs, not_lt.mp hcon⟩
        rw [hbs] at hx hsorted
        rcases List.mem_cons.mp hx with rfl | hx2
        · exact hpb
        · exact lt_of_le_of_lt ((List.pairwise_cons.mp hsorted).1 x hx2) hpb
    have hnc : NoCross (insertOrder pdq
        (allocOrder s (NewOrder orderType orderId Sell price quantity)) s.next) := by
      cases has : (insertOrder pdq (allocOrder s (NewOrder orderType orderId Sell price quantity))
        s.next).ob.asks with
      | nil => exact Or.inr (Or.inl has)
      | cons z zs =>
        cases hbs : s.ob.bids with
        | nil => exact Or.inl (by rw [hbids, hbs])
        | cons b bs =>
          have hbm : b ∈ s.ob.bids := by rw [hbs]; simp
          refine Or.inr (Or.inr ⟨b, z, by rw [hbids, hbs]; rfl, by rw [has]; rfl, ?_⟩)
          have hz : z ∈ s.ob.asks ++ [s.next] := hperm.subset (by rw [has]; simp)
          rw [hsameB b hbm]
          rcases List.mem_append.mp hz with h | h
          · rw [hsameA z h]; exact hunc b hbm z h
          · rw [List.mem_singleton.mp h, hnewO]; exact hbelow b hbm
    refine ⟨_, MatchOrder_of_noCross _ ((matchIter_eq_none_iff _).mpr hnc) _, ?_, ?_⟩
    · rw [hnewO, eligibleBids_below _ _ _ hbelow]
      unfold Order.FilledQuantity Order.InitialQuantity Order.RemainingQuantity
      show subQ quantity quantity = min quantity 0
      rw [subQ_self]
      simp
    · intro x hx _
      exact hsameB x hx
/-- Claim C17 as stated fails. The book whose `asks` holds one order twice
(Sell 3@100) and no bids is sorted, uncrossed and has positive remaining
quantities everywhere, and the sum of `remainingQuantity` over its asks priced at
or below 100 is 6; a new Buy order 10@100 is filled by 3, not by
`min 10 6 = 6`: the second entry is the same order, already filled by the first
trade. -/
theorem sweep_amount_with_repeated_ask :
    SortedBook duplicateAsks ∧
    (∀ b ∈ duplicateAsks.ob.bids, ∀ a ∈ duplicateAsks.ob.asks,
      (duplicateAsks.heap b).price < (duplicateAsks.heap a).price) ∧
    (∀ p ∈ duplicateAsks.ob.bids ++ duplicateAsks.ob.asks,
      0 < (duplicateAsks.heap p).remainingQuantity ∧
      (duplicateAsks.heap p).remainingQuantity < 4294967296) ∧
    (duplicateAsks.next ∉ duplicateAsks.ob.bids ∧ duplicateAsks.next ∉ duplicateAsks.ob.asks) ∧
    eligibleAsks duplicateAsks.heap 100 duplicateAsks.ob.asks = 6 ∧
    (submitOrder insertionSort 4 duplicateAsks GoodTillCancel 9 Buy 100 10).map
      (fun s1 => (s1.heap duplicateAsks.next).FilledQuantity) = some 3 :=
  ⟨⟨by decide, by decide⟩, by decide, by decide, by decide, by decide, by decide⟩

/-- Claim C17, amended: for every book that is sorted, uncrossed (every bid
priced below every ask), holds no order twice on a side and whose resting orders
all have a remaining quantity above zero, and every newly created Buy order of
quantity `q > 0` and price `p`, `AddOrder` returns and the filled quantity of the
order is `min q` of the sum of `remainingQuantity` over the asks that had price
at most `p` before the call, over natural numbers, and every ask priced above
`p` is left as it was. Symmetrically for a Sell order against the bids priced at
least `p`. -/
theorem sweep_amount (pdq : (Nat → Nat → Bool) → List Nat → List Nat)
    (hpdq : SortContract pdq) (s : State) (orderType : Int) (orderId : Nat) (price : Int)
    (quantity : Nat) (hq0 : 0 < quantity) (hq : quantity < 4294967296)
    (hfresh : s.next ∉ s.ob.bids ∧ s.next ∉ s.ob.asks)
    (hsorted : SortedBook s)
    (hunc : ∀ b ∈ s.ob.bids, ∀ a ∈ s.ob.asks, (s.heap b).price < (s.heap a).price)
    (hrem : ∀ p ∈ s.ob.bids ++ s.ob.asks, 0 < (s.heap p).remainingQuantity ∧
      (s.heap p).remainingQuantity < 4294967296)
    (hnd : NoDuplicates s) :
    (∃ s1, submitOrder pdq (s.ob.bids.length + s.ob.asks.length + 2) s orderType orderId Buy
        price quantity = some s1 ∧
      (s1.heap s.next).FilledQuantity = min quantity (eligibleAsks s.heap price s.ob.asks) ∧
      (∀ a ∈ s.ob.asks, price < (s.heap a).price → s1.heap a = s.heap a)) ∧
    (∃ s1, submitOrder pdq (s.ob.bids.length + s.ob.asks.length + 2) s orderType orderId Sell
        price quantity = some s1 ∧
      (s1.heap s.next).FilledQuantity = min quantity (eligibleBids s.heap price s.ob.bids) ∧
      (∀ b ∈ s.ob.bids, (s.heap b).price < price → s1.heap b = s.heap b)) :=
  ⟨sweep_amount_buy pdq hpdq s orderType orderId price quantity hq0 hq hfresh hsorted.2 hunc
      (fun a ha => hrem a (List.mem_append_right _ ha)) hnd.2,
    sweep_amount_sell pdq hpdq s orderType orderId price quantity hq0 hq hfresh hsorted.1 hunc
      (fun b hb => hrem b (List.mem_append_left _ hb)) hnd.1⟩

/-- Instance of the amended C17: an order of 7@101 submitted to the book holding
Buy 10@100 and Sell 5@101. -/
theorem sweep_amount_witness :
    (∃ s1, submitOrder insertionSort
        (exampleBook.ob.bids.length + exampleBook.ob.asks.length + 2) exampleBook
        GoodTillCancel 3 Buy 101 7 = some s1 ∧
      (s1.heap exampleBook.next).FilledQuantity =
        min 7 (eligibleAsks exampleBook.heap 101 exampleBook.ob.asks) ∧
      (∀ a ∈ exampleBook.ob.asks, 101 < (exampleBook.heap a).price →
        s1.heap a = exampleBook.heap a)) ∧
    (∃ s1, submitOrder insertionSort
        (exampleBook.ob.bids.length + exampleBook.ob.asks.length + 2) exampleBook
        GoodTillCancel 3 Sell 101 7 = some s1 ∧
      (s1.heap exampleBook.next).FilledQuantity =
        min 7 (eligibleBids exampleBook.heap 101 exampleBook.ob.bids) ∧
      (∀ b ∈ exampleBook.ob.bids, (exampleBook.heap b).price < 101 →
        s1.heap b = exampleBook.heap b)) :=
  sweep_amount insertionSort insertionSort_contract exampleBook GoodTillCancel 3 101 7
    (by decide) (by decide) (by decide) ⟨by decide, by decide⟩ (by decide) (by decide)
    (by decide)

end Orderbook
